import Mathlib

/-!
# `juce::URL` and `WebInputStream` (src/io/network/juce_URL.cpp)

Shallow embedding of the URL value class (percent codec, query parsing, builders,
heuristics) and of the stream that fetches it, and proofs about them.

Data representation.  A JUCE `String` is represented by the list of the bytes of its
UTF-8 form (`JString`), a byte being a natural number below 256, so that
`String::toUTF8` is the identity and does not appear.  `String::fromUTF8`, which the
percent codec calls on the raw bytes it has edited, is `JString.fromUTF8`: it is the
identity on well-formed UTF-8 without a zero byte (`JString.isWellFormed`), and its
result never holds a zero byte or a byte outside a well-formed character.  Every
character the code searches for or compares with (`?`, `&`, `=`, `+`, `%`, `/`, `:`,
`@`, `.`, the letters of `"www."`) is ASCII, and an ASCII byte never occurs inside a multi-byte UTF-8 sequence, so
searching and slicing the bytes agrees with searching and slicing the characters.  An
`Array<char>` is a list of bytes as well, a `char` being read as its unsigned value.
Indices are `Int` where the source uses `int` with `-1` for "not found".  ASCII
characters are written by their code, with the character in a comment.

Loops are functions defined by well-founded recursion on the distance to the end of
the string or array, so these functions are total.  The one loop that need not end, the
read-and-discard loop of `InputStream::skipNextBytes`, runs on fuel and gives `none`
when the fuel does not suffice.
-/

/-- A JUCE string: the bytes of its UTF-8 form. -/
abbrev JString := List Nat

/-- An ASCII literal as a `JString`. -/
def lit (s : String) : JString := s.toList.map Char.toNat

/-! ## `String`, `Array<char>` and `CharacterFunctions` primitives

The bodies of these library classes are not in `juce_URL.cpp`; they are modelled after
their documented behaviour. -/

/-- Modelled from the spec: scan used by `String::indexOfChar` (body not in
`juce_URL.cpp`).  `indexOfCharFrom c xs k` is the index of the first `c` in `xs`,
where `xs` starts at index `k`; `-1` when there is none. -/
def indexOfCharFrom (c : Nat) : List Nat → Nat → Int
  | [], _ => -1
  | x :: xs, k => if x = c then (k : Int) else indexOfCharFrom c xs (k + 1)

namespace JString

/-- Modelled from the spec: `String::indexOfChar (startIndex, c)` (body not in
`juce_URL.cpp`): index of the first `c` at or after `startIndex`, `-1` when there is
none.  The one-argument `indexOfChar (c)` is the call with `startIndex = 0`. -/
def indexOfChar (s : JString) (startIndex : Int) (c : Nat) : Int :=
  indexOfCharFrom c (s.drop startIndex.toNat) startIndex.toNat

/-- Modelled from the spec: `String::operator[]` (body not in `juce_URL.cpp`): the
character at `i`, and the terminating `0` at the end of the string. -/
def charAt (s : JString) (i : Int) : Nat :=
  if i < 0 then 0 else s.getD i.toNat 0

/-- Modelled from the spec: `String::substring (start, end)` (body not in
`juce_URL.cpp`): the characters from `start` up to but not including `end`, both
clipped to the string; empty when `end <= start`. -/
def substring (s : JString) (start stop : Int) : JString :=
  (s.take stop.toNat).drop start.toNat

/-- Modelled from the spec: `String::substring (start)` (body not in `juce_URL.cpp`):
the characters from `start` to the end. -/
def substringFrom (s : JString) (start : Int) : JString :=
  s.drop start.toNat

/-- Modelled from the spec: `String::containsChar` (body not in `juce_URL.cpp`). -/
def containsChar (s : JString) (c : Nat) : Bool :=
  decide (0 ≤ indexOfChar s 0 c)

/-- Modelled from the spec: `String::replaceCharacter` (body not in `juce_URL.cpp`):
every occurrence of `a` becomes `b`. -/
def replaceCharacter (s : JString) (a b : Nat) : JString :=
  s.map (fun c => if c = a then b else c)

/-- Modelled from the spec: `String::upToFirstOccurrenceOf (sub, false, false)` for a
one-character `sub` (body not in `juce_URL.cpp`): the part before the first
occurrence, the whole string when there is none. -/
def upToFirstOccurrenceOfChar (s : JString) (c : Nat) : JString :=
  let i := indexOfChar s 0 c
  if i < 0 then s else substring s 0 i

/-- Modelled from the spec: `String::startsWithChar` (body not in `juce_URL.cpp`). -/
def startsWithChar (s : JString) (c : Nat) : Bool :=
  match s with
  | [] => false
  | x :: _ => decide (x = c)

/-- Modelled from the spec: `String::endsWithChar` (body not in `juce_URL.cpp`). -/
def endsWithChar (s : JString) (c : Nat) : Bool :=
  match s.getLast? with
  | none => false
  | some x => decide (x = c)

/-- Modelled from the spec: the number of bytes of the character at the head of a "UTF-8
byte sequence" (decoding is not in `juce_URL.cpp`): 1 for an ASCII byte other than
the terminating zero, 2 to 4 for a well-formed multi-byte character (lead byte followed
by continuation bytes, in the ranges of the Unicode Standard), and 0 when no character
starts there. -/
def characterLength : List Nat → Nat
  | [] => 0
  | c :: rest =>
    if 1 ≤ c ∧ c ≤ 127 then 1
    else if 194 ≤ c ∧ c ≤ 223 then
      match rest with
      | c1 :: _ => if 128 ≤ c1 ∧ c1 ≤ 191 then 2 else 0
      | [] => 0
    else if 224 ≤ c ∧ c ≤ 239 then
      match rest with
      | c1 :: c2 :: _ =>
        if ((if c = 224 then 160 else 128) ≤ c1 ∧ c1 ≤ (if c = 237 then 159 else 191))
            ∧ (128 ≤ c2 ∧ c2 ≤ 191) then 3 else 0
      | _ => 0
    else if 240 ≤ c ∧ c ≤ 244 then
      match rest with
      | c1 :: c2 :: c3 :: _ =>
        if ((if c = 240 then 144 else 128) ≤ c1 ∧ c1 ≤ (if c = 244 then 143 else 191))
            ∧ (128 ≤ c2 ∧ c2 ≤ 191) ∧ (128 ≤ c3 ∧ c3 ≤ 191) then 4 else 0
      | _ => 0
    else 0

/-- Modelled from the spec: the scan of `String::fromUTF8` (body not in `juce_URL.cpp`),
on fuel, one unit for each byte looked at.  It "recombines" raw UTF-8 bytes into the
characters of a string "so that multi-byte chars are handled": the scan ends at a zero
byte, the terminator of a `String`; a well-formed character is kept with all its bytes;
a byte at which no character starts is no part of any character and is left out.  The
theorems use the last clause only through the result being well-formed UTF-8. -/
def fromUTF8Loop : Nat → List Nat → JString
  | 0, _ => []
  | _ + 1, [] => []
  | fuel + 1, c :: rest =>
    if c = 0 then []
    else if characterLength (c :: rest) = 0 then fromUTF8Loop fuel rest
    else (c :: rest).take (characterLength (c :: rest))
          ++ fromUTF8Loop fuel ((c :: rest).drop (characterLength (c :: rest)))

/-- Modelled from the spec: `String::fromUTF8 (buffer, bufferSizeBytes)` (body not in
`juce_URL.cpp`): the string recombined from the raw bytes, as the bytes of its UTF-8
form.  The number of bytes is fuel enough, each step of the scan passing at least one
byte. -/
def fromUTF8 (utf8 : List Nat) : JString := fromUTF8Loop utf8.length utf8

/-- The check, on fuel, that a byte list is made of well-formed characters only. -/
def isWellFormedLoop : Nat → List Nat → Bool
  | _, [] => true
  | 0, _ :: _ => false
  | fuel + 1, c :: rest =>
    decide (characterLength (c :: rest) ≠ 0)
      && isWellFormedLoop fuel ((c :: rest).drop (characterLength (c :: rest)))

/-- The byte list is the UTF-8 form of a string: well-formed UTF-8 without a zero
byte. -/
def isWellFormed (s : JString) : Bool := isWellFormedLoop s.length s

end JString

namespace CharArray

/-- Modelled from the spec: `Array<char>::operator[]` (body not in `juce_URL.cpp`):
the element at `i`, a default `0` when `i` is out of range. -/
def get (a : List Nat) (i : Nat) : Nat := a.getD i 0

/-- Modelled from the spec: `Array<char>::set` (body not in `juce_URL.cpp`): replaces
the element at `i`; appends when `i` is past the end. -/
def set (a : List Nat) (i : Nat) (x : Nat) : List Nat :=
  if i < a.length then List.set a i x else a ++ [x]

/-- Modelled from the spec: `Array<char>::insert` (body not in `juce_URL.cpp`): puts
`x` before the element at `i`; appends when `i` is past the end. -/
def insert (a : List Nat) (i : Nat) (x : Nat) : List Nat :=
  a.take i ++ x :: a.drop i

/-- Modelled from the spec: `Array<char>::removeRange` (body not in `juce_URL.cpp`):
removes `n` elements starting at `start`, clipped to the array. -/
def removeRange (a : List Nat) (start n : Nat) : List Nat :=
  a.take start ++ a.drop (start + n)

end CharArray

namespace CharacterFunctions

/-- Modelled from the spec: `CharacterFunctions::isLetterOrDigit` (body not in
`juce_URL.cpp`): an ASCII letter or digit. -/
def isLetterOrDigit (c : Nat) : Bool :=
  (97 ≤ c && c ≤ 122) || (65 ≤ c && c ≤ 90) || (48 ≤ c && c ≤ 57)

/-- Modelled from the spec: `CharacterFunctions::indexOfChar (text, c, false)` (body not in
`juce_URL.cpp`): index of `c` in the zero-terminated `text`, `-1` when absent. -/
def indexOfChar (text : List Nat) (c : Nat) : Int :=
  indexOfCharFrom c text 0

/-- Modelled from the spec: `CharacterFunctions::getHexDigitValue` (body not in
`juce_URL.cpp`): the value of a hexadecimal digit of either case, `-1` for any other
character. -/
def getHexDigitValue (digit : Nat) : Int :=
  if 48 ≤ digit ∧ digit ≤ 57 then (digit : Int) - 48
  else if 97 ≤ digit ∧ digit ≤ 102 then (digit : Int) - 97 + 10
  else if 65 ≤ digit ∧ digit ≤ 70 then (digit : Int) - 65 + 10
  else -1

end CharacterFunctions

/-! ## `StringPairArray` and the URL value -/

/-- Modelled from the spec: `StringPairArray` (class not in `juce_URL.cpp`), the
"ordered mapping of string→string, insertion order preserved", as the list of its
(key, value) entries in insertion order. -/
abbrev StringPairArray := List (JString × JString)

namespace StringPairArray

/-- Modelled from the spec: `StringPairArray::size`. -/
def size (a : StringPairArray) : Nat := a.length

/-- Modelled from the spec: `StringPairArray::getAllKeys`. -/
def getAllKeys (a : StringPairArray) : List JString := a.map Prod.fst

/-- Modelled from the spec: `StringPairArray::getAllValues`. -/
def getAllValues (a : StringPairArray) : List JString := a.map Prod.snd

/-- Modelled from the spec: `StringPairArray::set`, "last-write-wins on `set`": the
value of an existing key is replaced in place, a new key is added at the end. -/
def set : StringPairArray → JString → JString → StringPairArray
  | [], key, value => [(key, value)]
  | (k, v) :: rest, key, value =>
    if k = key then (k, value) :: rest else (k, v) :: set rest key value

/-- Modelled from the spec: `StringPairArray::operator[]`: the value stored for `key`,
the empty string when there is none. -/
def getValue : StringPairArray → JString → JString
  | [], _ => []
  | (k, v) :: rest, key => if k = key then v else getValue rest key

end StringPairArray

/-- Modelled from the spec: `StringArray::operator[]` (body not in `juce_URL.cpp`):
the string at `i`, the empty string when `i` is out of range. -/
def StringArray.get (a : List JString) (i : Nat) : JString := a.getD i []

/-- The data members of `URL`.  A `File` to upload is kept as its full path name. -/
structure URL where
  url : JString
  postData : JString
  parameters : StringPairArray
  filesToUpload : StringPairArray
  mimeTypes : StringPairArray
deriving DecidableEq

/-! ## Percent codec -/

namespace URL

/-- The table `"0123456789abcdef"` of `addEscapeChars`. -/
def hexDigits : List Nat := lit "0123456789abcdef"

/-- The `legalChars` of `addEscapeChars`. -/
def legalChars (isParameter : Bool) : List Nat :=
  if isParameter then lit "_-.*!'()" else lit ",$_-.*!'()"

/-- The `for` loop of `URL::addEscapeChars`, from index `i` on, over the array `utf8`
that the loop edits in place. -/
def addEscapeLoop (legal : List Nat) (utf8 : List Nat) (i : Nat) : List Nat :=
  if i < utf8.length then
    let c := CharArray.get utf8 i
    if ! (CharacterFunctions.isLetterOrDigit c
            || decide (0 ≤ CharacterFunctions.indexOfChar legal c)) then
      if c = 32 /- ' ' -/ then
        addEscapeLoop legal (CharArray.set utf8 i 43 /- '+' -/) (i + 1)
      else
        let a1 := CharArray.set utf8 i 37 /- '%' -/
        let a2 := CharArray.insert a1 (i + 1) (CharArray.get hexDigits ((c % 256) / 16))
        let a3 := CharArray.insert a2 (i + 2) (CharArray.get hexDigits (c % 16))
        addEscapeLoop legal a3 (i + 3)
    else
      addEscapeLoop legal utf8 (i + 1)
  else utf8
termination_by utf8.length - i
decreasing_by
  all_goals simp_wf
  all_goals (try simp only [CharArray.set, CharArray.insert])
  all_goals (try split)
  all_goals (try simp)
  all_goals omega

/-- The method `URL::addEscapeChars (s, isParameter)`. -/
def addEscapeChars (s : JString) (isParameter : Bool) : JString :=
  JString.fromUTF8 (addEscapeLoop (legalChars isParameter) s 0)

/-- The `for` loop of `URL::removeEscapeChars`, from index `i` on, over the array `utf8`
that the loop edits in place. -/
def removeEscapeLoop (utf8 : List Nat) (i : Nat) : List Nat :=
  if i < utf8.length then
    if CharArray.get utf8 i = 37 /- '%' -/ then
      let hexDigit1 := CharacterFunctions.getHexDigitValue (CharArray.get utf8 (i + 1))
      let hexDigit2 := CharacterFunctions.getHexDigitValue (CharArray.get utf8 (i + 2))
      if 0 ≤ hexDigit1 ∧ 0 ≤ hexDigit2 then
        let a1 := CharArray.set utf8 i (((hexDigit1 * 16 + hexDigit2) % 256).toNat)
        removeEscapeLoop (CharArray.removeRange a1 (i + 1) 2) (i + 1)
      else
        removeEscapeLoop utf8 (i + 1)
    else
      removeEscapeLoop utf8 (i + 1)
  else utf8
termination_by utf8.length - i
decreasing_by
  all_goals simp_wf
  all_goals (try simp only [CharArray.set, CharArray.removeRange])
  all_goals (try split)
  all_goals (try simp)
  all_goals omega

/-- The method `URL::removeEscapeChars (s)`. -/
def removeEscapeChars (s : JString) : JString :=
  let result := JString.replaceCharacter s 43 /- '+' -/ 32 /- ' ' -/
  if ! JString.containsChar result 37 /- '%' -/ then result
  else JString.fromUTF8 (removeEscapeLoop result 0)

end URL

/-! ## Construction, rendering and the builders -/

namespace URL

/-- The default constructor `URL::URL()`. -/
def empty : URL :=
  { url := [], postData := [], parameters := [], filesToUpload := [], mimeTypes := [] }

/-- The `do ... while (i >= 0)` loop of `URL::URL (const String&)`: one pass of the body
at index `i`, then again at `nextAmp` while that is not negative. -/
def parseLoop (url : JString) (i : Int) (parameters : StringPairArray) : StringPairArray :=
  let nextAmp := JString.indexOfChar url (i + 1) 38 /- '&' -/
  let equalsPos := JString.indexOfChar url (i + 1) 61 /- '=' -/
  let parameters1 :=
    if equalsPos > i + 1 then
      if nextAmp < 0 then
        parameters.set (removeEscapeChars (JString.substring url (i + 1) equalsPos))
                       (removeEscapeChars (JString.substringFrom url (equalsPos + 1)))
      else if nextAmp > 0 ∧ equalsPos < nextAmp then
        parameters.set (removeEscapeChars (JString.substring url (i + 1) equalsPos))
                       (removeEscapeChars (JString.substring url (equalsPos + 1) nextAmp))
      else parameters
    else parameters
  if 0 ≤ nextAmp then parseLoop url nextAmp parameters1 else parameters1
termination_by ((url.length : Int) - i).toNat
decreasing_by
  have key : ∀ (xs : List Nat) (k : Nat), 0 ≤ indexOfCharFrom 38 xs k →
      (k : Int) ≤ indexOfCharFrom 38 xs k ∧ indexOfCharFrom 38 xs k < k + xs.length := by
    intro xs
    induction xs with
    | nil => intro k h; simp [indexOfCharFrom] at h
    | cons x xs ih =>
      intro k h
      simp only [indexOfCharFrom] at h ⊢
      split
      · simp
      · rename_i hx
        simp only [hx, if_false] at h
        have := ih (k + 1) h
        simp only [List.length_cons]
        push_cast at this ⊢
        omega
  rename_i h
  have hk := key _ _ h
  simp only [JString.indexOfChar] at *
  simp only [List.length_drop] at hk
  omega

/-- The constructor `URL::URL (const String& url_)`. -/
def ofString (url_ : JString) : URL :=
  let i := JString.indexOfChar url_ 0 63 /- '?' -/
  if 0 ≤ i then
    { url := JString.upToFirstOccurrenceOfChar url_ 63
      postData := []
      parameters := parseLoop url_ i []
      filesToUpload := []
      mimeTypes := [] }
  else
    { url := url_, postData := [], parameters := [], filesToUpload := [], mimeTypes := [] }

/-- The copy constructor `URL::URL (const URL& other)`, and `operator=`. -/
def copy (other : URL) : URL :=
  { url := other.url
    postData := other.postData
    parameters := other.parameters
    filesToUpload := other.filesToUpload
    mimeTypes := other.mimeTypes }

/-- The function `getMangledParameters`: the `for` loop over `i = 0 .. parameters.size() - 1`. -/
def getMangledParameters (parameters : StringPairArray) : JString :=
  (List.range parameters.size).foldl
    (fun p i =>
      let p1 := if 0 < i then p ++ [38 /- '&' -/] else p
      p1 ++ addEscapeChars (StringArray.get parameters.getAllKeys i) true
         ++ [61 /- '=' -/]
         ++ addEscapeChars (StringArray.get parameters.getAllValues i) true)
    []

/-- The method `URL::toString (includeGetParameters)`. -/
def toString (u : URL) (includeGetParameters : Bool) : JString :=
  if includeGetParameters ∧ 0 < u.parameters.size then
    u.url ++ [63 /- '?' -/] ++ getMangledParameters u.parameters
  else u.url

/-- The loop condition of `findStartOfDomain`: a letter, a digit, or one of `+-.`. -/
def isSchemeChar (c : Nat) : Bool :=
  CharacterFunctions.isLetterOrDigit c
    || decide (0 ≤ CharacterFunctions.indexOfChar (lit "+-.") c)

/-- The `while` loop of `findStartOfDomain`: the first index at or after `i` whose
character fails the loop condition. -/
def skipSchemeChars (url : JString) (i : Nat) : Nat :=
  if isSchemeChar (JString.charAt url i) then skipSchemeChars url (i + 1) else i
termination_by url.length - i
decreasing_by
  rename_i h
  have hi : i < url.length := by
    by_contra hge
    have : JString.charAt url i = 0 := by
      have hn : url[i]? = none := List.getElem?_eq_none (Nat.le_of_not_lt hge)
      simp [JString.charAt, hn]
    rw [this] at h
    exact absurd h (by decide)
  omega

/-- The function `findStartOfDomain (url)`. -/
def findStartOfDomain (url : JString) : Nat :=
  let i := skipSchemeChars url 0
  if JString.charAt url i = 58 /- ':' -/ then i + 1 else 0

/-- The loop `while (url[start] == '/') ++start;` of `getDomain`, `getSubPath` and
`withNewSubPath`. -/
def skipSlashes (url : JString) (start : Nat) : Nat :=
  if JString.charAt url start = 47 /- '/' -/ then skipSlashes url (start + 1) else start
termination_by url.length - start
decreasing_by
  rename_i h
  have hi : start < url.length := by
    by_contra hge
    have : JString.charAt url start = 0 := by
      have hn : url[start]? = none := List.getElem?_eq_none (Nat.le_of_not_lt hge)
      simp [JString.charAt, hn]
    rw [this] at h
    exact absurd h (by decide)
  omega

/-- The method `URL::getDomain`. -/
def getDomain (u : URL) : JString :=
  let start := skipSlashes u.url (findStartOfDomain u.url)
  let end1 := JString.indexOfChar u.url start 47 /- '/' -/
  let end2 := JString.indexOfChar u.url start 58 /- ':' -/
  let stop := if end1 < 0 ∨ end2 < 0 then max end1 end2 else min end1 end2
  JString.substring u.url start stop

/-- The method `URL::getSubPath`. -/
def getSubPath (u : URL) : JString :=
  let start := skipSlashes u.url (findStartOfDomain u.url)
  let startOfPath := JString.indexOfChar u.url start 47 /- '/' -/ + 1
  if startOfPath ≤ 0 then [] else JString.substringFrom u.url startOfPath

/-- The method `URL::getScheme`. -/
def getScheme (u : URL) : JString :=
  JString.substring u.url 0 ((findStartOfDomain u.url : Int) - 1)

/-- The method `URL::withNewSubPath (newPath)`; `url1`, `url2`, `url3` are the successive values
of `u.url`. -/
def withNewSubPath (this : URL) (newPath : JString) : URL :=
  let start := skipSlashes this.url (findStartOfDomain this.url)
  let startOfPath := JString.indexOfChar this.url start 47 /- '/' -/ + 1
  let u := copy this
  let url1 := if 0 < startOfPath then JString.substring this.url 0 startOfPath else u.url
  let url2 := if ! JString.endsWithChar url1 47 then url1 ++ [47] else url1
  let url3 := if JString.startsWithChar newPath 47 then url2 ++ JString.substringFrom newPath 1
              else url2 ++ newPath
  { u with url := url3 }

/-- The method `URL::withParameter (parameterName, parameterValue)`. -/
def withParameter (this : URL) (parameterName parameterValue : JString) : URL :=
  let u := copy this
  { u with parameters := u.parameters.set parameterName parameterValue }

/-- The method `URL::withFileToUpload (parameterName, fileToUpload, mimeType)`; the `jassert` on
`mimeType` is a debug-build check and has no effect on the value returned. -/
def withFileToUpload (this : URL) (parameterName fileToUpload mimeType : JString) : URL :=
  let u := copy this
  let u1 := { u with filesToUpload := u.filesToUpload.set parameterName fileToUpload }
  { u1 with mimeTypes := u1.mimeTypes.set parameterName mimeType }

/-- The method `URL::withPOSTData (postData_)`. -/
def withPOSTData (this : URL) (postData_ : JString) : URL :=
  let u := copy this
  { u with postData := postData_ }

end URL

/-! ## Byte-wise description of the codec (after the specification's words) -/

namespace Spec

/-- The lowercase hexadecimal digit of a nibble `n < 16`. -/
def hexDigitLower (n : Nat) : Nat := if n < 10 then 48 + n else 87 + n

/-- The punctuation that `encode` passes through, per context. -/
def whitelist (isParameterContext : Bool) : List Nat :=
  if isParameterContext then [95, 45, 46, 42, 33, 39, 40, 41]
  else [44, 36, 95, 45, 46, 42, 33, 39, 40, 41]

/-- An ASCII letter or digit. -/
def isAlnum (c : Nat) : Prop :=
  (97 ≤ c ∧ c ≤ 122) ∨ (65 ≤ c ∧ c ≤ 90) ∨ (48 ≤ c ∧ c ≤ 57)

instance (c : Nat) : Decidable (isAlnum c) := by unfold isAlnum; infer_instance

/-- What `encode` writes for one byte: the byte itself when it is alphanumeric or
whitelisted, `+` for a space, otherwise `%` and two lowercase hex digits, high nibble
first. -/
def encodeByte (isParameterContext : Bool) (c : Nat) : List Nat :=
  if isAlnum c ∨ c ∈ whitelist isParameterContext then [c]
  else if c = 32 then [43]
  else [37, hexDigitLower (c / 16), hexDigitLower (c % 16)]


/-- A hexadecimal digit of either case. -/
def isHexDigit (c : Nat) : Prop :=
  (48 ≤ c ∧ c ≤ 57) ∨ (97 ≤ c ∧ c ≤ 102) ∨ (65 ≤ c ∧ c ≤ 70)

instance (c : Nat) : Decidable (isHexDigit c) := by unfold isHexDigit; infer_instance

/-- The value of a hexadecimal digit. -/
def hexValue (c : Nat) : Nat :=
  if c ≤ 57 then c - 48 else if c ≤ 70 then c - 55 else c - 87

/-- What `decode` does after `+` has been replaced: every `%` followed by two
hexadecimal digits collapses, with them, to the one byte they denote; any other byte,
a `%` of a malformed or truncated escape included, is kept. A decoded byte is not
scanned again. -/
def unescape : List Nat → List Nat
  | [] => []
  | c :: rest =>
    match rest with
    | h1 :: h2 :: rest2 =>
      if c = 37 ∧ isHexDigit h1 ∧ isHexDigit h2 then
        (16 * hexValue h1 + hexValue h2) :: unescape rest2
      else c :: unescape (h1 :: h2 :: rest2)
    | [h1] => [c, h1]
    | [] => [c]

end Spec

/-- The printable ASCII characters, `0x20` to `0x7E`. -/
def isPrintableAscii (c : Nat) : Prop := 0x20 ≤ c ∧ c ≤ 0x7E

instance (c : Nat) : Decidable (isPrintableAscii c) := by
  unfold isPrintableAscii; infer_instance

/-! ## Query strings, segment by segment (after the specification's words) -/

namespace Spec

/-- The key of a query segment: the characters before its first `=`. -/
def segmentKey (seg : JString) : JString := seg.takeWhile (fun c => decide (c ≠ 61))

/-- The value of a query segment: the characters after its first `=`. -/
def segmentValue (seg : JString) : JString := seg.drop ((segmentKey seg).length + 1)

/-- What one `&`-delimited segment of a query string adds to the parameters: a segment
without `=`, or with an empty key, adds nothing; any other segment sets its
percent-decoded key to its percent-decoded value. -/
def addSegment (parameters : StringPairArray) (seg : JString) : StringPairArray :=
  if 61 ∈ seg ∧ segmentKey seg ≠ [] then
    parameters.set (URL.removeEscapeChars (segmentKey seg))
      (URL.removeEscapeChars (segmentValue seg))
  else parameters

/-- The query string `k1=v1&...&kn=vn` of a list of (key, value) pairs. -/
def queryOf (pairs : List (JString × JString)) : JString :=
  List.intercalate [38] (pairs.map (fun p => p.1 ++ 61 :: p.2))

end Spec

namespace Spec

/-- The "mangled" parameters: the pairs `key=value`, both encoded with the
parameter-context rules, joined with `&` in insertion order. -/
def mangle (parameters : StringPairArray) : JString :=
  List.intercalate [38]
    (parameters.map
      (fun p => URL.addEscapeChars p.1 true ++ 61 :: URL.addEscapeChars p.2 true))

/-- A byte string: every element is below 256. -/
def isByteString (s : JString) : Prop := ∀ c ∈ s, c < 256

instance (s : JString) : Decidable (isByteString s) := by
  unfold isByteString; infer_instance

end Spec

/-! ## Values reachable through the public constructors and builders -/

/-- The URL values obtained from `URL()` or `URL (String)` by finitely many calls of the
copy constructor and of the `withX` builders, each `withFileToUpload` being given a
non-empty MIME type. -/
inductive Reachable : URL → Prop
  | empty : Reachable URL.empty
  | ofString (s : JString) : Reachable (URL.ofString s)
  | copy {u : URL} : Reachable u → Reachable (URL.copy u)
  | withParameter {u : URL} (name value : JString) :
      Reachable u → Reachable (URL.withParameter u name value)
  | withPOSTData {u : URL} (postData : JString) :
      Reachable u → Reachable (URL.withPOSTData u postData)
  | withNewSubPath {u : URL} (newPath : JString) :
      Reachable u → Reachable (URL.withNewSubPath u newPath)
  | withFileToUpload {u : URL} (name file mimeType : JString) :
      Reachable u → mimeType ≠ [] → Reachable (URL.withFileToUpload u name file mimeType)

/-! ## Case-insensitive matching and the website heuristic -/

namespace CharacterFunctions

/-- Modelled from the spec: `CharacterFunctions::toLowerCase` (body not in
`juce_URL.cpp`), on ASCII: an upper-case letter becomes its lower-case letter, any other
byte is kept. -/
def toLowerCase (c : Nat) : Nat := if 65 ≤ c ∧ c ≤ 90 then c + 32 else c

end CharacterFunctions

namespace JString

/-- Modelled from the spec: `String::startsWithIgnoreCase` (body not in `juce_URL.cpp`):
the first characters of `s` are those of `other`, letter case apart. -/
def startsWithIgnoreCase (s other : JString) : Bool :=
  decide ((s.take other.length).map CharacterFunctions.toLowerCase
            = other.map CharacterFunctions.toLowerCase)

/-- Modelled from the spec: `String::containsIgnoreCase` (body not in `juce_URL.cpp`):
`other` occurs in `s` at some index, letter case apart. -/
def containsIgnoreCase : JString → JString → Bool
  | [], other => startsWithIgnoreCase [] other
  | c :: rest, other =>
    startsWithIgnoreCase (c :: rest) other || containsIgnoreCase rest other

end JString

namespace URL

/-- The table `commonTLDs` of `isProbablyAWebsiteURL`. -/
def commonTLDs : List JString :=
  [lit "com", lit "net", lit "org", lit "uk", lit "de", lit "fr", lit "jp"]

/-- The method `URL::isProbablyAWebsiteURL (possibleURL)`; the `for` loop over
`commonTLDs`, which returns `true` at the first match, is `List.any`. -/
def isProbablyAWebsiteURL (possibleURL : JString) : Bool :=
  if JString.startsWithIgnoreCase possibleURL (lit "http:")
      || JString.startsWithIgnoreCase possibleURL (lit "ftp:") then
    true
  else if JString.startsWithIgnoreCase possibleURL (lit "file:")
      || JString.containsChar possibleURL 64 /- '@' -/
      || JString.endsWithChar possibleURL 46 /- '.' -/
      || ! JString.containsChar possibleURL 46 /- '.' -/ then
    false
  else if JString.startsWithIgnoreCase possibleURL (lit "www.")
      && JString.containsChar (JString.substringFrom possibleURL 5) 46 /- '.' -/ then
    true
  else
    commonTLDs.any
      (fun tld => JString.containsIgnoreCase (possibleURL ++ lit "/")
                    (lit "." ++ tld ++ lit "/"))

end URL

/-! ## The transport and `WebInputStream`

The platform functions `juce_openInternetFile`, `juce_closeInternetFile`,
`juce_readFromInternetFile` and `juce_seekInInternetFile` are declared in
`juce_URL.cpp` and defined in the platform backends: they are a parameter
(`Transport`), over a state `σ` of the platform's choosing.  Every call is recorded, in
order, in `World.calls`.  A handle is a number, `0` for the null pointer.  The bytes a
read stores in the caller's buffer are not represented, only their count.  The
progress callback and its context are passed through unchanged and are left out.
`int64` values are integers (no stream position comes near `2^63`); an `int` that is
cast from an `int64` or returned by the platform is reduced to 32 bits by `toInt32`. -/

/-- The value of a 64-bit integer cast to `int`, and of an `int` result: the
representative of `x` modulo `2^32` in `[-2^31, 2^31)`. -/
def toInt32 (x : Int) : Int := (x + 2147483648) % 4294967296 - 2147483648

/-- One call of a platform function, with its arguments. -/
inductive TransportCall where
  | openInternetFile (url headers : JString) (optionalPostData : List Nat)
      (isPost : Bool) (timeOutMs : Int)
  | closeInternetFile (handle : Nat)
  | readFromInternetFile (handle : Nat) (bytesToRead : Int)
  | seekInInternetFile (handle : Nat) (newPosition : Int)
  | getInternetFileHeaders (handle : Nat)
deriving DecidableEq

/-- The platform functions, as functions of the platform's state. -/
structure Transport (σ : Type) where
  openInternetFile : σ → JString → JString → List Nat → Bool → Int → Nat × σ
  closeInternetFile : σ → Nat → σ
  readFromInternetFile : σ → Nat → Int → Int × σ
  seekInInternetFile : σ → Nat → Int → Int × σ
  getInternetFileHeaders : σ → Nat → σ

/-- The platform's state and the calls made so far, oldest first. -/
structure World (σ : Type) where
  state : σ
  calls : List TransportCall

/-- The call `juce_openInternetFile (...)`. -/
def juce_openInternetFile {σ : Type} (T : Transport σ) (w : World σ)
    (url headers : JString) (optionalPostData : List Nat) (isPost : Bool)
    (timeOutMs : Int) : Nat × World σ :=
  let r := T.openInternetFile w.state url headers optionalPostData isPost timeOutMs
  (r.1, { state := r.2
          calls := w.calls ++ [TransportCall.openInternetFile url headers optionalPostData
                                isPost timeOutMs] })

/-- The call `juce_closeInternetFile (handle)`. -/
def juce_closeInternetFile {σ : Type} (T : Transport σ) (w : World σ) (handle : Nat) :
    World σ :=
  { state := T.closeInternetFile w.state handle
    calls := w.calls ++ [TransportCall.closeInternetFile handle] }

/-- The call `juce_readFromInternetFile (handle, dest, bytesToRead)`. -/
def juce_readFromInternetFile {σ : Type} (T : Transport σ) (w : World σ) (handle : Nat)
    (bytesToRead : Int) : Int × World σ :=
  let r := T.readFromInternetFile w.state handle bytesToRead
  (toInt32 r.1, { state := r.2
                  calls := w.calls ++ [TransportCall.readFromInternetFile handle bytesToRead] })

/-- The call `juce_seekInInternetFile (handle, newPosition)`. -/
def juce_seekInInternetFile {σ : Type} (T : Transport σ) (w : World σ) (handle : Nat)
    (newPosition : Int) : Int × World σ :=
  let r := T.seekInInternetFile w.state handle newPosition
  (toInt32 r.1, { state := r.2
                  calls := w.calls ++ [TransportCall.seekInInternetFile handle newPosition] })

/-- The call `juce_getInternetFileHeaders (handle, headers)`. -/
def juce_getInternetFileHeaders {σ : Type} (T : Transport σ) (w : World σ) (handle : Nat) :
    World σ :=
  { state := T.getInternetFileHeaders w.state handle
    calls := w.calls ++ [TransportCall.getInternetFileHeaders handle] }

/-- What `createHeadersAndPostData` takes from outside the class: the boundary
`String::toHexString (Random::getSystemRandom().nextInt64())`, the name
`File (path).getFileName()` of a file and the bytes that `data << file` writes for
it. -/
structure UploadEnv where
  boundary : JString
  getFileName : JString → JString
  fileBytes : JString → List Nat

/-- Modelled from the spec: `String (unsigned int)` (body not in `juce_URL.cpp`): the
decimal digits of the number. -/
def decimalString (n : Nat) : JString := (Nat.toDigits 10 n).map Char.toNat

/-- The data members of `WebInputStream` (the progress callback and its context
apart). -/
structure WebInputStream where
  server : JString
  headers : JString
  postData : List Nat
  position : Int
  finished : Bool
  isPost : Bool
  handle : Nat
  timeOutMs : Int
deriving DecidableEq

namespace WebInputStream

/-- The first `for` loop of `createHeadersAndPostData`: one part per parameter, written
to `data`. -/
def writeParameterParts (boundary : JString) (parameters : StringPairArray)
    (data : List Nat) : List Nat :=
  (List.range parameters.size).foldl
    (fun data i =>
      data ++ lit "\r\nContent-Disposition: form-data; name=\""
           ++ StringArray.get parameters.getAllKeys i
           ++ lit "\"\r\n\r\n"
           ++ StringArray.get parameters.getAllValues i
           ++ lit "\r\n--"
           ++ boundary)
    data

/-- The second `for` loop of `createHeadersAndPostData`: one part per file to upload,
written to `data`. -/
def writeFileParts (env : UploadEnv) (url : URL) (data : List Nat) : List Nat :=
  (List.range url.filesToUpload.size).foldl
    (fun data i =>
      let file := StringArray.get url.filesToUpload.getAllValues i
      let paramName := StringArray.get url.filesToUpload.getAllKeys i
      let data1 := data ++ lit "\r\nContent-Disposition: form-data; name=\"" ++ paramName
                        ++ lit "\"; filename=\"" ++ env.getFileName file ++ lit "\"\r\n"
      let mimeType := url.mimeTypes.getValue paramName
      let data2 := if mimeType ≠ [] then data1 ++ lit "Content-Type: " ++ mimeType ++ lit "\r\n"
                   else data1
      data2 ++ lit "Content-Transfer-Encoding: binary\r\n\r\n"
            ++ env.fileBytes file ++ lit "\r\n--" ++ env.boundary)
    data

/-- The method `WebInputStream::createHeadersAndPostData (url)`: the new values of
`headers` and `postData`, from the current value of `headers`. -/
def createHeadersAndPostData (env : UploadEnv) (headers : JString) (url : URL) :
    JString × List Nat :=
  if 0 < url.filesToUpload.size then
    let boundary := env.boundary
    let headers1 := headers ++ lit "Content-Type: multipart/form-data; boundary="
                      ++ boundary ++ lit "\r\n"
    let data0 := lit "--" ++ boundary
    let data1 := writeParameterParts boundary url.parameters data0
    let data2 := writeFileParts env url data1
    let data3 := data2 ++ lit "--\r\n"
    (headers1, data3)
  else
    let data := URL.getMangledParameters url.parameters ++ url.postData
    let headers1 := lit "Content-Type: application/x-www-form-urlencoded\r\nContent-length: "
                      ++ decimalString (data.length % 4294967296)
                      ++ lit "\r\n"
    (headers1, data)

/-- The constructor `WebInputStream::WebInputStream (url, isPost_, ..., extraHeaders,
timeOutMs_, responseHeaders)`; `wantResponseHeaders` is `responseHeaders != 0`. -/
def create {σ : Type} (T : Transport σ) (env : UploadEnv) (w : World σ) (url : URL)
    (isPost_ : Bool) (extraHeaders : JString) (timeOutMs_ : Int)
    (wantResponseHeaders : Bool) : WebInputStream × World σ :=
  let server := URL.toString url (! isPost_)
  let made := if isPost_ then createHeadersAndPostData env [] url else ([], [])
  let headers1 := made.1 ++ extraHeaders
  let headers2 := if ! JString.endsWithChar headers1 10 /- '\n' -/ then headers1 ++ lit "\r\n"
                  else headers1
  let opened := juce_openInternetFile T w server headers2 made.2 isPost_ timeOutMs_
  let w2 := if wantResponseHeaders then juce_getInternetFileHeaders T opened.2 opened.1
            else opened.2
  ({ server := server, headers := headers2, postData := made.2, position := 0,
     finished := false, isPost := isPost_, handle := opened.1, timeOutMs := timeOutMs_ },
   w2)

/-- The method `WebInputStream::isError`. -/
def isError (s : WebInputStream) : Bool := decide (s.handle = 0)

/-- The method `WebInputStream::isExhausted`. -/
def isExhausted (s : WebInputStream) : Bool := s.finished

/-- The method `WebInputStream::getPosition`. -/
def getPosition (s : WebInputStream) : Int := s.position

/-- The method `WebInputStream::read (dest, bytes)`: the value returned, the stream and
the world after the call. -/
def read {σ : Type} (T : Transport σ) (s : WebInputStream) (w : World σ) (bytes : Int) :
    Int × WebInputStream × World σ :=
  if s.finished || s.isError then
    (0, s, w)
  else
    let r := juce_readFromInternetFile T w s.handle bytes
    let bytesRead := r.1
    (bytesRead,
     { s with position := s.position + bytesRead,
              finished := if bytesRead = 0 then true else s.finished },
     r.2)

/-- Modelled from the spec: the loop of `InputStream::skipNextBytes` (body not in
`juce_URL.cpp`), the "forward skip (read-and-discard)": while bytes remain to be skipped
and the stream is not exhausted, read at most `skipBufferSize` of them.  The loop need
not end (a null handle makes every read return 0 without exhausting the stream), so it
runs on `fuel` and gives `none` when the fuel does not suffice. -/
def skipLoop {σ : Type} (T : Transport σ) (skipBufferSize : Int) :
    Nat → WebInputStream → World σ → Int → Option (WebInputStream × World σ)
  | 0, s, w, numBytesToSkip =>
    if 0 < numBytesToSkip ∧ ! s.isExhausted then none else some (s, w)
  | fuel + 1, s, w, numBytesToSkip =>
    if 0 < numBytesToSkip ∧ ! s.isExhausted then
      let r := read T s w (min numBytesToSkip skipBufferSize)
      skipLoop T skipBufferSize fuel r.2.1 r.2.2 (numBytesToSkip - r.1)
    else some (s, w)

/-- Modelled from the spec: `InputStream::skipNextBytes (numBytesToSkip)` (body not in
`juce_URL.cpp`), with its scratch buffer of at most 16384 bytes. -/
def skipNextBytes {σ : Type} (T : Transport σ) (fuel : Nat) (s : WebInputStream)
    (w : World σ) (numBytesToSkip : Int) : Option (WebInputStream × World σ) :=
  if 0 < numBytesToSkip then
    skipLoop T (min numBytesToSkip 16384) fuel s w numBytesToSkip
  else some (s, w)

/-- The method `WebInputStream::setPosition (wantedPos)`: the value returned, the stream
and the world after the call; `none` when the fuel given to `skipNextBytes` does not
suffice. -/
def setPosition {σ : Type} (T : Transport σ) (fuel : Nat) (s : WebInputStream)
    (w : World σ) (wantedPos : Int) : Option (Bool × WebInputStream × World σ) :=
  if wantedPos ≠ s.position then
    let sought := juce_seekInInternetFile T w s.handle (toInt32 wantedPos)
    let actualPos := sought.1
    if actualPos = wantedPos then
      some (true, { s with finished := false, position := wantedPos }, sought.2)
    else
      let reopened : WebInputStream × World σ :=
        if wantedPos < s.position then
          let w2 := juce_closeInternetFile T sought.2 s.handle
          let opened := juce_openInternetFile T w2 s.server s.headers s.postData s.isPost
                          s.timeOutMs
          ({ s with position := 0, finished := false, handle := opened.1 }, opened.2)
        else
          ({ s with finished := false }, sought.2)
      (skipNextBytes T fuel reopened.1 reopened.2 (wantedPos - reopened.1.position)).map
        (fun r => (true, r.1, r.2))
  else some (true, s, w)

/-- The caller's loop of reads: `read` once for each chunk size of the list, in order;
the values returned, the stream and the world at the end. -/
def readAll {σ : Type} (T : Transport σ) :
    List Int → WebInputStream → World σ → List Int × WebInputStream × World σ
  | [], s, w => ([], s, w)
  | bytes :: rest, s, w =>
    let r := read T s w bytes
    let rs := readAll T rest r.2.1 r.2.2
    (r.1 :: rs.1, rs.2.1, rs.2.2)

end WebInputStream

/-! ## A fixture transport -/

/-- The state of the fixture transport: the bytes the open session has yet to serve. -/
structure FixtureState where
  remaining : Nat
deriving DecidableEq

/-- Modelled from the spec: the "fixture transport that serves N bytes": `open` starts
a session (handle `1`) with `N` bytes to serve; a read of `max > 0` bytes serves
`min (max, remaining)` of them, `0` once nothing remains; `seek` answers `seekResult`
of the offset asked for and moves nothing. -/
def fixture (N : Nat) (seekResult : Int → Int) : Transport FixtureState where
  openInternetFile := fun _ _ _ _ _ _ => (1, { remaining := N })
  closeInternetFile := fun st _ => st
  readFromInternetFile := fun st _ max =>
    if 0 < max then
      (min max st.remaining, { remaining := st.remaining - (min max st.remaining).toNat })
    else (0, st)
  seekInInternetFile := fun st _ pos => (seekResult pos, st)
  getInternetFileHeaders := fun st _ => st

/-! ## POST bodies and malformed escapes (after the specification's words) -/

namespace Spec

/-- The content of the multipart part of one parameter: its form-data header with the
field name, an empty line, the value. -/
def parameterPart (p : JString × JString) : List Nat :=
  lit "\r\nContent-Disposition: form-data; name=\"" ++ p.1 ++ lit "\"\r\n\r\n" ++ p.2

/-- The content of the multipart part of one file to upload: its form-data header with
the field name and the file name, a `Content-Type` line when a MIME type is recorded
for the field, the binary transfer-encoding line, an empty line, the file's bytes. -/
def filePart (env : UploadEnv) (mimeTypes : StringPairArray) (p : JString × JString) :
    List Nat :=
  lit "\r\nContent-Disposition: form-data; name=\"" ++ p.1
    ++ lit "\"; filename=\"" ++ env.getFileName p.2 ++ lit "\"\r\n"
    ++ (if mimeTypes.getValue p.1 ≠ [] then
          lit "Content-Type: " ++ mimeTypes.getValue p.1 ++ lit "\r\n"
        else [])
    ++ lit "Content-Transfer-Encoding: binary\r\n\r\n"
    ++ env.fileBytes p.2

/-- A multipart body: the delimiter `--boundary`, then every part followed by a line
break and the delimiter, then `--` and a line break. -/
def multipartBody (boundary : JString) (parts : List (List Nat)) : List Nat :=
  lit "--" ++ boundary
    ++ parts.flatMap (fun part => part ++ lit "\r\n--" ++ boundary)
    ++ lit "--\r\n"

/-- Whether the string starts with `%` and two hexadecimal digits. -/
def escapeAtHead : List Nat → Bool
  | c :: h1 :: h2 :: _ => decide (c = 37 ∧ isHexDigit h1 ∧ isHexDigit h2)
  | _ => false

/-- Whether some `%` of the string is immediately followed by two hexadecimal
digits. -/
def hasValidEscape : List Nat → Bool
  | [] => false
  | c :: rest => escapeAtHead (c :: rest) || hasValidEscape rest

end Spec


/-! ## The query-scanning loop on fuel -/

namespace URL

/-- The `do ... while (i >= 0)` loop of `URL::URL (const String&)` once more, run on
fuel instead of a termination argument: each pass of the body takes one unit, `none`
means that the fuel ran out before the loop ended.  The result is the parameters and
the number of passes of the body. -/
def parseLoopFuel (url : JString) :
    Nat → Int → StringPairArray → Option (StringPairArray × Nat)
  | 0, _, _ => none
  | fuel + 1, i, parameters =>
    let nextAmp := JString.indexOfChar url (i + 1) 38 /- '&' -/
    let equalsPos := JString.indexOfChar url (i + 1) 61 /- '=' -/
    let parameters1 :=
      if equalsPos > i + 1 then
        if nextAmp < 0 then
          parameters.set (removeEscapeChars (JString.substring url (i + 1) equalsPos))
                         (removeEscapeChars (JString.substringFrom url (equalsPos + 1)))
        else if nextAmp > 0 ∧ equalsPos < nextAmp then
          parameters.set (removeEscapeChars (JString.substring url (i + 1) equalsPos))
                         (removeEscapeChars (JString.substring url (equalsPos + 1) nextAmp))
        else parameters
      else parameters
    if 0 ≤ nextAmp then
      (parseLoopFuel url fuel nextAmp parameters1).map (fun r => (r.1, r.2 + 1))
    else some (parameters1, 1)

/-- The constructor `URL::URL (const String& url_)` with its loop run on fuel. -/
def ofStringFuel (fuel : Nat) (url_ : JString) : Option URL :=
  let i := JString.indexOfChar url_ 0 63 /- '?' -/
  if 0 ≤ i then
    (parseLoopFuel url_ fuel i []).map
      (fun r => { url := JString.upToFirstOccurrenceOfChar url_ 63
                  postData := []
                  parameters := r.1
                  filesToUpload := []
                  mimeTypes := [] })
  else
    some { url := url_, postData := [], parameters := [], filesToUpload := [],
           mimeTypes := [] }

end URL

/-! ## Lemmas on the primitives -/

theorem CharArray.get_append_length (f r : List Nat) (c : Nat) :
    CharArray.get (f ++ c :: r) f.length = c := by
  induction f with
  | nil => simp [CharArray.get]
  | cons x f ih => simpa [CharArray.get] using ih

theorem CharArray.set_append_length (f r : List Nat) (c x : Nat) :
    CharArray.set (f ++ c :: r) f.length x = f ++ x :: r := by
  simp [CharArray.set]

theorem CharArray.insert_append_length (f r : List Nat) (x : Nat) :
    CharArray.insert (f ++ r) f.length x = f ++ x :: r := by
  simp [CharArray.insert]

theorem CharArray.removeRange_append_length (f r : List Nat) (n : Nat) :
    CharArray.removeRange (f ++ r) f.length n = f ++ r.drop n := by
  simp [CharArray.removeRange]

theorem indexOfCharFrom_neg_iff (c : Nat) (xs : List Nat) (k : Nat) :
    indexOfCharFrom c xs k < 0 ↔ c ∉ xs := by
  induction xs generalizing k with
  | nil => simp [indexOfCharFrom]
  | cons x xs ih =>
    simp only [indexOfCharFrom]
    split
    · subst_vars; simp
    · rename_i h
      rw [ih]
      simp [Ne.symm h]

theorem indexOfCharFrom_nonneg_iff (c : Nat) (xs : List Nat) (k : Nat) :
    0 ≤ indexOfCharFrom c xs k ↔ c ∈ xs := by
  have := indexOfCharFrom_neg_iff c xs k
  constructor
  · intro h; by_contra hc; have := this.mpr hc; omega
  · intro h; by_contra hc; exact (this.mp (by omega)) h

theorem hexDigits_get (n : Nat) (h : n < 16) :
    CharArray.get URL.hexDigits n = Spec.hexDigitLower n := by
  interval_cases n <;> rfl

theorem legal_iff (isParameter : Bool) (c : Nat) :
    (CharacterFunctions.isLetterOrDigit c
      || decide (0 ≤ CharacterFunctions.indexOfChar (URL.legalChars isParameter) c)) = true
    ↔ (Spec.isAlnum c ∨ c ∈ Spec.whitelist isParameter) := by
  have hl : URL.legalChars isParameter = Spec.whitelist isParameter := by
    cases isParameter <;> rfl
  simp only [CharacterFunctions.indexOfChar, indexOfCharFrom_nonneg_iff, hl,
    CharacterFunctions.isLetterOrDigit, Spec.isAlnum, Bool.or_eq_true, Bool.and_eq_true,
    decide_eq_true_eq, or_assoc]

theorem addEscapeLoop_append (isParameter : Bool) (back front : List Nat)
    (hb : ∀ c ∈ back, c < 256) :
    URL.addEscapeLoop (URL.legalChars isParameter) (front ++ back) front.length
      = front ++ back.flatMap (Spec.encodeByte isParameter) := by
  induction back generalizing front with
  | nil =>
    rw [URL.addEscapeLoop]
    simp
  | cons c rest ih =>
    have hc : c < 256 := hb c (by simp)
    have hrest : ∀ x ∈ rest, x < 256 := fun x hx => hb x (by simp [hx])
    rw [URL.addEscapeLoop]
    have hlt : front.length < (front ++ c :: rest).length := by simp
    simp only [hlt, if_true, CharArray.get_append_length, CharArray.set_append_length]
    by_cases hleg : Spec.isAlnum c ∨ c ∈ Spec.whitelist isParameter
    · have h1 := (legal_iff isParameter c).mpr hleg
      simp only [h1, Bool.not_true, Bool.false_eq_true, if_false]
      have := ih (front ++ [c]) hrest
      simp only [List.length_append, List.length_singleton, List.append_assoc,
        List.singleton_append] at this
      rw [this]
      simp [Spec.encodeByte, hleg]
    · have h1 : (CharacterFunctions.isLetterOrDigit c
          || decide (0 ≤ CharacterFunctions.indexOfChar (URL.legalChars isParameter) c))
          = false := by
        rw [Bool.eq_false_iff]; intro h; exact hleg ((legal_iff isParameter c).mp h)
      simp only [h1, Bool.not_false, if_true]
      by_cases hsp : c = 32
      · simp only [hsp, if_true]
        have := ih (front ++ [43]) hrest
        simp only [List.length_append, List.length_singleton, List.append_assoc,
          List.singleton_append] at this
        rw [this]
        have : ¬ (Spec.isAlnum 32 ∨ 32 ∈ Spec.whitelist isParameter) := hsp ▸ hleg
        simp [Spec.encodeByte, this]
      · simp only [hsp, if_false]
        have e1 : front ++ 37 :: rest = (front ++ [37]) ++ rest := by simp
        have l1 : front.length + 1 = (front ++ [37]).length := by simp
        rw [e1, l1, CharArray.insert_append_length]
        have e2 : ∀ x, front ++ [37] ++ x :: rest = (front ++ [37, x]) ++ rest := by simp
        have l2 : ∀ x, front.length + 2 = (front ++ [37, x]).length := by simp
        rw [e2, l2 (CharArray.get URL.hexDigits (c % 256 / 16)),
          CharArray.insert_append_length]
        have e3 : ∀ x y, front ++ [37, x] ++ y :: rest = (front ++ [37, x, y]) ++ rest := by
          simp
        have l3 : ∀ x y, front.length + 3 = (front ++ [37, x, y]).length := by simp
        rw [e3, l3 (CharArray.get URL.hexDigits (c % 256 / 16))
          (CharArray.get URL.hexDigits (c % 16)), ih _ hrest]
        rw [hexDigits_get _ (by omega), hexDigits_get _ (by omega), Nat.mod_eq_of_lt hc]
        simp [Spec.encodeByte, hleg, hsp]


theorem getHexDigitValue_nonneg_iff (c : Nat) :
    0 ≤ CharacterFunctions.getHexDigitValue c ↔ Spec.isHexDigit c := by
  unfold CharacterFunctions.getHexDigitValue Spec.isHexDigit
  split_ifs <;> omega

theorem getHexDigitValue_eq (c : Nat) (h : Spec.isHexDigit c) :
    CharacterFunctions.getHexDigitValue c = (Spec.hexValue c : Int) := by
  unfold Spec.isHexDigit at h
  unfold CharacterFunctions.getHexDigitValue Spec.hexValue
  split_ifs <;> omega

theorem hexValue_lt (c : Nat) (h : Spec.isHexDigit c) : Spec.hexValue c < 16 := by
  unfold Spec.isHexDigit at h
  unfold Spec.hexValue
  split_ifs <;> omega

theorem CharArray.get_append_add (f r : List Nat) (k : Nat) :
    CharArray.get (f ++ r) (f.length + k) = CharArray.get r k := by
  induction f with
  | nil => simp [CharArray.get]
  | cons x f ih =>
    have : (x :: f).length + k = (f.length + k) + 1 := by simp; omega
    rw [this]
    simpa [CharArray.get] using ih

theorem removeEscapeLoop_append (n : Nat) :
    ∀ (back front : List Nat), back.length ≤ n →
      URL.removeEscapeLoop (front ++ back) front.length = front ++ Spec.unescape back := by
  induction n with
  | zero =>
    intro back front hlen
    have : back = [] := List.length_eq_zero.mp (by omega)
    subst this
    rw [URL.removeEscapeLoop]
    simp [Spec.unescape]
  | succ n ih =>
    intro back front hlen
    match back, hlen with
    | [], _ =>
      rw [URL.removeEscapeLoop]
      simp [Spec.unescape]
    | [c], _ =>
      rw [URL.removeEscapeLoop]
      have g1 : CharArray.get (front ++ [c]) (front.length + 1) = 0 := by
        rw [CharArray.get_append_add]; rfl
      have step := ih [] (front ++ [c]) (by simp)
      simp only [List.length_append, List.length_singleton, List.append_nil] at step
      simp [CharArray.get_append_length, g1, CharacterFunctions.getHexDigitValue, step,
        Spec.unescape]
    | [c, h1], hlen2 =>
      rw [URL.removeEscapeLoop]
      have g2 : CharArray.get (front ++ [c, h1]) (front.length + 2) = 0 := by
        rw [CharArray.get_append_add]; rfl
      have step := ih [h1] (front ++ [c]) (by simp at hlen2 ⊢; omega)
      simp only [List.length_append, List.length_singleton, List.append_assoc,
        List.singleton_append] at step
      simp [CharArray.get_append_length, g2, CharacterFunctions.getHexDigitValue, step,
        Spec.unescape]
    | c :: h1 :: h2 :: rest, hlen =>
      rw [URL.removeEscapeLoop]
      have hlt : front.length < (front ++ c :: h1 :: h2 :: rest).length := by simp
      have g1 : CharArray.get (front ++ c :: h1 :: h2 :: rest) (front.length + 1) = h1 := by
        rw [CharArray.get_append_add]; rfl
      have g2 : CharArray.get (front ++ c :: h1 :: h2 :: rest) (front.length + 2) = h2 := by
        rw [CharArray.get_append_add]; rfl
      have step := ih (h1 :: h2 :: rest) (front ++ [c]) (by simp at hlen ⊢; omega)
      simp only [List.length_append, List.length_singleton, List.append_assoc,
        List.singleton_append] at step
      simp only [hlt, if_true, CharArray.get_append_length, g1, g2,
        getHexDigitValue_nonneg_iff]
      by_cases hc : c = 37
      · subst hc
        by_cases hh : Spec.isHexDigit h1 ∧ Spec.isHexDigit h2
        · have hv1 := hexValue_lt h1 hh.1
          have hv2 := hexValue_lt h2 hh.2
          have hval : ((CharacterFunctions.getHexDigitValue h1 * 16
              + CharacterFunctions.getHexDigitValue h2) % 256).toNat
              = 16 * Spec.hexValue h1 + Spec.hexValue h2 := by
            rw [getHexDigitValue_eq h1 hh.1, getHexDigitValue_eq h2 hh.2]
            omega
          simp only [hh, and_self, if_true, hval]
          rw [CharArray.set_append_length]
          have e1 : ∀ x, front ++ x :: h1 :: h2 :: rest = (front ++ [x]) ++ h1 :: h2 :: rest := by
            simp
          have l1 : ∀ x : Nat, front.length + 1 = (front ++ [x]).length := by simp
          rw [e1, l1 (16 * Spec.hexValue h1 + Spec.hexValue h2),
            CharArray.removeRange_append_length]
          have step2 := ih rest (front ++ [16 * Spec.hexValue h1 + Spec.hexValue h2])
            (by simp at hlen ⊢; omega)
          simp only [List.drop_succ_cons, List.drop_zero]
          rw [step2]
          simp [Spec.unescape, hh]
        · simp only [hh, if_true, if_false]
          rw [step]
          simp [Spec.unescape, hh]
      · simp only [hc, if_false]
        rw [step]
        simp [Spec.unescape, hc]

theorem unescape_of_no_percent (n : Nat) :
    ∀ t : List Nat, t.length ≤ n → 37 ∉ t → Spec.unescape t = t := by
  induction n with
  | zero =>
    intro t hlen _
    have : t = [] := List.length_eq_zero.mp (by omega)
    subst this; rfl
  | succ n ih =>
    intro t hlen h
    match t, hlen, h with
    | [], _, _ => rfl
    | [c], _, _ => rfl
    | [c, h1], _, _ => rfl
    | c :: h1 :: h2 :: rest, hlen, h =>
      have hc : c ≠ 37 := fun e => h (by simp [e])
      have hr : 37 ∉ h1 :: h2 :: rest := fun e => h (List.mem_cons_of_mem _ e)
      have := ih (h1 :: h2 :: rest) (by simp at hlen ⊢; omega) hr
      simp [Spec.unescape, hc, this]

/-! ## Lemmas on `String::fromUTF8` -/

theorem characterLength_le (l : List Nat) : JString.characterLength l ≤ l.length := by
  rcases l with _ | ⟨c, _ | ⟨c1, _ | ⟨c2, _ | ⟨c3, r⟩⟩⟩⟩
  all_goals simp only [JString.characterLength, List.length_cons, List.length_nil]
  all_goals first | omega | (split_ifs <;> omega)

theorem characterLength_ascii (c : Nat) (rest : List Nat) (h : 1 ≤ c ∧ c ≤ 127) :
    JString.characterLength (c :: rest) = 1 := by
  simp [JString.characterLength, h]

/-- On well-formed UTF-8 without a zero byte `String::fromUTF8` is the identity. -/
theorem fromUTF8Loop_of_wellFormed (fuel : Nat) :
    ∀ l : List Nat, JString.isWellFormedLoop fuel l = true →
      JString.fromUTF8Loop fuel l = l := by
  induction fuel with
  | zero =>
    intro l h
    cases l with
    | nil => rfl
    | cons c rest => simp [JString.isWellFormedLoop] at h
  | succ fuel ih =>
    intro l h
    cases l with
    | nil => rfl
    | cons c rest =>
      simp only [JString.isWellFormedLoop, Bool.and_eq_true, decide_eq_true_eq] at h
      obtain ⟨hk, hrest⟩ := h
      have hc : c ≠ 0 := by
        intro e
        subst e
        exact hk (by simp [JString.characterLength])
      simp only [JString.fromUTF8Loop, hc, hk, if_false]
      rw [ih _ hrest, List.take_append_drop]

theorem isWellFormedLoop_mono (fuel : Nat) :
    ∀ (l : List Nat) (fuel2 : Nat), fuel ≤ fuel2 →
      JString.isWellFormedLoop fuel l = true → JString.isWellFormedLoop fuel2 l = true := by
  induction fuel with
  | zero =>
    intro l fuel2 _ h
    cases l with
    | nil => cases fuel2 <;> rfl
    | cons c rest => simp [JString.isWellFormedLoop] at h
  | succ fuel ih =>
    intro l fuel2 hle h
    cases l with
    | nil => cases fuel2 <;> rfl
    | cons c rest =>
      obtain ⟨f2, rfl⟩ : ∃ f2, fuel2 = f2 + 1 := ⟨fuel2 - 1, by omega⟩
      simp only [JString.isWellFormedLoop, Bool.and_eq_true, decide_eq_true_eq] at h ⊢
      exact ⟨h.1, ih _ f2 (by omega) h.2⟩

theorem fromUTF8_of_wellFormed (s : JString) (h : JString.isWellFormed s = true) :
    JString.fromUTF8 s = s :=
  fromUTF8Loop_of_wellFormed _ s h

theorem isWellFormedLoop_ascii (l : List Nat) (h : ∀ c ∈ l, 1 ≤ c ∧ c ≤ 127) :
    JString.isWellFormedLoop l.length l = true := by
  induction l with
  | nil => rfl
  | cons c rest ih =>
    have hc := h c (by simp)
    simp only [List.length_cons, JString.isWellFormedLoop, characterLength_ascii c rest hc,
      List.drop_succ_cons, List.drop_zero, Bool.and_eq_true, decide_eq_true_eq]
    exact ⟨by decide, ih (fun x hx => h x (by simp [hx]))⟩

/-- A string of ASCII characters is well-formed. -/
theorem isWellFormed_ascii (s : JString) (h : ∀ c ∈ s, 1 ≤ c ∧ c ≤ 127) :
    JString.isWellFormed s = true :=
  isWellFormedLoop_ascii s h

theorem characterLength_replaceCharacter (l : List Nat) :
    JString.characterLength (JString.replaceCharacter l 43 32) = JString.characterLength l := by
  have hr : ∀ (x lo hi : Nat), 128 ≤ lo →
      ((lo ≤ (if x = 43 then 32 else x) ∧ (if x = 43 then 32 else x) ≤ hi)
        ↔ (lo ≤ x ∧ x ≤ hi)) := by
    intro x lo hi hlo
    split <;> omega
  rcases l with _ | ⟨c, rest⟩
  · rfl
  by_cases hc : c = 43
  · subst hc
    simp [JString.replaceCharacter, JString.characterLength]
  simp only [JString.replaceCharacter, List.map_cons, if_neg hc]
  by_cases ha : 1 ≤ c ∧ c ≤ 127
  · simp only [JString.characterLength, ha, and_self, if_true]
  by_cases h2 : 194 ≤ c ∧ c ≤ 223
  · rcases rest with _ | ⟨c1, r⟩
    · rfl
    · simp only [JString.characterLength, ha, h2, and_self, if_true, if_false, List.map_cons,
        hr c1 128 191 (le_refl _)]
  by_cases h3 : 224 ≤ c ∧ c ≤ 239
  · rcases rest with _ | ⟨c1, _ | ⟨c2, r⟩⟩
    · rfl
    · simp only [JString.characterLength, ha, h2, h3, and_self, if_true, if_false,
        List.map_cons, List.map_nil]
    · simp only [JString.characterLength, ha, h2, h3, and_self, if_true, if_false,
        List.map_cons,
        hr c1 (if c = 224 then 160 else 128) (if c = 237 then 159 else 191)
          (by split <;> omega),
        hr c2 128 191 (le_refl _)]
  by_cases h4 : 240 ≤ c ∧ c ≤ 244
  · rcases rest with _ | ⟨c1, _ | ⟨c2, _ | ⟨c3, r⟩⟩⟩
    · rfl
    · simp only [JString.characterLength, ha, h2, h3, h4, and_self, if_true, if_false,
        List.map_cons, List.map_nil]
    · simp only [JString.characterLength, ha, h2, h3, h4, and_self, if_true, if_false,
        List.map_cons, List.map_nil]
    · simp only [JString.characterLength, ha, h2, h3, h4, and_self, if_true, if_false,
        List.map_cons,
        hr c1 (if c = 240 then 144 else 128) (if c = 244 then 143 else 191)
          (by split <;> omega),
        hr c2 128 191 (le_refl _), hr c3 128 191 (le_refl _)]
  simp only [JString.characterLength, ha, h2, h3, h4, if_false]

theorem replaceCharacter_drop (l : List Nat) (k : Nat) (a b : Nat) :
    JString.replaceCharacter (l.drop k) a b = (JString.replaceCharacter l a b).drop k := by
  simp [JString.replaceCharacter, List.map_drop]

theorem isWellFormedLoop_replaceCharacter (fuel : Nat) :
    ∀ l : List Nat, JString.isWellFormedLoop fuel l = true →
      JString.isWellFormedLoop fuel (JString.replaceCharacter l 43 32) = true := by
  induction fuel with
  | zero =>
    intro l h
    cases l with
    | nil => rfl
    | cons c rest => simp [JString.isWellFormedLoop] at h
  | succ fuel ih =>
    intro l h
    cases l with
    | nil => rfl
    | cons c rest =>
      simp only [JString.isWellFormedLoop, Bool.and_eq_true, decide_eq_true_eq] at h
      have hk := characterLength_replaceCharacter (c :: rest)
      have hd := replaceCharacter_drop (c :: rest) (JString.characterLength (c :: rest)) 43 32
      simp only [JString.replaceCharacter, List.map_cons] at hk hd ⊢
      simp only [JString.isWellFormedLoop, Bool.and_eq_true, decide_eq_true_eq, hk]
      refine ⟨h.1, ?_⟩
      rw [← hd]
      exact ih _ h.2

/-- Replacing `+` by a space keeps a string well-formed. -/
theorem isWellFormed_replaceCharacter (s : JString) (h : JString.isWellFormed s = true) :
    JString.isWellFormed (JString.replaceCharacter s 43 32) = true := by
  unfold JString.isWellFormed at h ⊢
  have := isWellFormedLoop_replaceCharacter s.length s h
  simpa [JString.replaceCharacter] using this

theorem characterLength_take_lt (l : List Nat) :
    ∀ x ∈ l.take (JString.characterLength l), x < 256 := by
  intro x hx
  rcases l with _ | ⟨c, _ | ⟨c1, _ | ⟨c2, _ | ⟨c3, r⟩⟩⟩⟩
  all_goals simp only [JString.characterLength] at hx
  · simp at hx
  all_goals
    split_ifs at hx
    all_goals simp only [List.take_succ_cons, List.take_zero, List.mem_cons,
      List.not_mem_nil, or_false, List.take_nil] at hx
    all_goals omega

theorem isWellFormedLoop_lt (fuel : Nat) :
    ∀ l : List Nat, JString.isWellFormedLoop fuel l = true → ∀ x ∈ l, x < 256 := by
  induction fuel with
  | zero =>
    intro l h
    cases l with
    | nil => simp
    | cons c rest => simp [JString.isWellFormedLoop] at h
  | succ fuel ih =>
    intro l h
    cases l with
    | nil => simp
    | cons c rest =>
      simp only [JString.isWellFormedLoop, Bool.and_eq_true, decide_eq_true_eq] at h
      intro x hx
      rw [← List.take_append_drop (JString.characterLength (c :: rest)) (c :: rest)] at hx
      rcases List.mem_append.mp hx with h1 | h1
      · exact characterLength_take_lt _ x h1
      · exact ih _ h.2 x h1

/-- A well-formed string is a byte string. -/
theorem isWellFormed_lt (s : JString) (h : JString.isWellFormed s = true) :
    ∀ x ∈ s, x < 256 :=
  isWellFormedLoop_lt _ s h

theorem characterLength_take_append (l w : List Nat) (h : JString.characterLength l ≠ 0) :
    JString.characterLength (l.take (JString.characterLength l) ++ w)
      = JString.characterLength l := by
  rcases l with _ | ⟨c, rest⟩
  · exact absurd rfl h
  by_cases ha : 1 ≤ c ∧ c ≤ 127
  · simp [JString.characterLength, ha]
  by_cases h2 : 194 ≤ c ∧ c ≤ 223
  · rcases rest with _ | ⟨c1, r⟩
    · simp [JString.characterLength, ha, h2] at h
    · by_cases hc : 128 ≤ c1 ∧ c1 ≤ 191
      · simp [JString.characterLength, ha, h2, hc]
      · simp [JString.characterLength, ha, h2, hc] at h
  by_cases h3 : 224 ≤ c ∧ c ≤ 239
  · rcases rest with _ | ⟨c1, _ | ⟨c2, r⟩⟩
    · simp [JString.characterLength, ha, h2, h3] at h
    · simp [JString.characterLength, ha, h2, h3] at h
    · by_cases hc : ((if c = 224 then 160 else 128) ≤ c1
          ∧ c1 ≤ (if c = 237 then 159 else 191)) ∧ (128 ≤ c2 ∧ c2 ≤ 191)
      · simp only [JString.characterLength, ha, h2, h3, hc, and_self, if_true, if_false,
          List.take_succ_cons, List.take_zero, List.cons_append, List.nil_append]
      · simp only [JString.characterLength, ha, h2, h3, hc, and_self, if_true, if_false,
          ne_eq, not_true_eq_false] at h
  by_cases h4 : 240 ≤ c ∧ c ≤ 244
  · rcases rest with _ | ⟨c1, _ | ⟨c2, _ | ⟨c3, r⟩⟩⟩
    · simp [JString.characterLength, ha, h2, h3, h4] at h
    · simp [JString.characterLength, ha, h2, h3, h4] at h
    · simp [JString.characterLength, ha, h2, h3, h4] at h
    · by_cases hc : ((if c = 240 then 144 else 128) ≤ c1
          ∧ c1 ≤ (if c = 244 then 143 else 191)) ∧ (128 ≤ c2 ∧ c2 ≤ 191)
          ∧ (128 ≤ c3 ∧ c3 ≤ 191)
      · simp only [JString.characterLength, ha, h2, h3, h4, hc, and_self, if_true, if_false,
          List.take_succ_cons, List.take_zero, List.cons_append, List.nil_append]
      · simp only [JString.characterLength, ha, h2, h3, h4, hc, and_self, if_true, if_false,
          ne_eq, not_true_eq_false] at h
  simp [JString.characterLength, ha, h2, h3, h4] at h

theorem characterLength_take_pos (l : List Nat) :
    ∀ x ∈ l.take (JString.characterLength l), x ≠ 0 := by
  intro x hx
  rcases l with _ | ⟨c, _ | ⟨c1, _ | ⟨c2, _ | ⟨c3, r⟩⟩⟩⟩
  all_goals simp only [JString.characterLength] at hx
  · simp at hx
  all_goals
    split_ifs at hx
    all_goals simp only [List.take_succ_cons, List.take_zero, List.mem_cons,
      List.not_mem_nil, or_false, List.take_nil] at hx
    all_goals omega

theorem length_take_characterLength (l : List Nat) :
    (l.take (JString.characterLength l)).length = JString.characterLength l := by
  rw [List.length_take]
  exact Nat.min_eq_left (characterLength_le l)

theorem isWellFormedLoop_step (n x : Nat) (y : List Nat) :
    JString.isWellFormedLoop (n + 1) (x :: y)
      = (decide (JString.characterLength (x :: y) ≠ 0)
          && JString.isWellFormedLoop n
              ((x :: y).drop (JString.characterLength (x :: y)))) := rfl

theorem isWellFormedLoop_character_append (l w : List Nat)
    (hk : JString.characterLength l ≠ 0)
    (hw : JString.isWellFormedLoop w.length w = true) :
    JString.isWellFormedLoop (l.take (JString.characterLength l) ++ w).length
      (l.take (JString.characterLength l) ++ w) = true := by
  have hlen := length_take_characterLength l
  have hcl := characterLength_take_append l w hk
  have hd : (l.take (JString.characterLength l) ++ w).drop (JString.characterLength l)
      = w := by
    have := List.drop_left (l.take (JString.characterLength l)) w
    rw [hlen] at this
    exact this
  generalize l.take (JString.characterLength l) ++ w = out at hcl hd
  cases out with
  | nil => rfl
  | cons x y =>
    rw [List.length_cons, isWellFormedLoop_step, hcl, hd]
    simp only [Bool.and_eq_true, decide_eq_true_eq]
    refine ⟨hk, isWellFormedLoop_mono _ _ _ ?_ hw⟩
    have : w.length ≤ (x :: y).length := by
      rw [← hd, List.length_drop]
      omega
    have hpos : 0 < JString.characterLength l := Nat.pos_of_ne_zero hk
    have h2 : w.length = (x :: y).length - JString.characterLength l := by
      rw [← hd, List.length_drop]
    simp only [List.length_cons] at h2
    omega

theorem isWellFormedLoop_fromUTF8Loop (fuel : Nat) :
    ∀ l : List Nat,
      JString.isWellFormedLoop (JString.fromUTF8Loop fuel l).length
        (JString.fromUTF8Loop fuel l) = true := by
  induction fuel with
  | zero => intro l; rfl
  | succ fuel ih =>
    intro l
    cases l with
    | nil => rfl
    | cons c rest =>
      simp only [JString.fromUTF8Loop]
      split
      · rfl
      · split
        · exact ih rest
        · rename_i hk
          exact isWellFormedLoop_character_append _ _ hk (ih _)

/-- What `String::fromUTF8` returns is a string: well-formed UTF-8 without a zero
byte. -/
theorem isWellFormed_fromUTF8 (utf8 : List Nat) :
    JString.isWellFormed (JString.fromUTF8 utf8) = true :=
  isWellFormedLoop_fromUTF8Loop _ utf8

/-- A string holds no zero byte. -/
theorem isWellFormedLoop_zero_not_mem (fuel : Nat) :
    ∀ l : List Nat, JString.isWellFormedLoop fuel l = true → 0 ∉ l := by
  induction fuel with
  | zero =>
    intro l h
    cases l with
    | nil => simp
    | cons c rest => simp [JString.isWellFormedLoop] at h
  | succ fuel ih =>
    intro l h
    cases l with
    | nil => simp
    | cons c rest =>
      simp only [JString.isWellFormedLoop, Bool.and_eq_true, decide_eq_true_eq] at h
      intro hx
      rw [← List.take_append_drop (JString.characterLength (c :: rest)) (c :: rest)] at hx
      rcases List.mem_append.mp hx with h1 | h1
      · exact characterLength_take_pos _ 0 h1 rfl
      · exact ih _ h.2 h1

theorem containsChar_iff (s : JString) (c : Nat) :
    JString.containsChar s c = true ↔ c ∈ s := by
  simp [JString.containsChar, JString.indexOfChar, indexOfCharFrom_nonneg_iff]

theorem mem_replaceCharacter_percent (s : JString) :
    37 ∈ JString.replaceCharacter s 43 32 ↔ 37 ∈ s := by
  induction s with
  | nil => simp [JString.replaceCharacter]
  | cons c rest ih =>
    simp only [JString.replaceCharacter, List.map_cons, List.mem_cons] at ih ⊢
    rw [ih]
    constructor
    · rintro (h | h)
      · left
        split at h <;> omega
      · exact Or.inr h
    · rintro (h | h)
      · left
        subst h
        rfl
      · exact Or.inr h

/-- The decoder is the byte-wise `unescape` applied after `+` has become a space, the
bytes being then recombined by `String::fromUTF8`; a string without `%` only has its
`+` replaced. -/
theorem removeEscapeChars_eq_unescape (s : JString) :
    URL.removeEscapeChars s
      = if 37 ∈ s then JString.fromUTF8 (Spec.unescape (JString.replaceCharacter s 43 32))
        else JString.replaceCharacter s 43 32 := by
  unfold URL.removeEscapeChars
  by_cases h : 37 ∈ s
  · have hc : JString.containsChar (JString.replaceCharacter s 43 32) 37 = true :=
      (containsChar_iff _ _).mpr ((mem_replaceCharacter_percent s).mpr h)
    have hl := removeEscapeLoop_append _ (JString.replaceCharacter s 43 32) [] (le_refl _)
    simp only [List.nil_append, List.length_nil] at hl
    simp only [hc, h, Bool.not_true, Bool.false_eq_true, if_false, if_true, hl]
  · have hc : ¬ JString.containsChar (JString.replaceCharacter s 43 32) 37 = true :=
      fun e => h ((mem_replaceCharacter_percent s).mp ((containsChar_iff _ _).mp e))
    have hc2 : JString.containsChar (JString.replaceCharacter s 43 32) 37 = false :=
      Bool.eq_false_iff.mpr hc
    simp only [hc2, h, Bool.not_false, if_true, if_false]

/-- When the unescaped bytes are well-formed UTF-8 without a zero byte, they are the
result of the decoder. -/
theorem removeEscapeChars_of_wellFormed (s : JString)
    (h : JString.isWellFormed (Spec.unescape (JString.replaceCharacter s 43 32)) = true) :
    URL.removeEscapeChars s = Spec.unescape (JString.replaceCharacter s 43 32) := by
  rw [removeEscapeChars_eq_unescape]
  split
  · exact fromUTF8_of_wellFormed _ h
  · rename_i h37
    exact (unescape_of_no_percent _ _ (le_refl _)
      (fun e => h37 ((mem_replaceCharacter_percent s).mp e))).symm

/-- What the encoder writes for a byte is ASCII and never the terminating zero. -/
theorem encodeByte_ascii (isParameter : Bool) (c : Nat) (hc : c < 256) :
    ∀ x ∈ Spec.encodeByte isParameter c, 1 ≤ x ∧ x ≤ 127 := by
  intro x hx
  unfold Spec.encodeByte at hx
  split at hx
  · rename_i hleg
    simp only [List.mem_singleton] at hx
    subst hx
    rcases hleg with h | h
    · unfold Spec.isAlnum at h; omega
    · cases isParameter <;> simp [Spec.whitelist] at h <;> omega
  · split at hx
    · simp only [List.mem_singleton] at hx
      omega
    · simp only [List.mem_cons, List.mem_singleton, List.not_mem_nil, or_false] at hx
      unfold Spec.hexDigitLower at hx
      rcases hx with h | h | h
      · omega
      · split at h <;> omega
      · split at h <;> omega

/-- The encoder is the byte-wise `encodeByte`: what the loop leaves is ASCII, which
`String::fromUTF8` gives back as it is. -/
theorem addEscapeChars_eq_flatMap (s : JString) (isParameter : Bool)
    (hs : ∀ c ∈ s, c < 256) :
    URL.addEscapeChars s isParameter = s.flatMap (Spec.encodeByte isParameter) := by
  have hl := addEscapeLoop_append isParameter s [] hs
  simp only [List.nil_append, List.length_nil] at hl
  unfold URL.addEscapeChars
  rw [hl]
  apply fromUTF8_of_wellFormed
  apply isWellFormed_ascii
  intro x hx
  obtain ⟨c, hc, hxc⟩ := List.mem_flatMap.mp hx
  exact encodeByte_ascii isParameter c (hs c hc) x hxc

theorem hexDigitLower_isHexDigit (n : Nat) (h : n < 16) :
    Spec.isHexDigit (Spec.hexDigitLower n) := by
  unfold Spec.isHexDigit Spec.hexDigitLower
  split_ifs <;> omega

theorem hexValue_hexDigitLower (n : Nat) (h : n < 16) :
    Spec.hexValue (Spec.hexDigitLower n) = n := by
  unfold Spec.hexValue Spec.hexDigitLower
  split_ifs <;> omega

theorem unescape_cons_of_ne (c : Nat) (t : List Nat) (hc : c ≠ 37) :
    Spec.unescape (c :: t) = c :: Spec.unescape t := by
  match t with
  | [] => rfl
  | [h1] => rfl
  | h1 :: h2 :: rest => simp [Spec.unescape, hc]

theorem unescape_escape (h1 h2 : Nat) (t : List Nat)
    (hh1 : Spec.isHexDigit h1) (hh2 : Spec.isHexDigit h2) :
    Spec.unescape (37 :: h1 :: h2 :: t)
      = (16 * Spec.hexValue h1 + Spec.hexValue h2) :: Spec.unescape t := by
  simp [Spec.unescape, hh1, hh2]

/-- One encoded byte, after `+` has become a space, decodes to the byte. -/
theorem unescape_encodeByte (isParameter : Bool) (c : Nat) (hc : c < 256) (t : List Nat) :
    Spec.unescape (JString.replaceCharacter (Spec.encodeByte isParameter c) 43 32 ++ t)
      = c :: Spec.unescape t := by
  unfold Spec.encodeByte
  by_cases hleg : Spec.isAlnum c ∨ c ∈ Spec.whitelist isParameter
  · have hne : c ≠ 37 ∧ c ≠ 43 := by
      rcases hleg with h | h
      · unfold Spec.isAlnum at h; omega
      · cases isParameter <;> simp [Spec.whitelist] at h <;> omega
    simp only [hleg, if_true, JString.replaceCharacter, List.map_cons, List.map_nil,
      hne.2, if_false, List.singleton_append]
    exact unescape_cons_of_ne c t hne.1
  · simp only [hleg, if_false]
    by_cases hsp : c = 32
    · subst hsp
      simp only [if_true, JString.replaceCharacter, List.map_cons, List.map_nil,
        List.singleton_append]
      exact unescape_cons_of_ne 32 t (by decide)
    · have hd1 := hexDigitLower_isHexDigit (c / 16) (by omega)
      have hd2 := hexDigitLower_isHexDigit (c % 16) (by omega)
      have n1 : Spec.hexDigitLower (c / 16) ≠ 43 := by
        unfold Spec.isHexDigit at hd1; omega
      have n2 : Spec.hexDigitLower (c % 16) ≠ 43 := by
        unfold Spec.isHexDigit at hd2; omega
      simp only [hsp, if_false, JString.replaceCharacter, List.map_cons, List.map_nil, n1, n2,
        List.cons_append, List.nil_append]
      have : (if 37 = 43 then 32 else 37) = 37 := by decide
      rw [this, unescape_escape _ _ _ hd1 hd2,
        hexValue_hexDigitLower _ (by omega), hexValue_hexDigitLower _ (by omega)]
      congr 1
      omega

theorem replaceCharacter_append (a b : List Nat) (x y : Nat) :
    JString.replaceCharacter (a ++ b) x y
      = JString.replaceCharacter a x y ++ JString.replaceCharacter b x y := by
  simp [JString.replaceCharacter]

/-- The encoding of a byte string unescapes, byte by byte, to the string. -/
theorem unescape_flatMap_encodeByte (s : JString) (isParameter : Bool)
    (hs : ∀ c ∈ s, c < 256) :
    Spec.unescape (JString.replaceCharacter (s.flatMap (Spec.encodeByte isParameter)) 43 32)
      = s := by
  induction s with
  | nil => rfl
  | cons c rest ih =>
    have hc : c < 256 := hs c (by simp)
    have hrest : ∀ x ∈ rest, x < 256 := fun x hx => hs x (by simp [hx])
    rw [List.flatMap_cons, replaceCharacter_append, unescape_encodeByte isParameter c hc,
      ih hrest]

/-- Decoding the encoding of a string (well-formed UTF-8 without a zero byte) gives the
string back. -/
theorem removeEscapeChars_addEscapeChars (s : JString) (isParameter : Bool)
    (hw : JString.isWellFormed s = true) :
    URL.removeEscapeChars (URL.addEscapeChars s isParameter) = s := by
  have hs := isWellFormed_lt s hw
  have hu := unescape_flatMap_encodeByte s isParameter hs
  rw [addEscapeChars_eq_flatMap s isParameter hs, removeEscapeChars_of_wellFormed _ (by
    rw [hu]; exact hw), hu]


/-- C1. Percent-codec round trip: for every string `s` of printable ASCII characters
(`0x20..0x7E`) and both values of `isParameter`, decoding the encoding of `s` with
`URL::removeEscapeChars (URL::addEscapeChars (s, isParameter))` gives `s` back. -/
theorem C1_codec_round_trip (s : JString) (isParameter : Bool)
    (hs : ∀ c ∈ s, isPrintableAscii c) :
    URL.removeEscapeChars (URL.addEscapeChars s isParameter) = s :=
  removeEscapeChars_addEscapeChars s isParameter
    (isWellFormed_ascii s
      (fun c hc => by have := hs c hc; unfold isPrintableAscii at this; omega))

/-- C1 at the string `"a+b%c d&e=f?"`, in both contexts. -/
theorem C1_codec_round_trip_witness :
    (∀ c ∈ lit "a+b%c d&e=f?", isPrintableAscii c)
    ∧ URL.removeEscapeChars (URL.addEscapeChars (lit "a+b%c d&e=f?") true)
        = lit "a+b%c d&e=f?"
    ∧ URL.removeEscapeChars (URL.addEscapeChars (lit "a+b%c d&e=f?") false)
        = lit "a+b%c d&e=f?" :=
  ⟨by decide, C1_codec_round_trip _ true (by decide), C1_codec_round_trip _ false (by decide)⟩

/-! ## Lemmas on searching and slicing -/

theorem indexOfCharFrom_append_of_not_mem (c : Nat) (a t : List Nat) (k : Nat)
    (h : c ∉ a) :
    indexOfCharFrom c (a ++ t) k = indexOfCharFrom c t (k + a.length) := by
  induction a generalizing k with
  | nil => simp
  | cons x a ih =>
    have hx : x ≠ c := fun e => h (by simp [e])
    have ha : c ∉ a := fun e => h (List.mem_cons_of_mem _ e)
    have e : (x :: a) ++ t = x :: (a ++ t) := rfl
    rw [e]
    simp only [indexOfCharFrom, hx, if_false, List.length_cons]
    rw [ih (k + 1) ha]
    congr 1
    omega

theorem indexOfCharFrom_cons_self (c : Nat) (t : List Nat) (k : Nat) :
    indexOfCharFrom c (c :: t) k = k := by
  simp [indexOfCharFrom]

theorem indexOfCharFrom_ge (c : Nat) (xs : List Nat) (k : Nat)
    (h : 0 ≤ indexOfCharFrom c xs k) : (k : Int) ≤ indexOfCharFrom c xs k := by
  induction xs generalizing k with
  | nil => simp [indexOfCharFrom] at h
  | cons x xs ih =>
    simp only [indexOfCharFrom] at h ⊢
    split
    · exact le_refl _
    · rename_i hx
      simp only [hx, if_false] at h
      have := ih (k + 1) h
      push_cast at this
      omega

theorem indexOfCharFrom_of_not_mem (c : Nat) (xs : List Nat) (k : Nat) (h : c ∉ xs) :
    indexOfCharFrom c xs k = -1 := by
  induction xs generalizing k with
  | nil => rfl
  | cons x xs ih =>
    have hx : x ≠ c := fun e => h (by simp [e])
    have ha : c ∉ xs := fun e => h (List.mem_cons_of_mem _ e)
    simp only [indexOfCharFrom, hx, if_false]
    exact ih (k + 1) ha

theorem JString.indexOfChar_append (P rest : List Nat) (c : Nat) (j : Int)
    (hj : j = P.length) :
    JString.indexOfChar (P ++ rest) j c = indexOfCharFrom c rest P.length := by
  subst hj
  simp [JString.indexOfChar]

theorem JString.substring_append (P m t : List Nat) (a b : Int)
    (ha : a = P.length) (hb : b = P.length + m.length) :
    JString.substring (P ++ (m ++ t)) a b = m := by
  subst ha
  have hb2 : b.toNat = P.length + m.length := by omega
  simp only [JString.substring, hb2, Int.toNat_ofNat]
  rw [← List.append_assoc, List.take_append_of_le_length (by simp),
    List.take_of_length_le (by simp), List.drop_left]

theorem JString.substringFrom_append (P t : List Nat) (a : Int) (ha : a = P.length) :
    JString.substringFrom (P ++ t) a = t := by
  subst ha
  simp [JString.substringFrom]

/-! ## The query-scanning loop, one segment at a time -/

theorem segmentKey_append (key val : JString) (hkey : 61 ∉ key) :
    Spec.segmentKey (key ++ 61 :: val) = key := by
  induction key with
  | nil => simp [Spec.segmentKey]
  | cons x xs ih =>
    have hx : x ≠ 61 := fun e => hkey (by simp [e])
    have hxs : 61 ∉ xs := fun e => hkey (List.mem_cons_of_mem _ e)
    have hd : decide (x ≠ 61) = true := by simp [hx]
    show List.takeWhile _ (x :: (xs ++ 61 :: val)) = x :: xs
    rw [List.takeWhile_cons]
    simp only [hd, if_true]
    congr 1
    exact ih hxs

theorem segmentValue_append (key val : JString) (hkey : 61 ∉ key) :
    Spec.segmentValue (key ++ 61 :: val) = val := by
  simp [Spec.segmentValue, segmentKey_append key val hkey]

theorem segment_split (seg : JString) (h : 61 ∈ seg) :
    ∃ key val, seg = key ++ 61 :: val ∧ 61 ∉ key := by
  induction seg with
  | nil => simp at h
  | cons x xs ih =>
    by_cases hx : x = 61
    · exact ⟨[], xs, by simp [hx], by simp⟩
    · have hxs : 61 ∈ xs := by
        rcases List.mem_cons.mp h with e | e
        · exact absurd e.symm hx
        · exact e
      obtain ⟨key, val, e, hk⟩ := ih hxs
      refine ⟨x :: key, val, by simp [e], ?_⟩
      intro hm
      rcases List.mem_cons.mp hm with e2 | e2
      · exact hx e2.symm
      · exact hk e2

theorem addSegment_pair (ps : StringPairArray) (key val : JString) (hkey : 61 ∉ key)
    (hne : key ≠ []) :
    Spec.addSegment ps (key ++ 61 :: val)
      = ps.set (URL.removeEscapeChars key) (URL.removeEscapeChars val) := by
  simp [Spec.addSegment, segmentKey_append key val hkey, segmentValue_append key val hkey, hne]

theorem addSegment_empty_key (ps : StringPairArray) (val : JString) :
    Spec.addSegment ps (61 :: val) = ps := by
  simp [Spec.addSegment, Spec.segmentKey]

theorem addSegment_no_equals (ps : StringPairArray) (seg : JString) (h : 61 ∉ seg) :
    Spec.addSegment ps seg = ps := by
  simp [Spec.addSegment, h]

/-- One pass of the loop body at the delimiter that precedes the last segment. -/
theorem parseLoop_last (P seg : JString) (i : Int) (ps : StringPairArray)
    (hi : i + 1 = P.length) (hamp : 38 ∉ seg) :
    URL.parseLoop (P ++ seg) i ps = Spec.addSegment ps seg := by
  rw [URL.parseLoop]
  have hnext : JString.indexOfChar (P ++ seg) (i + 1) 38 = -1 := by
    rw [JString.indexOfChar_append P seg 38 _ hi]
    exact indexOfCharFrom_of_not_mem _ _ _ hamp
  have hm1 : ¬ ((0 : Int) ≤ -1) := by omega
  have hm2 : ((-1 : Int) < 0) := by omega
  simp only [hnext, hm1, hm2, if_true, if_false]
  by_cases heq : 61 ∈ seg
  · obtain ⟨key, val, rfl, hkey⟩ := segment_split seg heq
    have hpos : JString.indexOfChar (P ++ (key ++ 61 :: val)) (i + 1) 61
        = (P.length : Int) + key.length := by
      rw [JString.indexOfChar_append P _ 61 _ hi,
        indexOfCharFrom_append_of_not_mem _ _ _ _ hkey, indexOfCharFrom_cons_self]
      push_cast; rfl
    have hsub1 : JString.substring (P ++ (key ++ 61 :: val)) (i + 1)
        ((P.length : Int) + key.length) = key :=
      JString.substring_append P _ _ _ _ hi rfl
    have hsub2 : JString.substringFrom (P ++ (key ++ 61 :: val))
        ((P.length : Int) + key.length + 1) = val := by
      have e : P ++ (key ++ 61 :: val) = (P ++ key ++ [61]) ++ val := by simp
      rw [e]
      exact JString.substringFrom_append _ _ _ (by simp; omega)
    simp only [hpos, hsub1, hsub2]
    by_cases hk : key = []
    · subst hk
      have : ¬ ((P.length : Int) + ([] : List Nat).length > i + 1) := by simp; omega
      rw [if_neg this]
      exact (addSegment_empty_key ps val).symm
    · have hlen : 0 < key.length := List.length_pos.mpr hk
      have : (P.length : Int) + key.length > i + 1 := by omega
      rw [if_pos this]
      exact (addSegment_pair ps key val hkey hk).symm
  · have hpos : JString.indexOfChar (P ++ seg) (i + 1) 61 = -1 := by
      rw [JString.indexOfChar_append P seg 61 _ hi]
      exact indexOfCharFrom_of_not_mem _ _ _ heq
    have : ¬ ((-1 : Int) > i + 1) := by omega
    rw [hpos, if_neg this]
    exact (addSegment_no_equals ps seg heq).symm

/-- One pass of the loop body at the delimiter that precedes a segment followed by
`&`: the segment is added and the scan moves to that `&`. -/
theorem parseLoop_step (P seg rest : JString) (i : Int) (ps : StringPairArray)
    (hi : i + 1 = P.length) (hamp : 38 ∉ seg) :
    URL.parseLoop (P ++ (seg ++ 38 :: rest)) i ps
      = URL.parseLoop (P ++ (seg ++ 38 :: rest)) ((P.length : Int) + seg.length)
          (Spec.addSegment ps seg) := by
  conv_lhs => rw [URL.parseLoop]
  have hnext : JString.indexOfChar (P ++ (seg ++ 38 :: rest)) (i + 1) 38
      = (P.length : Int) + seg.length := by
    rw [JString.indexOfChar_append P _ 38 _ hi,
      indexOfCharFrom_append_of_not_mem _ _ _ _ hamp, indexOfCharFrom_cons_self]
    push_cast; rfl
  have hnn : (0 : Int) ≤ (P.length : Int) + seg.length := by omega
  have hnneg : ¬ ((P.length : Int) + seg.length < 0) := by omega
  simp only [hnext, hnn, hnneg, if_true, if_false]
  congr 1
  by_cases heq : 61 ∈ seg
  · obtain ⟨key, val, rfl, hkey⟩ := segment_split seg heq
    have hpos : JString.indexOfChar (P ++ (key ++ 61 :: val ++ 38 :: rest)) (i + 1) 61
        = (P.length : Int) + key.length := by
      rw [JString.indexOfChar_append P _ 61 _ hi, List.append_assoc,
        indexOfCharFrom_append_of_not_mem _ _ _ _ hkey]
      simp only [List.cons_append, indexOfCharFrom_cons_self]
      push_cast; rfl
    have hsub1 : JString.substring (P ++ (key ++ 61 :: val ++ 38 :: rest)) (i + 1)
        ((P.length : Int) + key.length) = key := by
      rw [List.append_assoc]
      exact JString.substring_append P _ _ _ _ hi rfl
    have hsub2 : JString.substring (P ++ (key ++ 61 :: val ++ 38 :: rest))
        ((P.length : Int) + key.length + 1)
        ((P.length : Int) + (key ++ 61 :: val).length) = val := by
      have e : P ++ (key ++ 61 :: val ++ 38 :: rest)
          = (P ++ key ++ [61]) ++ (val ++ 38 :: rest) := by
        simp
      rw [e]
      exact JString.substring_append _ _ _ _ _ (by simp; omega) (by simp; omega)
    simp only [hpos, hsub1, hsub2]
    by_cases hk : key = []
    · subst hk
      have : ¬ ((P.length : Int) + ([] : List Nat).length > i + 1) := by simp; omega
      rw [if_neg this]
      exact (addSegment_empty_key ps val).symm
    · have hlen : 0 < key.length := List.length_pos.mpr hk
      have h1 : (P.length : Int) + key.length > i + 1 := by omega
      have h23 : (P.length : Int) + (key ++ 61 :: val).length > 0
          ∧ (P.length : Int) + key.length < (P.length : Int) + (key ++ 61 :: val).length := by
        simp; omega
      rw [if_pos h1, if_pos h23]
      exact (addSegment_pair ps key val hkey hk).symm
  · rw [addSegment_no_equals ps seg heq]
    have hpos : JString.indexOfChar (P ++ (seg ++ 38 :: rest)) (i + 1) 61
        = indexOfCharFrom 61 rest (P.length + seg.length + 1) := by
      rw [JString.indexOfChar_append P _ 61 _ hi,
        indexOfCharFrom_append_of_not_mem _ _ _ _ heq]
      simp [indexOfCharFrom]
    rw [hpos]
    by_cases hneg : 0 ≤ indexOfCharFrom 61 rest (P.length + seg.length + 1)
    · have := indexOfCharFrom_ge _ _ _ hneg
      push_cast at this
      have h3 : ¬ ((P.length : Int) + seg.length > 0
          ∧ indexOfCharFrom 61 rest (P.length + seg.length + 1)
            < (P.length : Int) + seg.length) := by omega
      rw [if_neg h3]
      simp
    · have h1 : ¬ (indexOfCharFrom 61 rest (P.length + seg.length + 1) > i + 1) := by omega
      rw [if_neg h1]

/-- The scanning loop, started at the delimiter before the first of the segments,
adds the segments one after the other. -/
theorem parseLoop_segments (segs : List JString) (hne : segs ≠ [])
    (hamp : ∀ seg ∈ segs, 38 ∉ seg) :
    ∀ (P : JString) (i : Int) (ps : StringPairArray), i + 1 = P.length →
      URL.parseLoop (P ++ List.intercalate [38] segs) i ps
        = segs.foldl Spec.addSegment ps := by
  induction segs with
  | nil => exact absurd rfl hne
  | cons seg rest ih =>
    intro P i ps hi
    have hseg : 38 ∉ seg := hamp seg (by simp)
    cases rest with
    | nil =>
      have e : List.intercalate [38] [seg] = seg := by simp [List.intercalate]
      rw [e]
      exact parseLoop_last P seg i ps hi hseg
    | cons seg2 rest2 =>
      have e : List.intercalate [38] (seg :: seg2 :: rest2)
          = seg ++ 38 :: List.intercalate [38] (seg2 :: rest2) := by
        simp [List.intercalate]
      rw [e, parseLoop_step P seg _ i ps hi hseg]
      have e2 : P ++ (seg ++ 38 :: List.intercalate [38] (seg2 :: rest2))
          = (P ++ seg ++ [38]) ++ List.intercalate [38] (seg2 :: rest2) := by simp
      rw [e2]
      have := ih (by simp) (fun s hs => hamp s (List.mem_cons_of_mem _ hs))
        (P ++ seg ++ [38]) ((P.length : Int) + seg.length) (Spec.addSegment ps seg)
        (by simp; omega)
      rw [this]
      rfl

/-- The constructor on a string with a query: the base is the part before the first
`?`, the parameters are the segments of the query added in order. -/
theorem ofString_query (b : JString) (segs : List JString) (hb : 63 ∉ b)
    (hne : segs ≠ []) (hamp : ∀ seg ∈ segs, 38 ∉ seg) :
    URL.ofString (b ++ 63 :: List.intercalate [38] segs)
      = { url := b, postData := [], parameters := segs.foldl Spec.addSegment [],
          filesToUpload := [], mimeTypes := [] } := by
  have hidx : JString.indexOfChar (b ++ 63 :: List.intercalate [38] segs) 0 63
      = (b.length : Int) := by
    simp only [JString.indexOfChar, Int.toNat_zero, List.drop_zero]
    rw [indexOfCharFrom_append_of_not_mem _ _ _ _ hb, indexOfCharFrom_cons_self]
    simp
  have hnn : (0 : Int) ≤ (b.length : Int) := by omega
  have hnneg : ¬ ((b.length : Int) < 0) := by omega
  have hbase : JString.upToFirstOccurrenceOfChar (b ++ 63 :: List.intercalate [38] segs) 63
      = b := by
    simp only [JString.upToFirstOccurrenceOfChar, hidx, hnneg, if_false]
    have := JString.substring_append [] b (63 :: List.intercalate [38] segs) 0 b.length
      (by simp) (by simp)
    simpa using this
  have hloop : URL.parseLoop (b ++ 63 :: List.intercalate [38] segs) (b.length : Int) []
      = segs.foldl Spec.addSegment [] := by
    have e : b ++ 63 :: List.intercalate [38] segs
        = (b ++ [63]) ++ List.intercalate [38] segs := by simp
    rw [e]
    exact parseLoop_segments segs hne hamp (b ++ [63]) _ [] (by simp)
  simp only [URL.ofString, hidx, hnn, if_true, hbase, hloop]

/-- The constructor on a string without `?`. -/
theorem ofString_no_query (s : JString) (hs : 63 ∉ s) :
    URL.ofString s
      = { url := s, postData := [], parameters := [], filesToUpload := [],
          mimeTypes := [] } := by
  have hidx : JString.indexOfChar s 0 63 = -1 := by
    simp only [JString.indexOfChar, Int.toNat_zero, List.drop_zero]
    exact indexOfCharFrom_of_not_mem _ _ _ hs
  have : ¬ ((0 : Int) ≤ -1) := by omega
  simp only [URL.ofString, hidx, this, if_false]

theorem StringPairArray.set_of_not_mem (ps : StringPairArray) (key value : JString)
    (h : key ∉ ps.getAllKeys) : ps.set key value = ps ++ [(key, value)] := by
  induction ps with
  | nil => rfl
  | cons p rest ih =>
    obtain ⟨k, v⟩ := p
    have hk : k ≠ key := fun e => h (by simp [StringPairArray.getAllKeys, e])
    have hr : key ∉ StringPairArray.getAllKeys rest := fun e =>
      h (by simp only [StringPairArray.getAllKeys, List.map_cons, List.mem_cons] at e ⊢
            exact Or.inr e)
    simp only [StringPairArray.set, hk, if_false, List.cons_append]
    rw [ih hr]

/-- Well-formed pairs with distinct decoded keys are added in order. -/
theorem foldl_addSegment_pairs (pairs : List (JString × JString))
    (hk : ∀ p ∈ pairs, p.1 ≠ [] ∧ 61 ∉ p.1) :
    ∀ acc : StringPairArray,
      (StringPairArray.getAllKeys acc
        ++ pairs.map (fun p => URL.removeEscapeChars p.1)).Nodup →
      (pairs.map (fun p => p.1 ++ 61 :: p.2)).foldl Spec.addSegment acc
        = acc ++ pairs.map
            (fun p => (URL.removeEscapeChars p.1, URL.removeEscapeChars p.2)) := by
  induction pairs with
  | nil => intro acc _; simp
  | cons p rest ih =>
    intro acc hnd
    obtain ⟨hp1, hp2⟩ := hk p (by simp)
    simp only [List.map_cons, List.foldl_cons]
    rw [addSegment_pair acc p.1 p.2 hp2 hp1]
    have hnot : URL.removeEscapeChars p.1 ∉ StringPairArray.getAllKeys acc := by
      intro hm
      simp only [List.map_cons] at hnd
      have := (List.nodup_append.mp hnd).2.2
      exact this hm (by simp)
    rw [StringPairArray.set_of_not_mem acc _ _ hnot]
    have hnd2 : (StringPairArray.getAllKeys
          (acc ++ [(URL.removeEscapeChars p.1, URL.removeEscapeChars p.2)])
        ++ rest.map (fun p => URL.removeEscapeChars p.1)).Nodup := by
      simp only [StringPairArray.getAllKeys, List.map_append, List.map_cons, List.map_nil,
        List.append_assoc, List.singleton_append] at hnd ⊢
      exact hnd
    rw [ih (fun q hq => hk q (List.mem_cons_of_mem _ hq)) _ hnd2]
    simp

/-- C2. Parsing a well-formed query string: for every base `b` without `?` and every
non-empty list of pairs whose keys are non-empty and hold no `&` or `=`, whose values
hold no `&`, and whose decoded keys are pairwise distinct, the constructor applied to
`b ++ "?" ++ k1=v1&...&kn=vn` gives the base `b` and the parameters
`(removeEscapeChars k1, removeEscapeChars v1), ...` in that order. -/
theorem C2_parse_well_formed_query (b : JString) (pairs : List (JString × JString))
    (hb : 63 ∉ b) (hne : pairs ≠ [])
    (hk : ∀ p ∈ pairs, p.1 ≠ [] ∧ 38 ∉ p.1 ∧ 61 ∉ p.1)
    (hv : ∀ p ∈ pairs, 38 ∉ p.2)
    (hd : (pairs.map (fun p => URL.removeEscapeChars p.1)).Nodup) :
    URL.ofString (b ++ 63 :: Spec.queryOf pairs)
      = { url := b, postData := [],
          parameters := pairs.map
            (fun p => (URL.removeEscapeChars p.1, URL.removeEscapeChars p.2)),
          filesToUpload := [], mimeTypes := [] } := by
  unfold Spec.queryOf
  rw [ofString_query b _ hb (by simpa using hne)
    (by
      intro seg hseg
      obtain ⟨p, hp, rfl⟩ := List.mem_map.mp hseg
      have h1 := (hk p hp).2.1
      have h2 := hv p hp
      simp [h1, h2])]
  rw [foldl_addSegment_pairs pairs (fun p hp => ⟨(hk p hp).1, (hk p hp).2.2⟩) []
    (by simpa [StringPairArray.getAllKeys] using hd)]
  simp

/-- C2 at `"http://x/y?a=1&b=2"`: base `"http://x/y"`, parameters `a → "1"`, `b → "2"`
in that order. -/
theorem C2_parse_well_formed_query_witness :
    URL.ofString (lit "http://x/y?a=1&b=2")
      = { url := lit "http://x/y", postData := [],
          parameters := [(lit "a", lit "1"), (lit "b", lit "2")],
          filesToUpload := [], mimeTypes := [] } :=
  C2_parse_well_formed_query (lit "http://x/y") [(lit "a", lit "1"), (lit "b", lit "2")]
    (by decide) (by decide) (by decide) (by decide) (by decide)

/-- C3 (as stated, refuted). Parsing `"http://x/y?a=&b=2"` does not give the parameters
`b → "2"` alone: the pair `a=` is not dropped. -/
theorem C3_empty_value_not_dropped :
    (URL.ofString (lit "http://x/y?a=&b=2")).parameters ≠ [(lit "b", lit "2")] := by
  have h : URL.ofString (lit "http://x/y?a=&b=2") = _ :=
    ofString_query (lit "http://x/y") [lit "a=", lit "b=2"] (by decide) (by decide)
      (by decide)
  rw [h]
  decide

/-- C3 (amended). Parsing `"http://x/y?a=&b=2"` gives the base `"http://x/y"` and the
parameters `a → ""`, `b → "2"` in that order: a pair with a non-empty key and an empty
value is stored, with the empty value. -/
theorem C3_parse_empty_value :
    URL.ofString (lit "http://x/y?a=&b=2")
      = { url := lit "http://x/y", postData := [],
          parameters := [(lit "a", []), (lit "b", lit "2")],
          filesToUpload := [], mimeTypes := [] } :=
  ofString_query (lit "http://x/y") [lit "a=", lit "b=2"] (by decide) (by decide)
    (by decide)

/-- C4. Malformed query fragments are skipped without affecting their neighbours: for
every base `b` without `?` and every query made of `&`-separated segments, the
constructor returns the base `b` and the parameters obtained by adding the segments in
order, where (`Spec.addSegment`) a segment without `=` or starting with `=` adds
nothing and every other segment sets its decoded key to its decoded value. -/
theorem C4_malformed_segments_skipped (b : JString) (segs : List JString)
    (hb : 63 ∉ b) (hne : segs ≠ []) (hamp : ∀ seg ∈ segs, 38 ∉ seg) :
    URL.ofString (b ++ 63 :: List.intercalate [38] segs)
      = { url := b, postData := [], parameters := segs.foldl Spec.addSegment [],
          filesToUpload := [], mimeTypes := [] } :=
  ofString_query b segs hb hne hamp

/-- C4 at `"u?a&b=2"`, `"u?=1&b=2"`, `"u?&b=2"` and `"u?b=2&a"`: each gives exactly the
parameters `b → "2"`. -/
theorem C4_malformed_segments_skipped_witness :
    URL.ofString (lit "u?a&b=2")
        = { url := lit "u", postData := [], parameters := [(lit "b", lit "2")],
            filesToUpload := [], mimeTypes := [] }
    ∧ URL.ofString (lit "u?=1&b=2")
        = { url := lit "u", postData := [], parameters := [(lit "b", lit "2")],
            filesToUpload := [], mimeTypes := [] }
    ∧ URL.ofString (lit "u?&b=2")
        = { url := lit "u", postData := [], parameters := [(lit "b", lit "2")],
            filesToUpload := [], mimeTypes := [] }
    ∧ URL.ofString (lit "u?b=2&a")
        = { url := lit "u", postData := [], parameters := [(lit "b", lit "2")],
            filesToUpload := [], mimeTypes := [] } :=
  ⟨C4_malformed_segments_skipped (lit "u") [lit "a", lit "b=2"]
      (by decide) (by decide) (by decide),
   C4_malformed_segments_skipped (lit "u") [lit "=1", lit "b=2"]
      (by decide) (by decide) (by decide),
   C4_malformed_segments_skipped (lit "u") [lit "", lit "b=2"]
      (by decide) (by decide) (by decide),
   C4_malformed_segments_skipped (lit "u") [lit "b=2", lit "a"]
      (by decide) (by decide) (by decide)⟩

/-! ## Rendering -/

theorem stringArray_get_append_length (f r : List JString) (x : JString) :
    StringArray.get (f ++ x :: r) f.length = x := by
  induction f with
  | nil => simp [StringArray.get]
  | cons y f ih => simpa [StringArray.get] using ih

theorem mangle_loop (todo : StringPairArray) :
    ∀ (done : StringPairArray) (acc : JString), done ≠ [] →
      (List.range' done.length todo.length).foldl
        (fun p i =>
          let p1 := if 0 < i then p ++ [38] else p
          p1 ++ URL.addEscapeChars
                  (StringArray.get (StringPairArray.getAllKeys (done ++ todo)) i) true
             ++ [61]
             ++ URL.addEscapeChars
                  (StringArray.get (StringPairArray.getAllValues (done ++ todo)) i) true)
        acc
      = acc ++ todo.flatMap
          (fun p => 38 :: (URL.addEscapeChars p.1 true ++ 61 :: URL.addEscapeChars p.2 true))
    := by
  induction todo with
  | nil => intro done acc _; simp
  | cons p rest ih =>
    intro done acc hd
    have hpos : 0 < done.length := List.length_pos.mpr hd
    have hk : StringArray.get (StringPairArray.getAllKeys (done ++ p :: rest)) done.length
        = p.1 := by
      have := stringArray_get_append_length (done.map Prod.fst) (rest.map Prod.fst) p.1
      simpa [StringPairArray.getAllKeys] using this
    have hv : StringArray.get (StringPairArray.getAllValues (done ++ p :: rest)) done.length
        = p.2 := by
      have := stringArray_get_append_length (done.map Prod.snd) (rest.map Prod.snd) p.2
      simpa [StringPairArray.getAllValues] using this
    simp only [List.length_cons, List.range'_succ, List.foldl_cons, hk, hv, hpos, if_true]
    have e : done ++ p :: rest = (done ++ [p]) ++ rest := by simp
    have l : done.length + 1 = (done ++ [p]).length := by simp
    rw [e, l, ih (done ++ [p]) _ (by simp)]
    simp

theorem intercalate_cons_flatMap (x : JString) (xs : List JString) :
    List.intercalate [38] (x :: xs) = x ++ xs.flatMap (fun y => 38 :: y) := by
  induction xs generalizing x with
  | nil => simp [List.intercalate]
  | cons y ys ih =>
    have e : List.intercalate [38] (x :: y :: ys) = x ++ 38 :: List.intercalate [38] (y :: ys) := by
      simp [List.intercalate]
    rw [e, ih y]
    simp

/-- The loop of `getMangledParameters` writes the `&`-joined encoded pairs. -/
theorem getMangledParameters_eq_mangle (parameters : StringPairArray) :
    URL.getMangledParameters parameters = Spec.mangle parameters := by
  cases parameters with
  | nil => rfl
  | cons p rest =>
    unfold URL.getMangledParameters Spec.mangle
    have hr : List.range (StringPairArray.size (p :: rest))
        = 0 :: List.range' 1 rest.length := by
      simp [StringPairArray.size, List.range_eq_range', List.range'_succ]
    rw [hr, List.foldl_cons]
    have := mangle_loop rest [p]
      ([] ++ URL.addEscapeChars p.1 true ++ [61] ++ URL.addEscapeChars p.2 true) (by simp)
    simp only [List.length_singleton, List.singleton_append] at this
    simp only [lt_irrefl, if_false]
    have hk : StringArray.get (StringPairArray.getAllKeys (p :: rest)) 0 = p.1 := rfl
    have hv : StringArray.get (StringPairArray.getAllValues (p :: rest)) 0 = p.2 := rfl
    rw [hk, hv, this, List.map_cons, intercalate_cons_flatMap]
    simp [List.flatMap_map]

/-- C5. `URL::toString` rendering: with a non-empty parameter list, `toString (true)`
is the base, `?`, and the `&`-joined `addEscapeChars (key, true) = addEscapeChars
(value, true)` in insertion order; `toString (false)`, and `toString (true)` without
parameters, are the base unchanged. -/
theorem C5_toString_rendering (u : URL) :
    (u.parameters ≠ [] →
      URL.toString u true
        = u.url ++ 63 :: List.intercalate [38]
            (u.parameters.map
              (fun p => URL.addEscapeChars p.1 true ++ 61 :: URL.addEscapeChars p.2 true)))
    ∧ URL.toString u false = u.url
    ∧ (u.parameters = [] → URL.toString u true = u.url) := by
  refine ⟨?_, ?_, ?_⟩
  · intro hne
    have hpos : 0 < StringPairArray.size u.parameters := List.length_pos.mpr hne
    simp [URL.toString, hpos, getMangledParameters_eq_mangle, Spec.mangle]
  · simp [URL.toString]
  · intro he
    simp [URL.toString, he, StringPairArray.size]

/-- C5 at the parameters `a → "1 1"`, `b → "x&y"` on the base `"http://h/p"`:
`toString (true)` is `"http://h/p?a=1+1&b=x%26y"`. -/
theorem C5_toString_rendering_witness :
    URL.toString
        { url := lit "http://h/p", postData := [],
          parameters := [(lit "a", lit "1 1"), (lit "b", lit "x&y")],
          filesToUpload := [], mimeTypes := [] } true
      = lit "http://h/p?a=1+1&b=x%26y" := by
  rw [(C5_toString_rendering _).1 (by decide)]
  simp only [List.map_cons, List.map_nil]
  rw [addEscapeChars_eq_flatMap (lit "a") true (by decide),
    addEscapeChars_eq_flatMap (lit "1 1") true (by decide),
    addEscapeChars_eq_flatMap (lit "b") true (by decide),
    addEscapeChars_eq_flatMap (lit "x&y") true (by decide)]
  decide

/-- C6. `URL::addEscapeChars` is a byte-wise encoder: on every byte string the result
is the concatenation, byte by byte, of `Spec.encodeByte` (the byte itself when it is an
ASCII letter or digit or in the context's whitelist, `+` for a space, otherwise `%` and
the two lowercase hex digits, high nibble first); and on a string without `,` and `$`
the two contexts give the same result. -/
theorem C6_addEscapeChars_bytewise (s : JString) (isParameter : Bool)
    (hs : Spec.isByteString s) :
    URL.addEscapeChars s isParameter = s.flatMap (Spec.encodeByte isParameter)
    ∧ (44 ∉ s → 36 ∉ s → URL.addEscapeChars s true = URL.addEscapeChars s false) := by
  refine ⟨addEscapeChars_eq_flatMap s isParameter hs, ?_⟩
  intro h1 h2
  rw [addEscapeChars_eq_flatMap s true hs, addEscapeChars_eq_flatMap s false hs]
  apply List.flatMap_congr
  intro c hc
  have n1 : c ≠ 44 := fun e => h1 (e ▸ hc)
  have n2 : c ≠ 36 := fun e => h2 (e ▸ hc)
  simp [Spec.encodeByte, Spec.whitelist, n1, n2]

/-- C6 at the bytes `A`, space, `%`, `0xE9`, `+`, `_`: encoded as `A+%25%e9%2b_` in
both contexts; and at `",$"`: `%2c%24` in the parameter context, unchanged in the
other. -/
theorem C6_addEscapeChars_bytewise_witness :
    URL.addEscapeChars [65, 32, 37, 0xE9, 43, 95] true = lit "A+%25%e9%2b_"
    ∧ URL.addEscapeChars [65, 32, 37, 0xE9, 43, 95] true
        = URL.addEscapeChars [65, 32, 37, 0xE9, 43, 95] false
    ∧ URL.addEscapeChars (lit ",$") true = lit "%2c%24"
    ∧ URL.addEscapeChars (lit ",$") false = lit ",$" := by
  have h := C6_addEscapeChars_bytewise [65, 32, 37, 0xE9, 43, 95] true (by decide)
  have h1 := (C6_addEscapeChars_bytewise (lit ",$") true (by decide)).1
  have h2 := (C6_addEscapeChars_bytewise (lit ",$") false (by decide)).1
  refine ⟨?_, h.2 (by decide) (by decide), ?_, ?_⟩
  · rw [h.1]; decide
  · rw [h1]; decide
  · rw [h2]; decide

/-! ## Scheme, domain and sub-path -/

theorem JString.charAt_append_length (P t : JString) (j : Int) (hj : j = P.length) :
    JString.charAt (P ++ t) j = t.headD 0 := by
  subst hj
  have hn : ¬ ((P.length : Int) < 0) := by omega
  simp only [JString.charAt, hn, if_false, Int.toNat_ofNat]
  induction P with
  | nil => cases t <;> simp
  | cons x P ih => simpa using ih (by omega)

theorem skipSchemeChars_run (run : JString) (hrun : ∀ c ∈ run, URL.isSchemeChar c = true) :
    ∀ (P tail : JString), URL.isSchemeChar (tail.headD 0) = false →
      URL.skipSchemeChars (P ++ (run ++ tail)) P.length = P.length + run.length := by
  induction run with
  | nil =>
    intro P tail ht
    rw [URL.skipSchemeChars, JString.charAt_append_length P _ _ rfl]
    simp only [List.nil_append, ht, Bool.false_eq_true, if_false, List.length_nil,
      Nat.add_zero]
  | cons c run ih =>
    intro P tail ht
    rw [URL.skipSchemeChars, JString.charAt_append_length P _ _ rfl]
    have hc : URL.isSchemeChar c = true := hrun c (by simp)
    simp only [List.cons_append, List.headD_cons, hc, if_true]
    have e : P ++ c :: (run ++ tail) = (P ++ [c]) ++ (run ++ tail) := by simp
    have l : P.length + 1 = (P ++ [c]).length := by simp
    rw [e, l, ih (fun x hx => hrun x (List.mem_cons_of_mem _ hx)) (P ++ [c]) tail ht]
    simp
    omega

theorem skipSlashes_run (n : Nat) :
    ∀ (P tail : JString), tail.headD 0 ≠ 47 →
      URL.skipSlashes (P ++ (List.replicate n 47 ++ tail)) P.length = P.length + n := by
  induction n with
  | zero =>
    intro P tail ht
    rw [URL.skipSlashes, JString.charAt_append_length P _ _ rfl]
    simp only [List.replicate_zero, List.nil_append, ht, if_false, Nat.add_zero]
  | succ n ih =>
    intro P tail ht
    rw [URL.skipSlashes, JString.charAt_append_length P _ _ rfl]
    simp only [List.replicate_succ, List.cons_append, List.headD_cons, if_true]
    have e : P ++ 47 :: (List.replicate n 47 ++ tail)
        = (P ++ [47]) ++ (List.replicate n 47 ++ tail) := by simp
    have l : P.length + 1 = (P ++ [47]).length := by simp
    rw [e, l, ih (P ++ [47]) tail ht]
    simp
    omega

/-- On `scheme ++ ":" ++ tail`, `findStartOfDomain` is the index after the `:`. -/
theorem findStartOfDomain_scheme (scheme tail : JString)
    (hs : ∀ c ∈ scheme, URL.isSchemeChar c = true) :
    URL.findStartOfDomain (scheme ++ 58 :: tail) = scheme.length + 1 := by
  have h := skipSchemeChars_run scheme hs [] (58 :: tail)
    (show URL.isSchemeChar 58 = false by decide)
  simp only [List.nil_append, List.length_nil, Nat.zero_add] at h
  have hc := JString.charAt_append_length scheme (58 :: tail) scheme.length rfl
  simp only [URL.findStartOfDomain, h, hc, List.headD_cons, if_true]

/-- The start of the domain of `scheme ++ ":" ++ n slashes ++ host ++ ...`. -/
theorem domain_start (scheme host tail : JString) (n : Nat)
    (hs : ∀ c ∈ scheme, URL.isSchemeChar c = true) (hh : (host ++ tail).headD 0 ≠ 47) :
    URL.skipSlashes (scheme ++ 58 :: (List.replicate n 47 ++ (host ++ tail)))
        (URL.findStartOfDomain (scheme ++ 58 :: (List.replicate n 47 ++ (host ++ tail))))
      = scheme.length + 1 + n := by
  rw [findStartOfDomain_scheme scheme _ hs]
  have e : scheme ++ 58 :: (List.replicate n 47 ++ (host ++ tail))
      = (scheme ++ [58]) ++ (List.replicate n 47 ++ (host ++ tail)) := by simp
  have l : scheme.length + 1 = (scheme ++ [58]).length := by simp
  rw [e, l, skipSlashes_run n (scheme ++ [58]) (host ++ tail) hh]

/-- C7. `URL::getDomain` extracts the host: when the base is a scheme (letters, digits,
`+`, `-`, `.`), a `:`, any number of `/`, a non-empty host holding neither `/` nor `:`,
and a rest starting with `/` or `:`, `getDomain` returns exactly the host. -/
theorem C7_getDomain_host (u : URL) (scheme host rest : JString) (n d : Nat)
    (hu : u.url = scheme ++ 58 :: (List.replicate n 47 ++ (host ++ d :: rest)))
    (hs : ∀ c ∈ scheme, URL.isSchemeChar c = true)
    (hne : host ≠ []) (h47 : 47 ∉ host) (h58 : 58 ∉ host) (hd : d = 47 ∨ d = 58) :
    URL.getDomain u = host := by
  have hh : (host ++ d :: rest).headD 0 ≠ 47 := by
    cases host with
    | nil => exact absurd rfl hne
    | cons x xs =>
      simp only [List.cons_append, List.headD_cons]
      intro e
      exact h47 (by simp [e])
  have hstart := domain_start scheme host (d :: rest) n hs hh
  unfold URL.getDomain
  rw [hu, hstart]
  have e : scheme ++ 58 :: (List.replicate n 47 ++ (host ++ d :: rest))
      = (scheme ++ 58 :: List.replicate n 47) ++ (host ++ d :: rest) := by simp
  have l : ((scheme.length + 1 + n : Nat) : Int)
      = ((scheme ++ 58 :: List.replicate n 47).length : Nat) := by simp; omega
  rw [e]
  set P := scheme ++ 58 :: List.replicate n 47 with hP
  have h1 : JString.indexOfChar (P ++ (host ++ d :: rest)) ((scheme.length + 1 + n : Nat) : Int) 47
      = indexOfCharFrom 47 (d :: rest) (P.length + host.length) := by
    rw [JString.indexOfChar_append P _ 47 _ l, indexOfCharFrom_append_of_not_mem _ _ _ _ h47]
  have h2 : JString.indexOfChar (P ++ (host ++ d :: rest)) ((scheme.length + 1 + n : Nat) : Int) 58
      = indexOfCharFrom 58 (d :: rest) (P.length + host.length) := by
    rw [JString.indexOfChar_append P _ 58 _ l, indexOfCharFrom_append_of_not_mem _ _ _ _ h58]
  have hstop : (if JString.indexOfChar (P ++ (host ++ d :: rest))
                    ((scheme.length + 1 + n : Nat) : Int) 47 < 0
                  ∨ JString.indexOfChar (P ++ (host ++ d :: rest))
                    ((scheme.length + 1 + n : Nat) : Int) 58 < 0
                then max (JString.indexOfChar (P ++ (host ++ d :: rest))
                            ((scheme.length + 1 + n : Nat) : Int) 47)
                         (JString.indexOfChar (P ++ (host ++ d :: rest))
                            ((scheme.length + 1 + n : Nat) : Int) 58)
                else min (JString.indexOfChar (P ++ (host ++ d :: rest))
                            ((scheme.length + 1 + n : Nat) : Int) 47)
                         (JString.indexOfChar (P ++ (host ++ d :: rest))
                            ((scheme.length + 1 + n : Nat) : Int) 58))
      = (P.length : Int) + host.length := by
    rw [h1, h2]
    rcases hd with rfl | rfl
    · have ha : indexOfCharFrom 47 (47 :: rest) (P.length + host.length)
          = ((P.length + host.length : Nat) : Int) := indexOfCharFrom_cons_self _ _ _
      have hb : indexOfCharFrom 58 (47 :: rest) (P.length + host.length)
          = indexOfCharFrom 58 rest (P.length + host.length + 1) := by
        simp [indexOfCharFrom]
      rw [ha, hb]
      by_cases hn : 0 ≤ indexOfCharFrom 58 rest (P.length + host.length + 1)
      · have := indexOfCharFrom_ge _ _ _ hn
        push_cast at this ⊢
        split_ifs <;> omega
      · push_cast
        split_ifs <;> omega
    · have ha : indexOfCharFrom 58 (58 :: rest) (P.length + host.length)
          = ((P.length + host.length : Nat) : Int) := indexOfCharFrom_cons_self _ _ _
      have hb : indexOfCharFrom 47 (58 :: rest) (P.length + host.length)
          = indexOfCharFrom 47 rest (P.length + host.length + 1) := by
        simp [indexOfCharFrom]
      rw [ha, hb]
      by_cases hn : 0 ≤ indexOfCharFrom 47 rest (P.length + host.length + 1)
      · have := indexOfCharFrom_ge _ _ _ hn
        push_cast at this ⊢
        split_ifs <;> omega
      · push_cast
        split_ifs <;> omega
  simp only [hstop]
  exact JString.substring_append P host (d :: rest) _ _ l rfl

/-- C7 at `"http://sub.example.com/path"` and `"ftp://host:21/p"`: the domains are
`"sub.example.com"` and `"host"`. -/
theorem C7_getDomain_host_witness :
    URL.getDomain (URL.ofString (lit "http://sub.example.com/path")) = lit "sub.example.com"
    ∧ URL.getDomain (URL.ofString (lit "ftp://host:21/p")) = lit "host" :=
  ⟨C7_getDomain_host _ (lit "http") (lit "sub.example.com") (lit "path") 2 47
      (by decide) (by decide) (by decide) (by decide) (by decide) (by decide),
   C7_getDomain_host _ (lit "ftp") (lit "host") (lit "21/p") 2 58
      (by decide) (by decide) (by decide) (by decide) (by decide) (by decide)⟩

theorem JString.endsWithChar_append (a b : JString) (c : Nat) (hb : b ≠ []) :
    JString.endsWithChar (a ++ b) c = JString.endsWithChar b c := by
  simp [JString.endsWithChar, List.getLast?_append_of_ne_nil a hb]

theorem JString.endsWithChar_of_not_mem (b : JString) (c : Nat) (h : c ∉ b) :
    JString.endsWithChar b c = false := by
  unfold JString.endsWithChar
  cases hl : b.getLast? with
  | none => rfl
  | some x =>
    have hx : x ∈ b := List.mem_of_getLast?_eq_some hl
    have : x ≠ c := fun e => h (e ▸ hx)
    simp [this]

/-- The result of `withNewSubPath` on a base `scheme://host` with an optional `/` and old path. -/
theorem withNewSubPath_base (u : URL) (scheme host rest newPath : JString)
    (hu : u.url = scheme ++ 58 :: (List.replicate 2 47 ++ (host ++ rest)))
    (hs : ∀ c ∈ scheme, URL.isSchemeChar c = true)
    (hne : host ≠ []) (h47 : 47 ∉ host)
    (hrest : rest = [] ∨ ∃ old, rest = 47 :: old) :
    URL.withNewSubPath u newPath
      = { url := scheme ++ 58 :: 47 :: 47 :: (host ++ 47 ::
                  (if JString.startsWithChar newPath 47 then JString.substringFrom newPath 1
                   else newPath))
          postData := u.postData
          parameters := u.parameters
          filesToUpload := u.filesToUpload
          mimeTypes := u.mimeTypes } := by
  have hh : (host ++ rest).headD 0 ≠ 47 := by
    cases host with
    | nil => exact absurd rfl hne
    | cons x xs =>
      simp only [List.cons_append, List.headD_cons]
      intro e
      exact h47 (by simp [e])
  have hstart := domain_start scheme host rest 2 hs hh
  have e : scheme ++ 58 :: (List.replicate 2 47 ++ (host ++ rest))
      = (scheme ++ 58 :: List.replicate 2 47) ++ (host ++ rest) := by simp
  have l : ((scheme.length + 1 + 2 : Nat) : Int)
      = ((scheme ++ 58 :: List.replicate 2 47).length : Nat) := by simp; omega
  have hidx : JString.indexOfChar (scheme ++ 58 :: (List.replicate 2 47 ++ (host ++ rest)))
      ((scheme.length + 1 + 2 : Nat) : Int) 47
      = indexOfCharFrom 47 rest ((scheme ++ 58 :: List.replicate 2 47).length + host.length) := by
    rw [e, JString.indexOfChar_append _ _ 47 _ l, indexOfCharFrom_append_of_not_mem _ _ _ _ h47]
  unfold URL.withNewSubPath
  simp only [URL.copy, hu, hstart, hidx]
  rcases hrest with rfl | ⟨old, rfl⟩
  · have h0 : ¬ ((0 : Int) < indexOfCharFrom 47 []
        ((scheme ++ 58 :: List.replicate 2 47).length + host.length) + 1) := by
      simp [indexOfCharFrom]
    have hend : JString.endsWithChar
        (scheme ++ 58 :: (List.replicate 2 47 ++ (host ++ []))) 47 = false := by
      have e2 : scheme ++ 58 :: (List.replicate 2 47 ++ (host ++ []))
          = (scheme ++ 58 :: List.replicate 2 47) ++ host := by simp
      rw [e2, JString.endsWithChar_append _ _ _ hne]
      exact JString.endsWithChar_of_not_mem host 47 h47
    simp only [h0, if_false, hend, Bool.not_false, if_true]
    split <;> simp [List.replicate]
  · have hi : indexOfCharFrom 47 (47 :: old)
        ((scheme ++ 58 :: List.replicate 2 47).length + host.length)
        = (((scheme ++ 58 :: List.replicate 2 47).length + host.length : Nat) : Int) :=
      indexOfCharFrom_cons_self _ _ _
    have h0 : (0 : Int) < (((scheme ++ 58 :: List.replicate 2 47).length + host.length : Nat)
        : Int) + 1 := by omega
    have hsub : JString.substring
        (scheme ++ 58 :: (List.replicate 2 47 ++ (host ++ 47 :: old))) 0
        ((((scheme ++ 58 :: List.replicate 2 47).length + host.length : Nat) : Int) + 1)
        = scheme ++ 58 :: (List.replicate 2 47 ++ (host ++ [47])) := by
      have e3 : scheme ++ 58 :: (List.replicate 2 47 ++ (host ++ 47 :: old))
          = [] ++ ((scheme ++ 58 :: (List.replicate 2 47 ++ (host ++ [47]))) ++ old) := by
        simp
      rw [e3]
      exact JString.substring_append [] _ old 0 _ (by simp) (by simp; omega)
    have hend : JString.endsWithChar
        (scheme ++ 58 :: (List.replicate 2 47 ++ (host ++ [47]))) 47 = true := by
      have e2 : scheme ++ 58 :: (List.replicate 2 47 ++ (host ++ [47]))
          = (scheme ++ 58 :: (List.replicate 2 47 ++ host)) ++ [47] := by simp
      rw [e2, JString.endsWithChar_append _ _ _ (by simp)]
      rfl
    simp only [hi, h0, if_true, hsub, hend, Bool.not_true, Bool.false_eq_true, if_false]
    split <;> simp [List.replicate]

/-- C8. `URL::withNewSubPath` inserts exactly one `/` whether or not the new path
starts with `/`: for a path `p` that does not start with `/`, `withNewSubPath ("/" + p)`
equals `withNewSubPath (p)`; and when the base is `scheme://host`, optionally followed
by `/` and an old path, the result has the base `scheme://host/p` and the same
parameters, POST data and upload tables. -/
theorem C8_withNewSubPath_one_slash (u : URL) (p : JString)
    (hp : JString.startsWithChar p 47 = false) :
    URL.withNewSubPath u (47 :: p) = URL.withNewSubPath u p
    ∧ ∀ scheme host rest : JString,
        u.url = scheme ++ lit "://" ++ host ++ rest →
        (∀ c ∈ scheme, URL.isSchemeChar c = true) →
        host ≠ [] → 47 ∉ host → (rest = [] ∨ ∃ old, rest = 47 :: old) →
        URL.withNewSubPath u p
          = { url := scheme ++ lit "://" ++ host ++ 47 :: p
              postData := u.postData
              parameters := u.parameters
              filesToUpload := u.filesToUpload
              mimeTypes := u.mimeTypes } := by
  constructor
  · unfold URL.withNewSubPath
    have h1 : JString.startsWithChar (47 :: p) 47 = true := by simp [JString.startsWithChar]
    have h2 : JString.substringFrom (47 :: p) 1 = p := by simp [JString.substringFrom]
    simp only [h1, h2, hp, if_true, Bool.false_eq_true, if_false]
  · intro scheme host rest hu hs hne h47 hrest
    have hu2 : u.url = scheme ++ 58 :: (List.replicate 2 47 ++ (host ++ rest)) := by
      rw [hu]
      have : lit "://" = [58, 47, 47] := by decide
      simp [this, List.replicate]
    rw [withNewSubPath_base u scheme host rest p hu2 hs hne h47 hrest]
    have : lit "://" = [58, 47, 47] := by decide
    simp [hp, this]

/-- C8 on `"http://h/old/path"`: `withNewSubPath ("/new")` and `withNewSubPath ("new")`
both give the base `"http://h/new"`. -/
theorem C8_withNewSubPath_one_slash_witness :
    URL.withNewSubPath (URL.ofString (lit "http://h/old/path")) (lit "/new")
        = URL.withNewSubPath (URL.ofString (lit "http://h/old/path")) (lit "new")
    ∧ URL.withNewSubPath (URL.ofString (lit "http://h/old/path")) (lit "new")
        = { url := lit "http://h/new", postData := [], parameters := [],
            filesToUpload := [], mimeTypes := [] } :=
  ⟨(C8_withNewSubPath_one_slash (URL.ofString (lit "http://h/old/path")) (lit "new")
      (by decide)).1,
   (C8_withNewSubPath_one_slash (URL.ofString (lit "http://h/old/path")) (lit "new")
      (by decide)).2 (lit "http") (lit "h") (lit "/old/path")
      (by decide) (by decide) (by decide) (by decide) (Or.inr ⟨lit "old/path", by decide⟩)⟩

/-! ## The builders -/

theorem StringPairArray.set_filter_ne (ps : StringPairArray) (key value : JString) :
    (ps.set key value).filter (fun p => decide (p.1 ≠ key))
      = ps.filter (fun p => decide (p.1 ≠ key)) := by
  induction ps with
  | nil => simp [StringPairArray.set]
  | cons p rest ih =>
    obtain ⟨k, v⟩ := p
    by_cases hk : k = key
    · simp [StringPairArray.set, hk]
    · simp only [StringPairArray.set, hk, if_false, List.filter_cons]
      rw [ih]

theorem StringPairArray.getValue_set (ps : StringPairArray) (key value : JString) :
    (ps.set key value).getValue key = value := by
  induction ps with
  | nil => simp [StringPairArray.set, StringPairArray.getValue]
  | cons p rest ih =>
    obtain ⟨k, v⟩ := p
    by_cases hk : k = key
    · simp [StringPairArray.set, StringPairArray.getValue, hk]
    · simp [StringPairArray.set, StringPairArray.getValue, hk, ih]

theorem StringPairArray.getAllKeys_set (ps : StringPairArray) (key value : JString) :
    (ps.set key value).getAllKeys
      = if key ∈ ps.getAllKeys then ps.getAllKeys else ps.getAllKeys ++ [key] := by
  induction ps with
  | nil => simp [StringPairArray.set, StringPairArray.getAllKeys]
  | cons p rest ih =>
    obtain ⟨k, v⟩ := p
    by_cases hk : k = key
    · simp [StringPairArray.set, StringPairArray.getAllKeys, hk]
    · have hk2 : ¬ key = k := fun e => hk e.symm
      simp only [StringPairArray.getAllKeys] at ih
      simp only [StringPairArray.set, hk, if_false, StringPairArray.getAllKeys, List.map_cons,
        List.mem_cons, hk2, false_or, ih]
      split <;> simp

theorem StringPairArray.mem_getAllValues_set (ps : StringPairArray) (key value x : JString)
    (hx : x ∈ (ps.set key value).getAllValues) : x = value ∨ x ∈ ps.getAllValues := by
  induction ps with
  | nil =>
    simp [StringPairArray.set, StringPairArray.getAllValues] at hx
    exact Or.inl hx
  | cons p rest ih =>
    obtain ⟨k, v⟩ := p
    by_cases hk : k = key
    · simp only [StringPairArray.set, hk, if_true, StringPairArray.getAllValues,
        List.map_cons, List.mem_cons] at hx ⊢
      rcases hx with h | h
      · exact Or.inl h
      · exact Or.inr (Or.inr h)
    · simp only [StringPairArray.set, hk, if_false, StringPairArray.getAllValues,
        List.map_cons, List.mem_cons] at hx ⊢
      rcases hx with h | h
      · exact Or.inr (Or.inl h)
      · rcases ih h with h2 | h2
        · exact Or.inl h2
        · exact Or.inr (Or.inr h2)

/-- C9. Frame property of the builders: `withParameter (k, v)` keeps the base, the POST
data and both upload tables, keeps every parameter entry whose key is not `k`, in order,
and maps `k` to `v`; `withPOSTData (d)` changes the POST data to `d` and nothing else;
`withFileToUpload (k, f, m)` keeps the base, the parameters and the POST data, keeps
every entry of both upload tables whose key is not `k`, and maps `k` to `f` and to `m`.
The builders are functions of the receiver, which they leave as it is. -/
theorem C9_builders_frame (u : URL) (k v d f m : JString) :
    ((URL.withParameter u k v).url = u.url
      ∧ (URL.withParameter u k v).postData = u.postData
      ∧ (URL.withParameter u k v).filesToUpload = u.filesToUpload
      ∧ (URL.withParameter u k v).mimeTypes = u.mimeTypes
      ∧ (URL.withParameter u k v).parameters.filter (fun p => decide (p.1 ≠ k))
          = u.parameters.filter (fun p => decide (p.1 ≠ k))
      ∧ (URL.withParameter u k v).parameters.getValue k = v)
    ∧ URL.withPOSTData u d
        = { url := u.url, postData := d, parameters := u.parameters,
            filesToUpload := u.filesToUpload, mimeTypes := u.mimeTypes }
    ∧ ((URL.withFileToUpload u k f m).url = u.url
      ∧ (URL.withFileToUpload u k f m).parameters = u.parameters
      ∧ (URL.withFileToUpload u k f m).postData = u.postData
      ∧ (URL.withFileToUpload u k f m).filesToUpload.filter (fun p => decide (p.1 ≠ k))
          = u.filesToUpload.filter (fun p => decide (p.1 ≠ k))
      ∧ (URL.withFileToUpload u k f m).mimeTypes.filter (fun p => decide (p.1 ≠ k))
          = u.mimeTypes.filter (fun p => decide (p.1 ≠ k))
      ∧ (URL.withFileToUpload u k f m).filesToUpload.getValue k = f
      ∧ (URL.withFileToUpload u k f m).mimeTypes.getValue k = m) := by
  refine ⟨⟨rfl, rfl, rfl, rfl, ?_, ?_⟩, rfl, ⟨rfl, rfl, rfl, ?_, ?_, ?_, ?_⟩⟩
  · exact StringPairArray.set_filter_ne u.parameters k v
  · exact StringPairArray.getValue_set u.parameters k v
  · exact StringPairArray.set_filter_ne u.filesToUpload k f
  · exact StringPairArray.set_filter_ne u.mimeTypes k m
  · exact StringPairArray.getValue_set u.filesToUpload k f
  · exact StringPairArray.getValue_set u.mimeTypes k m

theorem ofString_uploads (s : JString) :
    (URL.ofString s).filesToUpload = [] ∧ (URL.ofString s).mimeTypes = [] := by
  unfold URL.ofString
  simp only []
  split <;> exact ⟨rfl, rfl⟩

/-- C10. Upload-table invariant: in every URL value reachable from `URL()` or
`URL (String)` through the copy constructor and the builders (`withFileToUpload` with a
non-empty MIME type), the keys of `filesToUpload` are the keys of `mimeTypes`, in the
same order, and no MIME type is empty. -/
theorem C10_upload_tables_invariant (u : URL) (h : Reachable u) :
    u.filesToUpload.getAllKeys = u.mimeTypes.getAllKeys
    ∧ ∀ m ∈ u.mimeTypes.getAllValues, m ≠ [] := by
  induction h with
  | empty => exact ⟨rfl, by simp [URL.empty, StringPairArray.getAllValues]⟩
  | ofString s =>
    obtain ⟨h1, h2⟩ := ofString_uploads s
    rw [h1, h2]
    exact ⟨rfl, by simp [StringPairArray.getAllValues]⟩
  | copy _ ih => exact ih
  | withParameter name value _ ih => exact ih
  | withPOSTData postData _ ih => exact ih
  | withNewSubPath newPath _ ih => exact ih
  | @withFileToUpload u name file mimeType _ hm ih =>
    have e1 : (URL.withFileToUpload u name file mimeType).filesToUpload
        = u.filesToUpload.set name file := rfl
    have e2 : (URL.withFileToUpload u name file mimeType).mimeTypes
        = u.mimeTypes.set name mimeType := rfl
    rw [e1, e2]
    refine ⟨?_, ?_⟩
    · rw [StringPairArray.getAllKeys_set, StringPairArray.getAllKeys_set, ih.1]
    · intro m hmem
      rcases StringPairArray.mem_getAllValues_set _ _ _ _ hmem with h | h
      · exact h ▸ hm
      · exact ih.2 m h

/-- C10 at `URL ("http://h/up?x=1")` after `withFileToUpload` twice for the field
`"f"` and once for the field `"g"`, with a `withParameter` and a `withNewSubPath` in
between. -/
theorem C10_upload_tables_invariant_witness :
    (URL.withFileToUpload
      (URL.withNewSubPath
        (URL.withFileToUpload
          (URL.withParameter
            (URL.withFileToUpload (URL.ofString (lit "http://h/up?x=1"))
              (lit "f") (lit "/tmp/a.png") (lit "image/png"))
            (lit "y") (lit "2"))
          (lit "g") (lit "/tmp/b.txt") (lit "text/plain"))
        (lit "files"))
      (lit "f") (lit "/tmp/c.gif") (lit "image/gif")).filesToUpload.getAllKeys
      = [lit "f", lit "g"]
    ∧ (URL.withFileToUpload
      (URL.withNewSubPath
        (URL.withFileToUpload
          (URL.withParameter
            (URL.withFileToUpload (URL.ofString (lit "http://h/up?x=1"))
              (lit "f") (lit "/tmp/a.png") (lit "image/png"))
            (lit "y") (lit "2"))
          (lit "g") (lit "/tmp/b.txt") (lit "text/plain"))
        (lit "files"))
      (lit "f") (lit "/tmp/c.gif") (lit "image/gif")).mimeTypes.getAllKeys
      = [lit "f", lit "g"] := by
  have h := C10_upload_tables_invariant _
    (Reachable.withFileToUpload (lit "f") (lit "/tmp/c.gif") (lit "image/gif")
      (Reachable.withNewSubPath (lit "files")
        (Reachable.withFileToUpload (lit "g") (lit "/tmp/b.txt") (lit "text/plain")
          (Reachable.withParameter (lit "y") (lit "2")
            (Reachable.withFileToUpload (lit "f") (lit "/tmp/a.png") (lit "image/png")
              (Reachable.ofString (lit "http://h/up?x=1")) (by decide)))
          (by decide)))
      (by decide))
  have hm : (URL.withFileToUpload
      (URL.withNewSubPath
        (URL.withFileToUpload
          (URL.withParameter
            (URL.withFileToUpload (URL.ofString (lit "http://h/up?x=1"))
              (lit "f") (lit "/tmp/a.png") (lit "image/png"))
            (lit "y") (lit "2"))
          (lit "g") (lit "/tmp/b.txt") (lit "text/plain"))
        (lit "files"))
      (lit "f") (lit "/tmp/c.gif") (lit "image/gif")).mimeTypes.getAllKeys
      = [lit "f", lit "g"] := by
    simp only [URL.withFileToUpload, URL.withNewSubPath, URL.withParameter, URL.copy,
      (ofString_uploads _).2]
    decide
  exact ⟨h.1.trans hm, hm⟩

/-! ## The website heuristic -/

/-- C11 (as stated, refuted). The text `"www..x"` starts with `"www."`, holds no `@`,
does not end with `.`, and its remainder after the four characters `"www."` holds a
`.`; `isProbablyAWebsiteURL` returns `false` on it. -/
theorem C11_www_dot_right_after_prefix :
    JString.startsWithIgnoreCase (lit "www..x") (lit "www.") = true
    ∧ 64 ∉ lit "www..x"
    ∧ JString.endsWithChar (lit "www..x") 46 = false
    ∧ 46 ∈ JString.substringFrom (lit "www..x") 4
    ∧ URL.isProbablyAWebsiteURL (lit "www..x") = false := by
  decide

theorem startsWithIgnoreCase_www_not_other (text other : JString)
    (h : JString.startsWithIgnoreCase text (lit "www.") = true)
    (ho : other.head? ≠ none)
    (hne : (other.map CharacterFunctions.toLowerCase).head? ≠ some 119) :
    JString.startsWithIgnoreCase text other = false := by
  cases text with
  | nil => simp [JString.startsWithIgnoreCase, lit] at h
  | cons c rest =>
    cases other with
    | nil => simp at ho
    | cons o orest =>
      have hc : CharacterFunctions.toLowerCase c = 119 := by
        have : lit "www." = [119, 119, 119, 46] := by decide
        simp only [JString.startsWithIgnoreCase, this, decide_eq_true_eq] at h
        simp only [List.length_cons, List.length_nil, List.take_succ_cons, List.map_cons]
          at h
        have h0 := (List.cons.inj h).1
        rw [h0]
        decide
      simp only [List.map_cons, List.head?_cons, ne_eq, Option.some.injEq] at hne
      simp only [JString.startsWithIgnoreCase, List.length_cons, List.take_succ_cons,
        List.map_cons, decide_eq_false_iff_not]
      intro e
      have h0 := (List.cons.inj e).1
      rw [hc] at h0
      exact hne h0.symm

/-- C11 (amended). `URL::isProbablyAWebsiteURL` accepts every text that starts with
`"www."` (case-insensitively), holds no `@`, does not end with `.`, and holds a `.`
after its first five characters (the `"www."` and the character that follows it). -/
theorem C11_www_further_dot (text : JString)
    (hwww : JString.startsWithIgnoreCase text (lit "www.") = true)
    (hat : 64 ∉ text)
    (hend : JString.endsWithChar text 46 = false)
    (hdot : 46 ∈ JString.substringFrom text 5) :
    URL.isProbablyAWebsiteURL text = true := by
  unfold URL.isProbablyAWebsiteURL
  split
  · rfl
  · have hfile : JString.startsWithIgnoreCase text (lit "file:") = false :=
      startsWithIgnoreCase_www_not_other text _ hwww (by decide) (by decide)
    have hat2 : JString.containsChar text 64 = false := by
      rw [Bool.eq_false_iff]
      intro h
      exact hat ((containsChar_iff _ _).mp h)
    have hdot1 : JString.containsChar (JString.substringFrom text 5) 46 = true :=
      (containsChar_iff _ _).mpr hdot
    have hdot2 : JString.containsChar text 46 = true := by
      apply (containsChar_iff _ _).mpr
      exact List.mem_of_mem_drop hdot
    simp [hfile, hat2, hend, hdot2, hwww, hdot1]

/-- C11 (amended) at `"www.example.com"` and `"WWW.a.b"`: both are accepted. -/
theorem C11_www_further_dot_witness :
    URL.isProbablyAWebsiteURL (lit "www.example.com") = true
    ∧ URL.isProbablyAWebsiteURL (lit "WWW.a.b") = true :=
  ⟨C11_www_further_dot _ (by decide) (by decide) (by decide) (by decide),
   C11_www_further_dot _ (by decide) (by decide) (by decide) (by decide)⟩

/-- C12. Early decisions of `URL::isProbablyAWebsiteURL`, in this precedence: a text
starting (case-insensitively) with `"http:"` or `"ftp:"` gives `true`, whatever else
it holds; any other text that starts with `"file:"`, holds an `@`, ends with `.`, or
holds no `.` gives `false`. -/
theorem C12_early_decisions (text : JString) :
    ((JString.startsWithIgnoreCase text (lit "http:") = true
        ∨ JString.startsWithIgnoreCase text (lit "ftp:") = true) →
      URL.isProbablyAWebsiteURL text = true)
    ∧ (JString.startsWithIgnoreCase text (lit "http:") = false →
       JString.startsWithIgnoreCase text (lit "ftp:") = false →
       (JString.startsWithIgnoreCase text (lit "file:") = true
          ∨ 64 ∈ text ∨ JString.endsWithChar text 46 = true ∨ 46 ∉ text) →
       URL.isProbablyAWebsiteURL text = false) := by
  constructor
  · intro h
    unfold URL.isProbablyAWebsiteURL
    rcases h with h | h <;> simp [h]
  · intro h1 h2 h
    unfold URL.isProbablyAWebsiteURL
    simp only [h1, h2, Bool.or_self, Bool.false_eq_true, if_false]
    have hc : ∀ c, JString.containsChar text c = true ↔ c ∈ text := containsChar_iff text
    rcases h with h | h | h | h
    · simp [h]
    · simp [(hc 64).mpr h]
    · simp [h]
    · have : JString.containsChar text 46 = false := by
        rw [Bool.eq_false_iff]; intro e; exact h ((hc 46).mp e)
      simp [this]

/-- C12 at `"http://bob@example.com."` (accepted although it holds `@` and ends with
`.`), `"bob@example.com"` and `"plaintext"` (both rejected). -/
theorem C12_early_decisions_witness :
    URL.isProbablyAWebsiteURL (lit "http://bob@example.com.") = true
    ∧ URL.isProbablyAWebsiteURL (lit "bob@example.com") = false
    ∧ URL.isProbablyAWebsiteURL (lit "plaintext") = false :=
  ⟨(C12_early_decisions _).1 (Or.inl (by decide)),
   (C12_early_decisions _).2 (by decide) (by decide) (Or.inr (Or.inl (by decide))),
   (C12_early_decisions _).2 (by decide) (by decide)
     (Or.inr (Or.inr (Or.inr (by decide))))⟩

/-! ## The POST body -/

theorem foldl_range_pairs_from (f : List Nat → JString → JString → List Nat)
    (g : JString → JString → List Nat) (hf : ∀ d k v, f d k v = d ++ g k v)
    (todo : StringPairArray) :
    ∀ (done : StringPairArray) (acc : List Nat),
      (List.range' done.length todo.length).foldl
        (fun d i => f d (StringArray.get (StringPairArray.getAllKeys (done ++ todo)) i)
                      (StringArray.get (StringPairArray.getAllValues (done ++ todo)) i))
        acc
      = acc ++ todo.flatMap (fun p => g p.1 p.2) := by
  induction todo with
  | nil => intro done acc; simp
  | cons p rest ih =>
    intro done acc
    have hk : StringArray.get (StringPairArray.getAllKeys (done ++ p :: rest)) done.length
        = p.1 := by
      have := stringArray_get_append_length (done.map Prod.fst) (rest.map Prod.fst) p.1
      simpa [StringPairArray.getAllKeys] using this
    have hv : StringArray.get (StringPairArray.getAllValues (done ++ p :: rest)) done.length
        = p.2 := by
      have := stringArray_get_append_length (done.map Prod.snd) (rest.map Prod.snd) p.2
      simpa [StringPairArray.getAllValues] using this
    simp only [List.length_cons, List.range'_succ, List.foldl_cons, hk, hv]
    have e : done ++ p :: rest = (done ++ [p]) ++ rest := by simp
    have l : done.length + 1 = (done ++ [p]).length := by simp
    rw [e, l, ih (done ++ [p]) _, hf]
    simp

/-- A loop over the indices of a table that appends `g key value` for each entry
appends them for the entries in order. -/
theorem foldl_range_pairs (f : List Nat → JString → JString → List Nat)
    (g : JString → JString → List Nat) (hf : ∀ d k v, f d k v = d ++ g k v)
    (ps : StringPairArray) (acc : List Nat) :
    (List.range ps.size).foldl
        (fun d i => f d (StringArray.get ps.getAllKeys i) (StringArray.get ps.getAllValues i))
        acc
      = acc ++ ps.flatMap (fun p => g p.1 p.2) := by
  have := foldl_range_pairs_from f g hf ps [] acc
  simpa [List.range_eq_range', StringPairArray.size] using this

theorem writeParameterParts_eq (boundary : JString) (parameters : StringPairArray)
    (data : List Nat) :
    WebInputStream.writeParameterParts boundary parameters data
      = data ++ parameters.flatMap
          (fun p => Spec.parameterPart p ++ lit "\r\n--" ++ boundary) := by
  unfold WebInputStream.writeParameterParts
  exact foldl_range_pairs
    (fun d k v => d ++ lit "\r\nContent-Disposition: form-data; name=\"" ++ k
                    ++ lit "\"\r\n\r\n" ++ v ++ lit "\r\n--" ++ boundary)
    (fun k v => Spec.parameterPart (k, v) ++ lit "\r\n--" ++ boundary)
    (by intro d k v; simp [Spec.parameterPart]) parameters data

theorem writeFileParts_eq (env : UploadEnv) (url : URL) (data : List Nat) :
    WebInputStream.writeFileParts env url data
      = data ++ url.filesToUpload.flatMap
          (fun p => Spec.filePart env url.mimeTypes p ++ lit "\r\n--" ++ env.boundary) := by
  unfold WebInputStream.writeFileParts
  exact foldl_range_pairs
    (fun d k v =>
      (if url.mimeTypes.getValue k ≠ [] then
          d ++ lit "\r\nContent-Disposition: form-data; name=\"" ++ k
            ++ lit "\"; filename=\"" ++ env.getFileName v ++ lit "\"\r\n"
            ++ lit "Content-Type: " ++ url.mimeTypes.getValue k ++ lit "\r\n"
        else
          d ++ lit "\r\nContent-Disposition: form-data; name=\"" ++ k
            ++ lit "\"; filename=\"" ++ env.getFileName v ++ lit "\"\r\n")
        ++ lit "Content-Transfer-Encoding: binary\r\n\r\n"
        ++ env.fileBytes v ++ lit "\r\n--" ++ env.boundary)
    (fun k v => Spec.filePart env url.mimeTypes (k, v) ++ lit "\r\n--" ++ env.boundary)
    (by
      intro d k v
      simp only [Spec.filePart]
      split <;> simp)
    url.filesToUpload data

theorem multipartBody_ends (boundary : JString) (parts : List (List Nat)) :
    ∃ pre, Spec.multipartBody boundary parts
      = pre ++ (lit "--" ++ boundary ++ lit "--\r\n") := by
  rcases List.eq_nil_or_concat parts with h | ⟨init, last, h⟩
  · subst h
    exact ⟨[], by simp [Spec.multipartBody]⟩
  · subst h
    refine ⟨lit "--" ++ boundary
              ++ init.flatMap (fun part => part ++ lit "\r\n--" ++ boundary)
              ++ last ++ lit "\r\n", ?_⟩
    have : lit "\r\n--" = lit "\r\n" ++ lit "--" := by decide
    simp [Spec.multipartBody, this]

/-- C13. Form-urlencoded POST body: for a URL value without files to upload,
`createHeadersAndPostData` makes the body `getMangledParameters (parameters)` followed
by the POST data, and the header block `"Content-Type:
application/x-www-form-urlencoded\r\nContent-length: N\r\n"` with `N` the decimal byte
length of the body, for a body shorter than `2^32` bytes. -/
theorem C13_form_urlencoded_body (env : UploadEnv) (headers : JString) (url : URL)
    (hfiles : url.filesToUpload = [])
    (hlen : (URL.getMangledParameters url.parameters ++ url.postData).length < 2 ^ 32) :
    WebInputStream.createHeadersAndPostData env headers url
      = (lit "Content-Type: application/x-www-form-urlencoded\r\nContent-length: "
            ++ decimalString (URL.getMangledParameters url.parameters ++ url.postData).length
            ++ lit "\r\n",
         URL.getMangledParameters url.parameters ++ url.postData) := by
  have h0 : ¬ (0 < StringPairArray.size url.filesToUpload) := by
    simp [hfiles, StringPairArray.size]
  have hmod : (URL.getMangledParameters url.parameters ++ url.postData).length % 4294967296
      = (URL.getMangledParameters url.parameters ++ url.postData).length :=
    Nat.mod_eq_of_lt (by simpa using hlen)
  simp only [WebInputStream.createHeadersAndPostData, h0, if_false, hmod]

/-- C13 at the parameters `a → "1 1"`, `b → "x&y"` and the POST data `"tail"`: the body
is `"a=1+1&b=x%26ytail"` and the header block gives `Content-length: 17`. -/
theorem C13_form_urlencoded_body_witness :
    WebInputStream.createHeadersAndPostData
        { boundary := lit "b0", getFileName := id, fileBytes := id } []
        { url := lit "http://h/p", postData := lit "tail",
          parameters := [(lit "a", lit "1 1"), (lit "b", lit "x&y")],
          filesToUpload := [], mimeTypes := [] }
      = (lit "Content-Type: application/x-www-form-urlencoded\r\nContent-length: 17\r\n",
         lit "a=1+1&b=x%26ytail") := by
  have hm : URL.getMangledParameters [(lit "a", lit "1 1"), (lit "b", lit "x&y")]
      = lit "a=1+1&b=x%26y" := by
    rw [getMangledParameters_eq_mangle]
    simp only [Spec.mangle, List.map_cons, List.map_nil]
    rw [addEscapeChars_eq_flatMap (lit "a") true (by decide),
      addEscapeChars_eq_flatMap (lit "1 1") true (by decide),
      addEscapeChars_eq_flatMap (lit "b") true (by decide),
      addEscapeChars_eq_flatMap (lit "x&y") true (by decide)]
    decide
  rw [C13_form_urlencoded_body _ _ _ rfl (by simp only [hm]; decide)]
  simp only [hm]
  decide

/-- C14. Multipart POST framing: for a URL value with at least one file to upload and
the boundary token `B`, `createHeadersAndPostData` appends the header `"Content-Type:
multipart/form-data; boundary=B\r\n"` and makes the body `"--B"`, one part per
parameter in parameter order, one part per file in upload order, each part followed by
`"\r\n--B"`, and `"--\r\n"`; there are as many parts as parameters and files, so
`"--B"` is written once more than that, and the body ends with `"--B--\r\n"`. -/
theorem C14_multipart_framing (env : UploadEnv) (headers : JString) (url : URL)
    (hfiles : url.filesToUpload ≠ []) :
    WebInputStream.createHeadersAndPostData env headers url
      = (headers ++ lit "Content-Type: multipart/form-data; boundary=" ++ env.boundary
            ++ lit "\r\n",
         Spec.multipartBody env.boundary
           (url.parameters.map Spec.parameterPart
             ++ url.filesToUpload.map (Spec.filePart env url.mimeTypes)))
    ∧ (url.parameters.map Spec.parameterPart
        ++ url.filesToUpload.map (Spec.filePart env url.mimeTypes)).length
        = url.parameters.size + url.filesToUpload.size
    ∧ ∃ pre, (WebInputStream.createHeadersAndPostData env headers url).2
        = pre ++ (lit "--" ++ env.boundary ++ lit "--\r\n") := by
  have h0 : 0 < StringPairArray.size url.filesToUpload := List.length_pos.mpr hfiles
  have hbody : WebInputStream.createHeadersAndPostData env headers url
      = (headers ++ lit "Content-Type: multipart/form-data; boundary=" ++ env.boundary
            ++ lit "\r\n",
         Spec.multipartBody env.boundary
           (url.parameters.map Spec.parameterPart
             ++ url.filesToUpload.map (Spec.filePart env url.mimeTypes))) := by
    simp only [WebInputStream.createHeadersAndPostData, h0, if_true, writeFileParts_eq,
      writeParameterParts_eq, Spec.multipartBody]
    simp [List.flatMap_append, List.flatMap_map]
  refine ⟨hbody, by simp [StringPairArray.size], ?_⟩
  rw [hbody]
  exact multipartBody_ends _ _

set_option maxRecDepth 8000 in
/-- C14 at one parameter `a → "1"` and one file `f → "/tmp/a.png"` of type
`"image/png"` holding the bytes `"PNG"`, with the boundary `"b0"`. -/
theorem C14_multipart_framing_witness :
    WebInputStream.createHeadersAndPostData
        { boundary := lit "b0", getFileName := fun _ => lit "a.png",
          fileBytes := fun _ => lit "PNG" } []
        { url := lit "http://h/up", postData := [],
          parameters := [(lit "a", lit "1")],
          filesToUpload := [(lit "f", lit "/tmp/a.png")],
          mimeTypes := [(lit "f", lit "image/png")] }
      = (lit "Content-Type: multipart/form-data; boundary=b0\r\n",
         lit ("--b0\r\nContent-Disposition: form-data; name=\"a\"\r\n\r\n1\r\n--b0"
              ++ "\r\nContent-Disposition: form-data; name=\"f\"; filename=\"a.png\"\r\n"
              ++ "Content-Type: image/png\r\n"
              ++ "Content-Transfer-Encoding: binary\r\n\r\nPNG\r\n--b0--\r\n")) := by
  rw [(C14_multipart_framing _ _ _ (by decide)).1]
  decide

/-! ## The stream: general facts -/

theorem toInt32_of_range (x : Int) (h1 : -2147483648 ≤ x) (h2 : x < 2147483648) :
    toInt32 x = x := by
  unfold toInt32
  omega

theorem toInt32_range (x : Int) : -2147483648 ≤ toInt32 x ∧ toInt32 x < 2147483648 := by
  unfold toInt32
  omega

/-- A read on a finished or failed stream returns 0 and changes nothing. -/
theorem read_inert {σ : Type} (T : Transport σ) (s : WebInputStream) (w : World σ)
    (bytes : Int) (h : s.finished = true ∨ s.handle = 0) :
    WebInputStream.read T s w bytes = (0, s, w) := by
  unfold WebInputStream.read WebInputStream.isError
  rcases h with h | h <;> simp [h]

/-- A read on a live stream: one call of the platform's read, the position advanced by
its result, the stream finished when that is 0. -/
theorem read_live {σ : Type} (T : Transport σ) (s : WebInputStream) (w : World σ)
    (bytes : Int) (hf : s.finished = false) (hh : s.handle ≠ 0) :
    WebInputStream.read T s w bytes
      = ((juce_readFromInternetFile T w s.handle bytes).1,
         { s with position := s.position + (juce_readFromInternetFile T w s.handle bytes).1,
                  finished := decide ((juce_readFromInternetFile T w s.handle bytes).1 = 0) },
         (juce_readFromInternetFile T w s.handle bytes).2) := by
  unfold WebInputStream.read WebInputStream.isError
  simp only [hf, hh, decide_False, Bool.or_self, Bool.false_eq_true, if_false]
  by_cases h0 : (juce_readFromInternetFile T w s.handle bytes).1 = 0 <;> simp [h0]

theorem read_frame {σ : Type} (T : Transport σ) (s : WebInputStream) (w : World σ)
    (bytes : Int) :
    (WebInputStream.read T s w bytes).2.1.server = s.server
    ∧ (WebInputStream.read T s w bytes).2.1.headers = s.headers
    ∧ (WebInputStream.read T s w bytes).2.1.postData = s.postData
    ∧ (WebInputStream.read T s w bytes).2.1.isPost = s.isPost
    ∧ (WebInputStream.read T s w bytes).2.1.timeOutMs = s.timeOutMs
    ∧ (WebInputStream.read T s w bytes).2.1.handle = s.handle := by
  unfold WebInputStream.read
  split <;> exact ⟨rfl, rfl, rfl, rfl, rfl, rfl⟩

theorem read_calls {σ : Type} (T : Transport σ) (s : WebInputStream) (w : World σ)
    (bytes : Int) :
    ∃ reads, (WebInputStream.read T s w bytes).2.2.calls = w.calls ++ reads
      ∧ ∀ c ∈ reads, ∃ h n, c = TransportCall.readFromInternetFile h n := by
  unfold WebInputStream.read
  split
  · exact ⟨[], by simp, by simp⟩
  · exact ⟨[TransportCall.readFromInternetFile s.handle bytes], rfl,
      by intro c hc; simp at hc; exact ⟨_, _, hc⟩⟩

/-- The skip loop keeps the request and the handle and makes only read calls. -/
theorem skipLoop_frame {σ : Type} (T : Transport σ) (B : Int) (fuel : Nat) :
    ∀ (s : WebInputStream) (w : World σ) (n : Int) (res : WebInputStream × World σ),
      WebInputStream.skipLoop T B fuel s w n = some res →
      (res.1.server = s.server ∧ res.1.headers = s.headers ∧ res.1.postData = s.postData
        ∧ res.1.isPost = s.isPost ∧ res.1.timeOutMs = s.timeOutMs
        ∧ res.1.handle = s.handle)
      ∧ ∃ reads, res.2.calls = w.calls ++ reads
          ∧ ∀ c ∈ reads, ∃ h n, c = TransportCall.readFromInternetFile h n := by
  induction fuel with
  | zero =>
    intro s w n res h
    simp only [WebInputStream.skipLoop] at h
    split at h
    · exact absurd h (by simp)
    · cases h
      exact ⟨⟨rfl, rfl, rfl, rfl, rfl, rfl⟩, [], by simp, by simp⟩
  | succ fuel ih =>
    intro s w n res h
    simp only [WebInputStream.skipLoop] at h
    split at h
    · obtain ⟨hfr, reads2, hc2, hr2⟩ := ih _ _ _ _ h
      obtain ⟨f1, f2, f3, f4, f5, f6⟩ := read_frame T s w (min n B)
      obtain ⟨reads1, hc1, hr1⟩ := read_calls T s w (min n B)
      refine ⟨⟨hfr.1.trans f1, hfr.2.1.trans f2, hfr.2.2.1.trans f3, hfr.2.2.2.1.trans f4,
        hfr.2.2.2.2.1.trans f5, hfr.2.2.2.2.2.trans f6⟩, reads1 ++ reads2, ?_, ?_⟩
      · rw [hc2, hc1, List.append_assoc]
      · intro c hc
        rcases List.mem_append.mp hc with h1 | h1
        · exact hr1 c h1
        · exact hr2 c h1
    · cases h
      exact ⟨⟨rfl, rfl, rfl, rfl, rfl, rfl⟩, [], by simp, by simp⟩

theorem skipNextBytes_frame {σ : Type} (T : Transport σ) (fuel : Nat)
    (s : WebInputStream) (w : World σ) (n : Int) (res : WebInputStream × World σ)
    (h : WebInputStream.skipNextBytes T fuel s w n = some res) :
    (res.1.server = s.server ∧ res.1.headers = s.headers ∧ res.1.postData = s.postData
        ∧ res.1.isPost = s.isPost ∧ res.1.timeOutMs = s.timeOutMs
        ∧ res.1.handle = s.handle)
      ∧ ∃ reads, res.2.calls = w.calls ++ reads
          ∧ ∀ c ∈ reads, ∃ h n, c = TransportCall.readFromInternetFile h n := by
  unfold WebInputStream.skipNextBytes at h
  split at h
  · exact skipLoop_frame T _ fuel s w n res h
  · cases h
    exact ⟨⟨rfl, rfl, rfl, rfl, rfl, rfl⟩, [], by simp, by simp⟩

theorem setPosition_same {σ : Type} (T : Transport σ) (fuel : Nat)
    (s : WebInputStream) (w : World σ) :
    WebInputStream.setPosition T fuel s w s.position = some (true, s, w) := by
  simp [WebInputStream.setPosition]

theorem setPosition_direct {σ : Type} (T : Transport σ) (fuel : Nat)
    (s : WebInputStream) (w : World σ) (wantedPos : Int) (h1 : wantedPos ≠ s.position)
    (h2 : (juce_seekInInternetFile T w s.handle (toInt32 wantedPos)).1 = wantedPos) :
    WebInputStream.setPosition T fuel s w wantedPos
      = some (true, { s with finished := false, position := wantedPos },
          (juce_seekInInternetFile T w s.handle (toInt32 wantedPos)).2) := by
  simp only [WebInputStream.setPosition, h1, ne_eq, not_false_eq_true, if_true, h2]

theorem setPosition_back {σ : Type} (T : Transport σ) (fuel : Nat)
    (s : WebInputStream) (w : World σ) (wantedPos : Int) (h1 : wantedPos ≠ s.position)
    (h2 : (juce_seekInInternetFile T w s.handle (toInt32 wantedPos)).1 ≠ wantedPos)
    (h3 : wantedPos < s.position) :
    WebInputStream.setPosition T fuel s w wantedPos
      = (WebInputStream.skipNextBytes T fuel
          { s with position := 0, finished := false,
                   handle := (juce_openInternetFile T
                     (juce_closeInternetFile T
                       (juce_seekInInternetFile T w s.handle (toInt32 wantedPos)).2 s.handle)
                     s.server s.headers s.postData s.isPost s.timeOutMs).1 }
          (juce_openInternetFile T
            (juce_closeInternetFile T
              (juce_seekInInternetFile T w s.handle (toInt32 wantedPos)).2 s.handle)
            s.server s.headers s.postData s.isPost s.timeOutMs).2
          (wantedPos - 0)).map (fun r => (true, r.1, r.2)) := by
  simp only [WebInputStream.setPosition, h1, ne_eq, not_false_eq_true, if_true, h2,
    if_false, h3]

theorem setPosition_forward {σ : Type} (T : Transport σ) (fuel : Nat)
    (s : WebInputStream) (w : World σ) (wantedPos : Int) (h1 : wantedPos ≠ s.position)
    (h2 : (juce_seekInInternetFile T w s.handle (toInt32 wantedPos)).1 ≠ wantedPos)
    (h3 : ¬ wantedPos < s.position) :
    WebInputStream.setPosition T fuel s w wantedPos
      = (WebInputStream.skipNextBytes T fuel { s with finished := false }
          (juce_seekInInternetFile T w s.handle (toInt32 wantedPos)).2
          (wantedPos - s.position)).map (fun r => (true, r.1, r.2)) := by
  simp only [WebInputStream.setPosition, h1, ne_eq, not_false_eq_true, if_true, h2,
    if_false, h3]

/-- Seeking keeps the request; every session it opens is opened with the request of
the stream. -/
theorem setPosition_frame {σ : Type} (T : Transport σ) (fuel : Nat)
    (s : WebInputStream) (w : World σ) (wantedPos : Int)
    (res : Bool × WebInputStream × World σ)
    (h : WebInputStream.setPosition T fuel s w wantedPos = some res) :
    (res.2.1.server = s.server ∧ res.2.1.headers = s.headers
      ∧ res.2.1.postData = s.postData ∧ res.2.1.isPost = s.isPost
      ∧ res.2.1.timeOutMs = s.timeOutMs)
    ∧ ∃ new, res.2.2.calls = w.calls ++ new
        ∧ ∀ a b c d e, TransportCall.openInternetFile a b c d e ∈ new →
            a = s.server ∧ b = s.headers ∧ c = s.postData ∧ d = s.isPost
              ∧ e = s.timeOutMs := by
  by_cases h1 : wantedPos = s.position
  · subst h1
    rw [setPosition_same] at h
    cases h
    exact ⟨⟨rfl, rfl, rfl, rfl, rfl⟩, [], by simp, by simp⟩
  · by_cases h2 : (juce_seekInInternetFile T w s.handle (toInt32 wantedPos)).1 = wantedPos
    · rw [setPosition_direct T fuel s w wantedPos h1 h2] at h
      cases h
      refine ⟨⟨rfl, rfl, rfl, rfl, rfl⟩,
        [TransportCall.seekInInternetFile s.handle (toInt32 wantedPos)], rfl, ?_⟩
      intro a b c d e hm
      simp at hm
    · by_cases h3 : wantedPos < s.position
      · rw [setPosition_back T fuel s w wantedPos h1 h2 h3] at h
        rcases hsk : WebInputStream.skipNextBytes T fuel
          { s with position := 0, finished := false,
                   handle := (juce_openInternetFile T
                     (juce_closeInternetFile T
                       (juce_seekInInternetFile T w s.handle (toInt32 wantedPos)).2 s.handle)
                     s.server s.headers s.postData s.isPost s.timeOutMs).1 }
          (juce_openInternetFile T
            (juce_closeInternetFile T
              (juce_seekInInternetFile T w s.handle (toInt32 wantedPos)).2 s.handle)
            s.server s.headers s.postData s.isPost s.timeOutMs).2
          (wantedPos - 0) with _ | r
        · rw [hsk] at h; simp at h
        · rw [hsk] at h
          simp only [Option.map_some', Option.some.injEq] at h
          subst h
          obtain ⟨hfr, reads, hc, hr⟩ := skipNextBytes_frame T fuel _ _ _ r hsk
          refine ⟨⟨hfr.1, hfr.2.1, hfr.2.2.1, hfr.2.2.2.1, hfr.2.2.2.2.1⟩,
            [TransportCall.seekInInternetFile s.handle (toInt32 wantedPos),
             TransportCall.closeInternetFile s.handle,
             TransportCall.openInternetFile s.server s.headers s.postData s.isPost
               s.timeOutMs] ++ reads, ?_, ?_⟩
          · rw [hc]
            simp [juce_openInternetFile, juce_closeInternetFile, juce_seekInInternetFile]
          · intro a b c d e hm
            rcases List.mem_append.mp hm with h4 | h4
            · simp at h4
              exact h4
            · obtain ⟨_, _, he⟩ := hr _ h4
              cases he
      · rw [setPosition_forward T fuel s w wantedPos h1 h2 h3] at h
        rcases hsk : WebInputStream.skipNextBytes T fuel { s with finished := false }
          (juce_seekInInternetFile T w s.handle (toInt32 wantedPos)).2
          (wantedPos - s.position) with _ | r
        · rw [hsk] at h; simp at h
        · rw [hsk] at h
          simp only [Option.map_some', Option.some.injEq] at h
          subst h
          obtain ⟨hfr, reads, hc, hr⟩ := skipNextBytes_frame T fuel _ _ _ r hsk
          refine ⟨⟨hfr.1, hfr.2.1, hfr.2.2.1, hfr.2.2.2.1, hfr.2.2.2.2.1⟩,
            [TransportCall.seekInInternetFile s.handle (toInt32 wantedPos)] ++ reads, ?_, ?_⟩
          · rw [hc]
            simp [juce_seekInInternetFile]
          · intro a b c d e hm
            rcases List.mem_append.mp hm with h4 | h4
            · simp at h4
            · obtain ⟨_, _, he⟩ := hr _ h4
              cases he

/-! ## The request handed to the transport -/

theorem create_fields {σ : Type} (T : Transport σ) (env : UploadEnv) (w : World σ)
    (url : URL) (isPost : Bool) (extraHeaders : JString) (timeOutMs : Int)
    (wantResponseHeaders : Bool) :
    (WebInputStream.create T env w url isPost extraHeaders timeOutMs
        wantResponseHeaders).1.server = URL.toString url (! isPost)
    ∧ (WebInputStream.create T env w url isPost extraHeaders timeOutMs
        wantResponseHeaders).1.postData
        = (if isPost then WebInputStream.createHeadersAndPostData env [] url
           else ([], [])).2
    ∧ (WebInputStream.create T env w url isPost extraHeaders timeOutMs
        wantResponseHeaders).1.headers
        = (if JString.endsWithChar
                ((if isPost then WebInputStream.createHeadersAndPostData env [] url
                  else ([], [])).1 ++ extraHeaders) 10
           then (if isPost then WebInputStream.createHeadersAndPostData env [] url
                 else ([], [])).1 ++ extraHeaders
           else (if isPost then WebInputStream.createHeadersAndPostData env [] url
                 else ([], [])).1 ++ extraHeaders ++ lit "\r\n")
    ∧ (WebInputStream.create T env w url isPost extraHeaders timeOutMs
        wantResponseHeaders).1.isPost = isPost
    ∧ (WebInputStream.create T env w url isPost extraHeaders timeOutMs
        wantResponseHeaders).1.timeOutMs = timeOutMs
    ∧ (WebInputStream.create T env w url isPost extraHeaders timeOutMs
        wantResponseHeaders).1.position = 0
    ∧ (WebInputStream.create T env w url isPost extraHeaders timeOutMs
        wantResponseHeaders).1.finished = false := by
  refine ⟨rfl, rfl, ?_, rfl, rfl, rfl, rfl⟩
  simp only [WebInputStream.create]
  by_cases h : JString.endsWithChar
      ((if isPost then WebInputStream.createHeadersAndPostData env [] url
        else ([], [])).1 ++ extraHeaders) 10 = true
  · simp [h]
  · simp [h]

/-- The constructor opens one session, with the members `server`, `headers`,
`postData`, `isPost` and `timeOutMs` of the stream it makes. -/
theorem create_calls {σ : Type} (T : Transport σ) (env : UploadEnv) (w : World σ)
    (url : URL) (isPost : Bool) (extraHeaders : JString) (timeOutMs : Int)
    (wantResponseHeaders : Bool) :
    ∃ tail,
      (WebInputStream.create T env w url isPost extraHeaders timeOutMs
          wantResponseHeaders).2.calls
        = w.calls ++
          TransportCall.openInternetFile
            (WebInputStream.create T env w url isPost extraHeaders timeOutMs
              wantResponseHeaders).1.server
            (WebInputStream.create T env w url isPost extraHeaders timeOutMs
              wantResponseHeaders).1.headers
            (WebInputStream.create T env w url isPost extraHeaders timeOutMs
              wantResponseHeaders).1.postData
            isPost timeOutMs :: tail
      ∧ (tail = [] ∨ ∃ h, tail = [TransportCall.getInternetFileHeaders h]) := by
  cases wantResponseHeaders with
  | false =>
    exact ⟨[], by simp [WebInputStream.create, juce_openInternetFile], Or.inl rfl⟩
  | true =>
    exact ⟨[TransportCall.getInternetFileHeaders
        (WebInputStream.create T env w url isPost extraHeaders timeOutMs true).1.handle],
      by simp [WebInputStream.create, juce_openInternetFile, juce_getInternetFileHeaders],
      Or.inr ⟨_, rfl⟩⟩

/-- C15. Request composition on open: the constructor hands to the transport's open
the target `toString (true)` and an empty body for a GET, the base alone and the body
made by `createHeadersAndPostData` for a POST; reads and seeks keep the target, the
headers, the body and the method, and every session a seek opens is opened with
them. -/
theorem C15_request_composition {σ : Type} (T : Transport σ) (env : UploadEnv)
    (w : World σ) (url : URL) (isPost : Bool) (extraHeaders : JString) (timeOutMs : Int)
    (wantResponseHeaders : Bool) :
    (∃ tail,
      (WebInputStream.create T env w url isPost extraHeaders timeOutMs
          wantResponseHeaders).2.calls
        = w.calls ++
          TransportCall.openInternetFile
            (if isPost then url.url else URL.toString url true)
            (WebInputStream.create T env w url isPost extraHeaders timeOutMs
              wantResponseHeaders).1.headers
            (if isPost then (WebInputStream.createHeadersAndPostData env [] url).2 else [])
            isPost timeOutMs :: tail)
    ∧ (WebInputStream.create T env w url isPost extraHeaders timeOutMs
          wantResponseHeaders).1.server = (if isPost then url.url else URL.toString url true)
    ∧ (WebInputStream.create T env w url isPost extraHeaders timeOutMs
          wantResponseHeaders).1.postData
        = (if isPost then (WebInputStream.createHeadersAndPostData env [] url).2 else [])
    ∧ (∀ (s : WebInputStream) (w1 : World σ) (bytes : Int),
        (WebInputStream.read T s w1 bytes).2.1.server = s.server
        ∧ (WebInputStream.read T s w1 bytes).2.1.headers = s.headers
        ∧ (WebInputStream.read T s w1 bytes).2.1.postData = s.postData
        ∧ (WebInputStream.read T s w1 bytes).2.1.isPost = s.isPost)
    ∧ (∀ (fuel : Nat) (s : WebInputStream) (w1 : World σ) (wantedPos : Int)
        (res : Bool × WebInputStream × World σ),
        WebInputStream.setPosition T fuel s w1 wantedPos = some res →
        (res.2.1.server = s.server ∧ res.2.1.headers = s.headers
          ∧ res.2.1.postData = s.postData ∧ res.2.1.isPost = s.isPost)
        ∧ ∃ new, res.2.2.calls = w1.calls ++ new
            ∧ ∀ a b c d e, TransportCall.openInternetFile a b c d e ∈ new →
                a = s.server ∧ b = s.headers ∧ c = s.postData ∧ d = s.isPost) := by
  obtain ⟨hserver, hpost, -, -, -, -, -⟩ :=
    create_fields T env w url isPost extraHeaders timeOutMs wantResponseHeaders
  obtain ⟨tail, hcalls, -⟩ :=
    create_calls T env w url isPost extraHeaders timeOutMs wantResponseHeaders
  have hs : URL.toString url (! isPost) = (if isPost then url.url else URL.toString url true) := by
    cases isPost <;> simp [URL.toString]
  have hp : (if isPost then WebInputStream.createHeadersAndPostData env [] url
             else ([], [])).2
      = (if isPost then (WebInputStream.createHeadersAndPostData env [] url).2 else []) := by
    cases isPost <;> rfl
  refine ⟨⟨tail, ?_⟩, hserver.trans hs, hpost.trans hp, ?_, ?_⟩
  · rw [hcalls, hserver, hpost, hs, hp]
  · intro s w1 bytes
    obtain ⟨f1, f2, f3, f4, -, -⟩ := read_frame T s w1 bytes
    exact ⟨f1, f2, f3, f4⟩
  · intro fuel s w1 wantedPos res h
    obtain ⟨⟨f1, f2, f3, f4, -⟩, new, hc, ho⟩ :=
      setPosition_frame T fuel s w1 wantedPos res h
    refine ⟨⟨f1, f2, f3, f4⟩, new, hc, ?_⟩
    intro a b c d e hm
    obtain ⟨g1, g2, g3, g4, -⟩ := ho a b c d e hm
    exact ⟨g1, g2, g3, g4⟩

/-- C16 (as stated, refuted). A POST of the empty URL value without extra headers hands
to the transport's open the header block `"Content-Type:
application/x-www-form-urlencoded\r\nContent-length: 0\r\n"`, which is not `"\r\n"`
and does not end with `"\n\r\n"`. -/
theorem C16_post_headers_no_blank_line :
    (WebInputStream.create (fixture 0 id) { boundary := [], getFileName := id, fileBytes := id }
        { state := { remaining := 0 }, calls := [] } URL.empty true [] 0 false).2.calls
      = [TransportCall.openInternetFile []
          (lit "Content-Type: application/x-www-form-urlencoded\r\nContent-length: 0\r\n")
          [] true 0]
    ∧ lit "Content-Type: application/x-www-form-urlencoded\r\nContent-length: 0\r\n"
        ≠ lit "\r\n"
    ∧ ¬ (lit "\n\r\n"
          <:+ lit "Content-Type: application/x-www-form-urlencoded\r\nContent-length: 0\r\n")
    := by
  decide

/-- C16 (amended). The header block that the constructor hands to the transport's
open ends with a line break: it is the headers made by `createHeadersAndPostData` (for
a POST) followed by `extraHeaders`, with `"\r\n"` appended only when that does not end
with a line feed already; for a GET without extra headers it is exactly `"\r\n"`. -/
theorem C16_header_block_ends_with_line_break {σ : Type} (T : Transport σ)
    (env : UploadEnv) (w : World σ) (url : URL) (isPost : Bool) (extraHeaders : JString)
    (timeOutMs : Int) (wantResponseHeaders : Bool) :
    (∃ server body tail,
      (WebInputStream.create T env w url isPost extraHeaders timeOutMs
          wantResponseHeaders).2.calls
        = w.calls ++
          TransportCall.openInternetFile server
            (WebInputStream.create T env w url isPost extraHeaders timeOutMs
              wantResponseHeaders).1.headers
            body isPost timeOutMs :: tail)
    ∧ JString.endsWithChar
        (WebInputStream.create T env w url isPost extraHeaders timeOutMs
          wantResponseHeaders).1.headers 10 = true
    ∧ (WebInputStream.create T env w url isPost extraHeaders timeOutMs
          wantResponseHeaders).1.headers
        = (if JString.endsWithChar
                ((if isPost then (WebInputStream.createHeadersAndPostData env [] url).1
                  else []) ++ extraHeaders) 10
           then (if isPost then (WebInputStream.createHeadersAndPostData env [] url).1
                 else []) ++ extraHeaders
           else (if isPost then (WebInputStream.createHeadersAndPostData env [] url).1
                 else []) ++ extraHeaders ++ lit "\r\n")
    ∧ (isPost = false → extraHeaders = [] →
        (WebInputStream.create T env w url isPost extraHeaders timeOutMs
          wantResponseHeaders).1.headers = lit "\r\n") := by
  obtain ⟨-, -, hheaders, -, -, -, -⟩ :=
    create_fields T env w url isPost extraHeaders timeOutMs wantResponseHeaders
  obtain ⟨tail, hcalls, -⟩ :=
    create_calls T env w url isPost extraHeaders timeOutMs wantResponseHeaders
  have hm : (if isPost then WebInputStream.createHeadersAndPostData env [] url
             else ([], [])).1
      = (if isPost then (WebInputStream.createHeadersAndPostData env [] url).1 else []) := by
    cases isPost <;> rfl
  rw [hm] at hheaders
  refine ⟨⟨_, _, tail, hcalls⟩, ?_, hheaders, ?_⟩
  · rw [hheaders]
    by_cases he : JString.endsWithChar
        ((if isPost then (WebInputStream.createHeadersAndPostData env [] url).1 else [])
          ++ extraHeaders) 10 = true
    · rw [if_pos he]
      exact he
    · rw [if_neg he, JString.endsWithChar_append _ (lit "\r\n") 10 (by decide)]
      decide
  · intro hp he
    subst hp he
    rw [hheaders]
    rfl

/-! ## Reading -/

theorem readAll_inert {σ : Type} (T : Transport σ) (s : WebInputStream) (w : World σ)
    (h : s.finished = true ∨ s.handle = 0) (cs : List Int) :
    WebInputStream.readAll T cs s w = (List.replicate cs.length 0, s, w) := by
  induction cs with
  | nil => rfl
  | cons c rest ih =>
    simp only [WebInputStream.readAll, read_inert T s w c h, ih, List.length_cons,
      List.replicate_succ]

/-- A read that returns 0 leaves the stream finished or failed. -/
theorem read_zero_finished {σ : Type} (T : Transport σ) (s : WebInputStream) (w : World σ)
    (bytes : Int) (h0 : (WebInputStream.read T s w bytes).1 = 0) :
    ((WebInputStream.read T s w bytes).2.1.finished = true
      ∨ (WebInputStream.read T s w bytes).2.1.handle = 0)
    ∧ (s.handle ≠ 0 → (WebInputStream.read T s w bytes).2.1.finished = true) := by
  by_cases hf : s.finished = true
  · rw [read_inert T s w bytes (Or.inl hf)]
    exact ⟨Or.inl hf, fun _ => hf⟩
  · by_cases hh : s.handle = 0
    · rw [read_inert T s w bytes (Or.inr hh)]
      exact ⟨Or.inr hh, fun e => absurd hh e⟩
    · have hf2 : s.finished = false := by simpa using hf
      rw [read_live T s w bytes hf2 hh] at h0 ⊢
      simp only at h0
      simp only [h0, decide_True]
      exact ⟨Or.inl trivial, fun _ => trivial⟩

/-- C17. Reads on a finished or failed stream are inert: when `finished` is true or the
handle is null, `read` returns 0, leaves the stream (position, finished, handle) as it
is and makes no call to the transport, and so does every later read, and
`setPosition` to the current position; a stream whose open failed is in that state, and
so is a stream after a read that returned 0, which on a non-null handle has set
`finished`. -/
theorem C17_reads_inert {σ : Type} (T : Transport σ) (s : WebInputStream) (w : World σ)
    (h : s.finished = true ∨ s.isError = true) :
    (∀ bytes, WebInputStream.read T s w bytes = (0, s, w))
    ∧ (∀ cs, WebInputStream.readAll T cs s w = (List.replicate cs.length 0, s, w))
    ∧ (∀ fuel, WebInputStream.setPosition T fuel s w s.getPosition = some (true, s, w))
    ∧ (∀ (s0 : WebInputStream) (w0 : World σ) (n : Int),
        (WebInputStream.read T s0 w0 n).1 = 0 →
        (s0.handle ≠ 0 → (WebInputStream.read T s0 w0 n).2.1.isExhausted = true)
        ∧ ∀ cs, WebInputStream.readAll T cs (WebInputStream.read T s0 w0 n).2.1
                  (WebInputStream.read T s0 w0 n).2.2
              = (List.replicate cs.length 0, (WebInputStream.read T s0 w0 n).2.1,
                  (WebInputStream.read T s0 w0 n).2.2)) := by
  have h2 : s.finished = true ∨ s.handle = 0 := by
    rcases h with h | h
    · exact Or.inl h
    · exact Or.inr (by simpa [WebInputStream.isError] using h)
  refine ⟨fun bytes => read_inert T s w bytes h2, readAll_inert T s w h2,
    fun fuel => setPosition_same T fuel s w, ?_⟩
  intro s0 w0 n h0
  obtain ⟨ha, hb⟩ := read_zero_finished T s0 w0 n h0
  exact ⟨hb, readAll_inert T _ _ ha⟩

/-- C17 at a stream whose open failed (null handle) and at a stream that is
finished. -/
theorem C17_reads_inert_witness :
    WebInputStream.read (fixture 5 id)
        { server := lit "http://h/", headers := lit "\r\n", postData := [], position := 0,
          finished := false, isPost := false, handle := 0, timeOutMs := 0 }
        { state := { remaining := 5 }, calls := [] } 3
      = (0, { server := lit "http://h/", headers := lit "\r\n", postData := [],
              position := 0, finished := false, isPost := false, handle := 0,
              timeOutMs := 0 },
          { state := { remaining := 5 }, calls := [] })
    ∧ WebInputStream.read (fixture 5 id)
        { server := lit "http://h/", headers := lit "\r\n", postData := [], position := 5,
          finished := true, isPost := false, handle := 1, timeOutMs := 0 }
        { state := { remaining := 0 }, calls := [] } 3
      = (0, { server := lit "http://h/", headers := lit "\r\n", postData := [],
              position := 5, finished := true, isPost := false, handle := 1,
              timeOutMs := 0 },
          { state := { remaining := 0 }, calls := [] }) :=
  ⟨(C17_reads_inert _ _ _ (Or.inr (by decide))).1 3,
   (C17_reads_inert _ _ _ (Or.inl (by decide))).1 3⟩

/-! ## The stream on the fixture transport -/

/-- A read of a positive `int` number of bytes on a live stream over the fixture. -/
theorem read_fixture (N : Nat) (sr : Int → Int) (s : WebInputStream)
    (w : World FixtureState) (c : Int) (hf : s.finished = false) (hh : s.handle ≠ 0)
    (hc0 : 0 < c) (hc1 : c < 2147483648) :
    WebInputStream.read (fixture N sr) s w c
      = (min c w.state.remaining,
         { s with position := s.position + min c w.state.remaining,
                  finished := decide (w.state.remaining = 0) },
         { state := { remaining := w.state.remaining - (min c w.state.remaining).toNat }
           calls := w.calls ++ [TransportCall.readFromInternetFile s.handle c] }) := by
  rw [read_live _ s w c hf hh]
  have hr : juce_readFromInternetFile (fixture N sr) w s.handle c
      = (min c w.state.remaining,
         { state := { remaining := w.state.remaining - (min c w.state.remaining).toNat }
           calls := w.calls ++ [TransportCall.readFromInternetFile s.handle c] }) := by
    simp only [juce_readFromInternetFile, fixture, hc0, if_true]
    rw [toInt32_of_range _ (by omega) (by omega)]
  rw [hr]
  have hz : (min c (w.state.remaining : Int) = 0) ↔ (w.state.remaining = 0) := by omega
  simp only [hz]

/-- Reads over the fixture, from a live stream that has `remaining` bytes to go: the
position grows by the sum of the results; a result 0 means the end has been reached;
more reads than bytes remain reach it. -/
theorem readAll_fixture (N : Nat) (sr : Int → Int) (cs : List Int) :
    ∀ (s : WebInputStream) (w : World FixtureState),
      s.handle ≠ 0 → (s.finished = true → w.state.remaining = 0) →
      (∀ c ∈ cs, 0 < c ∧ c < 2147483648) →
      (WebInputStream.readAll (fixture N sr) cs s w).2.1.position
          = s.position + (WebInputStream.readAll (fixture N sr) cs s w).1.sum
      ∧ (0 ∈ (WebInputStream.readAll (fixture N sr) cs s w).1 →
          (WebInputStream.readAll (fixture N sr) cs s w).1.sum = w.state.remaining
          ∧ (WebInputStream.readAll (fixture N sr) cs s w).2.1.finished = true)
      ∧ (w.state.remaining < cs.length →
          0 ∈ (WebInputStream.readAll (fixture N sr) cs s w).1) := by
  induction cs with
  | nil =>
    intro s w _ _ _
    simp [WebInputStream.readAll]
  | cons c rest ih =>
    intro s w hh hfin hcs
    have hc := hcs c (by simp)
    have hrest : ∀ x ∈ rest, 0 < x ∧ x < 2147483648 :=
      fun x hx => hcs x (List.mem_cons_of_mem _ hx)
    by_cases hf : s.finished = true
    · have hrem := hfin hf
      rw [readAll_inert _ s w (Or.inl hf)]
      simp [hrem, hf]
    · have hf2 : s.finished = false := by simpa using hf
      have hread := read_fixture N sr s w c hf2 hh hc.1 hc.2
      simp only [WebInputStream.readAll, hread]
      have := ih
        { s with position := s.position + min c w.state.remaining,
                 finished := decide (w.state.remaining = 0) }
        { state := { remaining := w.state.remaining - (min c w.state.remaining).toNat }
          calls := w.calls ++ [TransportCall.readFromInternetFile s.handle c] }
        hh (by intro e; simp at e; simp [e]) hrest
      obtain ⟨i1, i2, i3⟩ := this
      simp only at i1 i2 i3
      refine ⟨?_, ?_, ?_⟩
      · rw [i1]
        simp only [List.sum_cons]
        omega
      · intro h0
        simp only [List.sum_cons]
        rcases List.mem_cons.mp h0 with h1 | h1
        · have hz : w.state.remaining = 0 := by omega
          have hfin2 : WebInputStream.finished
              { s with position := s.position + min c w.state.remaining,
                       finished := decide (w.state.remaining = 0) } = true := by
            simp [hz]
          rw [readAll_inert _ _ _ (Or.inl hfin2)]
          simp [hz]
          omega
        · obtain ⟨j1, j2⟩ := i2 h1
          refine ⟨?_, j2⟩
          rw [j1]
          omega
      · intro hlen
        by_cases hz : w.state.remaining = 0
        · apply List.mem_cons.mpr
          left
          omega
        · apply List.mem_cons_of_mem
          apply i3
          simp only [List.length_cons] at hlen
          omega

/-- C18. Read-to-end accounting: on a stream opened on the fixture transport that
serves exactly `N` bytes, after any reads with positive chunk sizes the position is
the sum of the values returned; once a read has returned 0 that sum is `N`,
`getPosition ()` is `N` and `isExhausted ()` is true; and with more than `N` reads one
has returned 0. -/
theorem C18_read_to_end (N : Nat) (sr : Int → Int) (env : UploadEnv)
    (w : World FixtureState) (url : URL) (isPost : Bool) (extraHeaders : JString)
    (timeOutMs : Int) (wantResponseHeaders : Bool) (cs : List Int)
    (hcs : ∀ c ∈ cs, 0 < c ∧ c < 2147483648) :
    (WebInputStream.readAll (fixture N sr) cs
        (WebInputStream.create (fixture N sr) env w url isPost extraHeaders timeOutMs
          wantResponseHeaders).1
        (WebInputStream.create (fixture N sr) env w url isPost extraHeaders timeOutMs
          wantResponseHeaders).2).2.1.getPosition
      = (WebInputStream.readAll (fixture N sr) cs
          (WebInputStream.create (fixture N sr) env w url isPost extraHeaders timeOutMs
            wantResponseHeaders).1
          (WebInputStream.create (fixture N sr) env w url isPost extraHeaders timeOutMs
            wantResponseHeaders).2).1.sum
    ∧ (0 ∈ (WebInputStream.readAll (fixture N sr) cs
          (WebInputStream.create (fixture N sr) env w url isPost extraHeaders timeOutMs
            wantResponseHeaders).1
          (WebInputStream.create (fixture N sr) env w url isPost extraHeaders timeOutMs
            wantResponseHeaders).2).1 →
        (WebInputStream.readAll (fixture N sr) cs
          (WebInputStream.create (fixture N sr) env w url isPost extraHeaders timeOutMs
            wantResponseHeaders).1
          (WebInputStream.create (fixture N sr) env w url isPost extraHeaders timeOutMs
            wantResponseHeaders).2).1.sum = N
        ∧ (WebInputStream.readAll (fixture N sr) cs
          (WebInputStream.create (fixture N sr) env w url isPost extraHeaders timeOutMs
            wantResponseHeaders).1
          (WebInputStream.create (fixture N sr) env w url isPost extraHeaders timeOutMs
            wantResponseHeaders).2).2.1.getPosition = N
        ∧ (WebInputStream.readAll (fixture N sr) cs
          (WebInputStream.create (fixture N sr) env w url isPost extraHeaders timeOutMs
            wantResponseHeaders).1
          (WebInputStream.create (fixture N sr) env w url isPost extraHeaders timeOutMs
            wantResponseHeaders).2).2.1.isExhausted = true)
    ∧ (N < cs.length →
        0 ∈ (WebInputStream.readAll (fixture N sr) cs
          (WebInputStream.create (fixture N sr) env w url isPost extraHeaders timeOutMs
            wantResponseHeaders).1
          (WebInputStream.create (fixture N sr) env w url isPost extraHeaders timeOutMs
            wantResponseHeaders).2).1) := by
  have hhandle : (WebInputStream.create (fixture N sr) env w url isPost extraHeaders
      timeOutMs wantResponseHeaders).1.handle ≠ 0 := by
    simp [WebInputStream.create, juce_openInternetFile, fixture]
  have hrem : (WebInputStream.create (fixture N sr) env w url isPost extraHeaders
      timeOutMs wantResponseHeaders).2.state.remaining = N := by
    cases wantResponseHeaders <;>
      simp [WebInputStream.create, juce_openInternetFile, juce_getInternetFileHeaders, fixture]
  have hpos : (WebInputStream.create (fixture N sr) env w url isPost extraHeaders
      timeOutMs wantResponseHeaders).1.position = 0 := rfl
  have hfin : (WebInputStream.create (fixture N sr) env w url isPost extraHeaders
      timeOutMs wantResponseHeaders).1.finished = false := rfl
  obtain ⟨i1, i2, i3⟩ := readAll_fixture N sr cs _ _ hhandle
    (by intro e; rw [hfin] at e; exact absurd e (by decide)) hcs
  rw [hpos, hrem] at *
  simp only [WebInputStream.getPosition, WebInputStream.isExhausted]
  refine ⟨by rw [i1]; simp, ?_, i3⟩
  intro h0
  obtain ⟨j1, j2⟩ := i2 h0
  exact ⟨j1, by rw [i1, j1]; simp, j2⟩

/-- C18 at `N = 5` and four reads of 2 bytes: the reads return 2, 2, 1 and 0, and
leave the position 5 and the stream exhausted. -/
theorem C18_read_to_end_witness :
    (WebInputStream.readAll (fixture 5 id) [2, 2, 2, 2]
        (WebInputStream.create (fixture 5 id)
          { boundary := [], getFileName := id, fileBytes := id }
          { state := { remaining := 0 }, calls := [] } URL.empty false [] 0 false).1
        (WebInputStream.create (fixture 5 id)
          { boundary := [], getFileName := id, fileBytes := id }
          { state := { remaining := 0 }, calls := [] } URL.empty false [] 0 false).2).1
      = [2, 2, 1, 0]
    ∧ (WebInputStream.readAll (fixture 5 id) [2, 2, 2, 2]
        (WebInputStream.create (fixture 5 id)
          { boundary := [], getFileName := id, fileBytes := id }
          { state := { remaining := 0 }, calls := [] } URL.empty false [] 0 false).1
        (WebInputStream.create (fixture 5 id)
          { boundary := [], getFileName := id, fileBytes := id }
          { state := { remaining := 0 }, calls := [] } URL.empty false [] 0 false).2
        ).2.1.getPosition = 5
    ∧ (WebInputStream.readAll (fixture 5 id) [2, 2, 2, 2]
        (WebInputStream.create (fixture 5 id)
          { boundary := [], getFileName := id, fileBytes := id }
          { state := { remaining := 0 }, calls := [] } URL.empty false [] 0 false).1
        (WebInputStream.create (fixture 5 id)
          { boundary := [], getFileName := id, fileBytes := id }
          { state := { remaining := 0 }, calls := [] } URL.empty false [] 0 false).2
        ).2.1.isExhausted = true := by
  have h := C18_read_to_end 5 id { boundary := [], getFileName := id, fileBytes := id }
    { state := { remaining := 0 }, calls := [] } URL.empty false [] 0 false [2, 2, 2, 2]
    (by decide)
  have hr : (WebInputStream.readAll (fixture 5 id) [2, 2, 2, 2]
        (WebInputStream.create (fixture 5 id)
          { boundary := [], getFileName := id, fileBytes := id }
          { state := { remaining := 0 }, calls := [] } URL.empty false [] 0 false).1
        (WebInputStream.create (fixture 5 id)
          { boundary := [], getFileName := id, fileBytes := id }
          { state := { remaining := 0 }, calls := [] } URL.empty false [] 0 false).2).1
      = [2, 2, 1, 0] := by decide
  have h0 := h.2.1 (by rw [hr]; decide)
  exact ⟨hr, h0.2.1, h0.2.2⟩

/-! ## Seeking backward on the fixture transport -/

/-- The skip loop over the fixture, on a live stream with at least `n` bytes to go:
it ends, `n` bytes further, with the stream still live, having made only reads. -/
theorem skipLoop_fixture (N : Nat) (sr : Int → Int) (B : Int) (hB0 : 0 < B)
    (hB1 : B < 2147483648) (fuel : Nat) :
    ∀ (s : WebInputStream) (w : World FixtureState) (n : Int),
      0 ≤ n → n.toNat ≤ fuel → n ≤ w.state.remaining →
      s.finished = false → s.handle ≠ 0 →
      ∃ s1 w1 reads,
        WebInputStream.skipLoop (fixture N sr) B fuel s w n = some (s1, w1)
        ∧ s1.position = s.position + n ∧ s1.finished = false
        ∧ w1.calls = w.calls ++ reads
        ∧ ∀ c ∈ reads, ∃ h k, c = TransportCall.readFromInternetFile h k := by
  induction fuel with
  | zero =>
    intro s w n hn0 hfuel _ _ _
    have hn : n = 0 := by omega
    subst hn
    exact ⟨s, w, [], by simp [WebInputStream.skipLoop], by simp, by assumption, by simp,
      by simp⟩
  | succ fuel ih =>
    intro s w n hn0 hfuel hrem hf hh
    by_cases hpos : 0 < n
    · have hc0 : 0 < min n B := by omega
      have hc1 : min n B < 2147483648 := by omega
      have hread := read_fixture N sr s w (min n B) hf hh hc0 hc1
      have hmin : min (min n B) (w.state.remaining : Int) = min n B := by omega
      have hnz : ¬ (w.state.remaining = 0) := by omega
      rw [hmin] at hread
      simp only [hnz, decide_False] at hread
      obtain ⟨s1, w1, reads, hs, hp, hfin, hcalls, hreads⟩ := ih
        { s with position := s.position + min n B, finished := false }
        { state := { remaining := w.state.remaining - (min n B).toNat }
          calls := w.calls ++ [TransportCall.readFromInternetFile s.handle (min n B)] }
        (n - min n B) (by omega) (by omega) (by simp only; omega) rfl hh
      refine ⟨s1, w1, TransportCall.readFromInternetFile s.handle (min n B) :: reads,
        ?_, ?_, hfin, ?_, ?_⟩
      · simp only [WebInputStream.skipLoop, WebInputStream.isExhausted, hf, hpos,
          Bool.not_false, and_self, if_true, hread]
        exact hs
      · rw [hp]
        simp only
        omega
      · rw [hcalls]
        simp
      · intro c hc
        rcases List.mem_cons.mp hc with h1 | h1
        · exact ⟨_, _, h1⟩
        · exact hreads c h1
    · have hn : n = 0 := by omega
      subst hn
      exact ⟨s, w, [], by simp [WebInputStream.skipLoop], by simp, hf, by simp, by simp⟩

/-- C19. Backward seek by reopen: on the fixture transport that serves `N` bytes and
cannot seek (its seek result is an `int` that differs from the offset asked for), for
a stream at position `p` and a target `t` with `0 <= t < p <= N`, `setPosition (t)`
returns true after exactly these calls: one seek, one close of the handle, one open
with the target, headers, body and method of the stream, then reads only; it leaves
`getPosition () == t` and `isExhausted () == false`. -/
theorem C19_backward_seek_reopens (N : Nat) (sr : Int → Int) (s : WebInputStream)
    (w : World FixtureState) (t : Int) (fuel : Nat)
    (hint : ∀ x, toInt32 (sr x) = sr x) (hne : ∀ x, sr x ≠ x)
    (ht0 : 0 ≤ t) (htp : t < s.getPosition) (hpN : s.getPosition ≤ N)
    (hfuel : t.toNat ≤ fuel) :
    ∃ s1 w1 reads,
      WebInputStream.setPosition (fixture N sr) fuel s w t = some (true, s1, w1)
      ∧ s1.getPosition = t ∧ s1.isExhausted = false
      ∧ (s1.server = s.server ∧ s1.headers = s.headers ∧ s1.postData = s.postData
          ∧ s1.isPost = s.isPost)
      ∧ w1.calls = w.calls
          ++ [TransportCall.seekInInternetFile s.handle (toInt32 t),
              TransportCall.closeInternetFile s.handle,
              TransportCall.openInternetFile s.server s.headers s.postData s.isPost
                s.timeOutMs]
          ++ reads
      ∧ ∀ c ∈ reads, ∃ h k, c = TransportCall.readFromInternetFile h k := by
  simp only [WebInputStream.getPosition] at htp hpN
  have h1 : t ≠ s.position := by omega
  have h2 : (juce_seekInInternetFile (fixture N sr) w s.handle (toInt32 t)).1 ≠ t := by
    simp only [juce_seekInInternetFile, fixture]
    rw [hint]
    intro e
    have hr := toInt32_range (sr (toInt32 t))
    rw [hint, e] at hr
    have ht : toInt32 t = t := toInt32_of_range t hr.1 hr.2
    rw [ht] at e
    exact hne t e
  rw [setPosition_back _ fuel s w t h1 h2 htp]
  have hopen : juce_openInternetFile (fixture N sr)
      (juce_closeInternetFile (fixture N sr)
        (juce_seekInInternetFile (fixture N sr) w s.handle (toInt32 t)).2 s.handle)
      s.server s.headers s.postData s.isPost s.timeOutMs
      = (1, { state := { remaining := N }
              calls := w.calls
                ++ [TransportCall.seekInInternetFile s.handle (toInt32 t),
                    TransportCall.closeInternetFile s.handle,
                    TransportCall.openInternetFile s.server s.headers s.postData s.isPost
                      s.timeOutMs] }) := by
    simp [juce_openInternetFile, juce_closeInternetFile, juce_seekInInternetFile, fixture]
  rw [hopen]
  simp only [Int.sub_zero]
  by_cases hpos : 0 < t
  · obtain ⟨s1, w1, reads, hs, hp, hfin, hcalls, hreads⟩ :=
      skipLoop_fixture N sr (min t 16384) (by omega) (by omega) fuel
        { s with position := 0, finished := false, handle := 1 }
        { state := { remaining := N }
          calls := w.calls
            ++ [TransportCall.seekInInternetFile s.handle (toInt32 t),
                TransportCall.closeInternetFile s.handle,
                TransportCall.openInternetFile s.server s.headers s.postData s.isPost
                  s.timeOutMs] }
        t ht0 hfuel (by simp only; omega) rfl (show (1 : Nat) ≠ 0 by decide)
    obtain ⟨⟨f1, f2, f3, f4, -, -⟩, -⟩ := skipLoop_frame _ _ _ _ _ _ _ hs
    refine ⟨s1, w1, reads, ?_, ?_, hfin, ⟨f1, f2, f3, f4⟩, hcalls, hreads⟩
    · simp only [WebInputStream.skipNextBytes, hpos, if_true, hs, Option.map_some']
    · simp only [WebInputStream.getPosition, hp]
      omega
  · have ht : t = 0 := by omega
    subst ht
    refine ⟨{ s with position := 0, finished := false, handle := 1 },
      { state := { remaining := N }
        calls := w.calls
          ++ [TransportCall.seekInInternetFile s.handle (toInt32 0),
              TransportCall.closeInternetFile s.handle,
              TransportCall.openInternetFile s.server s.headers s.postData s.isPost
                s.timeOutMs] },
      [], ?_, rfl, rfl, ⟨rfl, rfl, rfl, rfl⟩, by simp, by simp⟩
    simp [WebInputStream.skipNextBytes]

/-- C19 at `N = 10`, a stream at position 7 and the target 3, on the fixture whose
seek answers 1 for the offset 0 and 0 for any other: the calls are a seek, a close, an
open and then reads only. -/
theorem C19_backward_seek_reopens_witness :
    ∃ s1 w1 reads,
      WebInputStream.setPosition (fixture 10 (fun x => if x = 0 then 1 else 0)) 3
          { server := lit "http://h/", headers := lit "\r\n", postData := [],
            position := 7, finished := false, isPost := false, handle := 1,
            timeOutMs := 0 }
          { state := { remaining := 3 }, calls := [] } 3
        = some (true, s1, w1)
      ∧ s1.getPosition = 3 ∧ s1.isExhausted = false
      ∧ (s1.server = lit "http://h/" ∧ s1.headers = lit "\r\n" ∧ s1.postData = []
          ∧ s1.isPost = false)
      ∧ w1.calls = []
          ++ [TransportCall.seekInInternetFile 1 (toInt32 3),
              TransportCall.closeInternetFile 1,
              TransportCall.openInternetFile (lit "http://h/") (lit "\r\n") [] false 0]
          ++ reads
      ∧ ∀ c ∈ reads, ∃ h k, c = TransportCall.readFromInternetFile h k :=
  C19_backward_seek_reopens 10 (fun x => if x = 0 then 1 else 0)
    { server := lit "http://h/", headers := lit "\r\n", postData := [],
      position := 7, finished := false, isPost := false, handle := 1, timeOutMs := 0 }
    { state := { remaining := 3 }, calls := [] } 3 3
    (fun x => by
      by_cases h : x = 0
      · simp [h, toInt32]
      · simp [h, toInt32])
    (fun x => by
      by_cases h : x = 0
      · simp [h]
      · simp only [h, if_false]
        omega)
    (by decide) (by decide) (by decide) (by decide)

/-! ## Malformed escapes -/

theorem unescape_of_no_valid_escape (n : Nat) :
    ∀ t : List Nat, t.length ≤ n → Spec.hasValidEscape t = false → Spec.unescape t = t := by
  induction n with
  | zero =>
    intro t hlen _
    have : t = [] := List.length_eq_zero.mp (by omega)
    subst this; rfl
  | succ n ih =>
    intro t hlen h
    match t, hlen, h with
    | [], _, _ => rfl
    | [c], _, _ => rfl
    | [c, h1], _, _ => rfl
    | c :: h1 :: h2 :: rest, hlen, h =>
      simp only [Spec.hasValidEscape, Spec.escapeAtHead, Bool.or_eq_false_iff,
        decide_eq_false_iff_not] at h
      have hrest : Spec.hasValidEscape (h1 :: h2 :: rest) = false := by
        simp only [Spec.hasValidEscape, Bool.or_eq_false_iff]
        exact h.2
      have := ih (h1 :: h2 :: rest) (by simp at hlen ⊢; omega) hrest
      simp only [Spec.unescape, h.1, if_false, this]

theorem hasValidEscape_of_split (pre : List Nat) (h1 h2 : Nat) (post : List Nat)
    (hh : Spec.isHexDigit h1 ∧ Spec.isHexDigit h2) :
    Spec.hasValidEscape (pre ++ 37 :: h1 :: h2 :: post) = true := by
  induction pre with
  | nil => simp [Spec.hasValidEscape, Spec.escapeAtHead, hh]
  | cons x xs ih =>
    simp only [List.cons_append, Spec.hasValidEscape, Bool.or_eq_true]
    exact Or.inr ih

theorem split_of_hasValidEscape (s : List Nat) (h : Spec.hasValidEscape s = true) :
    ∃ pre h1 h2 post, s = pre ++ 37 :: h1 :: h2 :: post
      ∧ Spec.isHexDigit h1 ∧ Spec.isHexDigit h2 := by
  induction s with
  | nil => simp [Spec.hasValidEscape] at h
  | cons c rest ih =>
    simp only [Spec.hasValidEscape, Bool.or_eq_true] at h
    rcases h with h | h
    · match rest, h with
      | h1 :: h2 :: post, h =>
        simp only [Spec.escapeAtHead, decide_eq_true_eq] at h
        exact ⟨[], h1, h2, post, by simp [h.1], h.2.1, h.2.2⟩
    · obtain ⟨pre, h1, h2, post, e, hh⟩ := ih h
      exact ⟨c :: pre, h1, h2, post, by simp [e], hh⟩

/-- Replacing `+` by a space makes no escape and breaks none. -/
theorem hasValidEscape_replaceCharacter (s : List Nat) :
    Spec.hasValidEscape (JString.replaceCharacter s 43 32) = Spec.hasValidEscape s := by
  have hhex : ∀ c : Nat, Spec.isHexDigit (if c = 43 then 32 else c) ↔ Spec.isHexDigit c := by
    intro c
    unfold Spec.isHexDigit
    split <;> omega
  have h37 : ∀ c : Nat, (if c = 43 then 32 else c) = 37 ↔ c = 37 := by
    intro c
    split <;> omega
  induction s with
  | nil => rfl
  | cons c rest ih =>
    simp only [JString.replaceCharacter, List.map_cons] at ih ⊢
    simp only [Spec.hasValidEscape, ih]
    congr 1
    match rest with
    | [] => rfl
    | [h1] => rfl
    | h1 :: h2 :: post =>
      simp only [List.map_cons, Spec.escapeAtHead, h37, hhex]

/-- C20 (as stated, refuted). `"%00"` and `"%e9"` are a `%` followed by two hexadecimal
digits, and `URL::removeEscapeChars` does not give the one byte `16 * h1 + h2` for
them: the unescaped bytes go through `String::fromUTF8`, and a string holds neither a
zero byte nor a byte that belongs to no character. -/
theorem C20_escaped_byte_not_a_string :
    (Spec.isHexDigit 48 ∧ Spec.isHexDigit 48
      ∧ URL.removeEscapeChars [37, 48, 48]
          ≠ [16 * Spec.hexValue 48 + Spec.hexValue 48])
    ∧ (Spec.isHexDigit 101 ∧ Spec.isHexDigit 57
      ∧ URL.removeEscapeChars [37, 101, 57]
          ≠ [16 * Spec.hexValue 101 + Spec.hexValue 57]) := by
  refine ⟨⟨by decide, by decide, ?_⟩, ⟨by decide, by decide, ?_⟩⟩
  · rw [removeEscapeChars_eq_unescape]
    decide
  · rw [removeEscapeChars_eq_unescape]
    decide

/-- C20 (amended). `URL::removeEscapeChars` leaves malformed escapes as they are: on a
string (well-formed UTF-8 without a zero byte) in which no `%` is immediately followed
by two hexadecimal digits (a `%` that is the last or the last but one byte included)
the result is the string with every `+` replaced by a space; `"%" h1 h2` with
hexadecimal digits of either case and `16 * h1 + h2` in `1..127` gives that one byte,
which is not scanned again: `"%2541"` gives `"%41"`; on every string whose bytes,
once the escapes have collapsed, are well-formed UTF-8 without a zero byte, the result
is those bytes; and on every string with a `%` the result is what `String::fromUTF8`
makes of the collapsed bytes. -/
theorem C20_malformed_escapes_verbatim :
    (∀ s : JString, JString.isWellFormed s = true →
      (∀ pre h1 h2 post, s = pre ++ 37 :: h1 :: h2 :: post →
          ¬ (Spec.isHexDigit h1 ∧ Spec.isHexDigit h2)) →
      URL.removeEscapeChars s = JString.replaceCharacter s 43 32)
    ∧ (∀ h1 h2 : Nat, Spec.isHexDigit h1 → Spec.isHexDigit h2 →
        1 ≤ 16 * Spec.hexValue h1 + Spec.hexValue h2 →
        16 * Spec.hexValue h1 + Spec.hexValue h2 ≤ 127 →
        URL.removeEscapeChars [37, h1, h2] = [16 * Spec.hexValue h1 + Spec.hexValue h2])
    ∧ URL.removeEscapeChars (lit "%2541") = lit "%41"
    ∧ (∀ s : JString,
        JString.isWellFormed (Spec.unescape (JString.replaceCharacter s 43 32)) = true →
        URL.removeEscapeChars s = Spec.unescape (JString.replaceCharacter s 43 32))
    ∧ (∀ s : JString, 37 ∈ s →
        URL.removeEscapeChars s
          = JString.fromUTF8 (Spec.unescape (JString.replaceCharacter s 43 32))) := by
  refine ⟨?_, ?_, ?_, removeEscapeChars_of_wellFormed, ?_⟩
  rotate_right
  · intro s h37
    rw [removeEscapeChars_eq_unescape, if_pos h37]
  · intro s hw hs
    have hno : Spec.hasValidEscape s = false := by
      rw [Bool.eq_false_iff]
      intro h
      obtain ⟨pre, h1, h2, post, e, hh⟩ := split_of_hasValidEscape s h
      exact hs pre h1 h2 post e hh
    have hu : Spec.unescape (JString.replaceCharacter s 43 32)
        = JString.replaceCharacter s 43 32 :=
      unescape_of_no_valid_escape _ _ (le_refl _)
        (by rw [hasValidEscape_replaceCharacter]; exact hno)
    rw [removeEscapeChars_of_wellFormed s (by
      rw [hu]; exact isWellFormed_replaceCharacter s hw), hu]
  · intro h1 h2 hh1 hh2 hlo hhi
    have n1 : h1 ≠ 43 := by unfold Spec.isHexDigit at hh1; omega
    have n2 : h2 ≠ 43 := by unfold Spec.isHexDigit at hh2; omega
    have hu : Spec.unescape (JString.replaceCharacter [37, h1, h2] 43 32)
        = [16 * Spec.hexValue h1 + Spec.hexValue h2] := by
      simp [JString.replaceCharacter, n1, n2, Spec.unescape, hh1, hh2]
    rw [removeEscapeChars_of_wellFormed _ (by
      rw [hu]
      exact isWellFormed_ascii _ (by
        intro c hc
        simp only [List.mem_singleton] at hc
        omega)), hu]
  · rw [removeEscapeChars_eq_unescape]
    decide

/-- C20 at `"a+%zz%4"` (a `%` before non-hexadecimal bytes, and a `%` that is the last
but one byte), which decodes to `"a %zz%4"`; at `"%4A"` and `"%4a"`, which decode to
`"J"`; and at `"%c3%a9"`, which decodes to the two bytes of `é`. -/
theorem C20_malformed_escapes_verbatim_witness :
    URL.removeEscapeChars (lit "a+%zz%4") = lit "a %zz%4"
    ∧ URL.removeEscapeChars (lit "%4A") = lit "J"
    ∧ URL.removeEscapeChars (lit "%4a") = lit "J"
    ∧ URL.removeEscapeChars (lit "%c3%a9") = [0xC3, 0xA9] := by
  refine ⟨?_, ?_, ?_, ?_⟩
  · rw [C20_malformed_escapes_verbatim.1 (lit "a+%zz%4") (by decide)
      (by
        intro pre h1 h2 post e hh
        have := hasValidEscape_of_split pre h1 h2 post hh
        rw [← e] at this
        exact absurd this (by decide))]
    decide
  · exact C20_malformed_escapes_verbatim.2.1 52 65 (by decide) (by decide) (by decide)
      (by decide)
  · exact C20_malformed_escapes_verbatim.2.1 52 97 (by decide) (by decide) (by decide)
      (by decide)
  · rw [C20_malformed_escapes_verbatim.2.2.2.1 (lit "%c3%a9") (by decide)]
    decide

/-! ## Termination of the query-scanning loop -/

theorem indexOfCharFrom_split (c : Nat) (xs : List Nat) (k : Nat)
    (h : 0 ≤ indexOfCharFrom c xs k) :
    ∃ a t, xs = a ++ c :: t ∧ c ∉ a ∧ indexOfCharFrom c xs k = ((k + a.length : Nat) : Int)
    := by
  induction xs generalizing k with
  | nil => simp [indexOfCharFrom] at h
  | cons x xs ih =>
    by_cases hx : x = c
    · subst hx
      exact ⟨[], xs, rfl, by simp, by simp [indexOfCharFrom]⟩
    · simp only [indexOfCharFrom, hx, if_false] at h ⊢
      obtain ⟨a, t, e, hn, hi⟩ := ih (k + 1) h
      refine ⟨x :: a, t, by simp [e], ?_, ?_⟩
      · intro hm
        rcases List.mem_cons.mp hm with e2 | e2
        · exact hx e2.symm
        · exact hn e2
      · rw [hi]
        simp only [List.length_cons]
        congr 1
        omega

/-- The next `&` is found after the index the search starts from, and one `&` fewer
lies after it. -/
theorem nextAmp_advances (url : JString) (i : Int)
    (h : 0 ≤ JString.indexOfChar url (i + 1) 38) :
    i < JString.indexOfChar url (i + 1) 38
    ∧ List.count 38 (url.drop (JString.indexOfChar url (i + 1) 38 + 1).toNat) + 1
        ≤ List.count 38 (url.drop (i + 1).toNat) := by
  unfold JString.indexOfChar at h ⊢
  obtain ⟨a, t, e, hn, hi⟩ := indexOfCharFrom_split 38 _ _ h
  rw [hi]
  constructor
  · omega
  · have hd : List.drop (((((i + 1).toNat + a.length : Nat) : Int) + 1).toNat) url = t := by
      have : ((((i + 1).toNat + a.length : Nat) : Int) + 1).toNat
          = (i + 1).toNat + (a.length + 1) := by omega
      rw [this, ← List.drop_drop, e]
      simp
    rw [hd, e]
    simp [List.count_append]

/-- With more fuel than there are `&` after the index, the loop on fuel ends and gives
what the loop gives, after at most one pass more than there are `&`. -/
theorem parseLoopFuel_eq (url : JString) (fuel : Nat) :
    ∀ (i : Int) (ps : StringPairArray),
      List.count 38 (url.drop (i + 1).toNat) < fuel →
      ∃ k, URL.parseLoopFuel url fuel i ps = some (URL.parseLoop url i ps, k)
        ∧ 1 ≤ k ∧ k ≤ 1 + List.count 38 (url.drop (i + 1).toNat) := by
  induction fuel with
  | zero => intro i ps h; omega
  | succ fuel ih =>
    intro i ps h
    rw [URL.parseLoop]
    simp only [URL.parseLoopFuel]
    by_cases hn : 0 ≤ JString.indexOfChar url (i + 1) 38
    · obtain ⟨-, hcount⟩ := nextAmp_advances url i hn
      simp only [hn, if_true]
      obtain ⟨k, hk, hk1, hk2⟩ := ih (JString.indexOfChar url (i + 1) 38)
        (if JString.indexOfChar url (i + 1) 61 > i + 1 then
          if JString.indexOfChar url (i + 1) 38 < 0 then
            ps.set (URL.removeEscapeChars
                      (JString.substring url (i + 1) (JString.indexOfChar url (i + 1) 61)))
              (URL.removeEscapeChars
                (JString.substringFrom url (JString.indexOfChar url (i + 1) 61 + 1)))
          else if JString.indexOfChar url (i + 1) 38 > 0
              ∧ JString.indexOfChar url (i + 1) 61 < JString.indexOfChar url (i + 1) 38 then
            ps.set (URL.removeEscapeChars
                      (JString.substring url (i + 1) (JString.indexOfChar url (i + 1) 61)))
              (URL.removeEscapeChars
                (JString.substring url (JString.indexOfChar url (i + 1) 61 + 1)
                  (JString.indexOfChar url (i + 1) 38)))
          else ps
        else ps)
        (by omega)
      refine ⟨k + 1, ?_, by omega, by omega⟩
      rw [hk]
      rfl
    · simp only [hn, if_false]
      exact ⟨1, rfl, le_refl _, by omega⟩

theorem count_le_length_drop (url : JString) (n : Nat) :
    List.count 38 (url.drop n) ≤ url.length := by
  calc List.count 38 (url.drop n) ≤ (url.drop n).length := List.count_le_length _ _
    _ ≤ url.length := by simp

/-- C26. The query-scanning loop of the `URL (String)` constructor terminates: the
index of the next `&` is larger than the index `i` it is searched from; run on fuel
with no termination argument, the loop ends within `1 +` (the number of `&` after
index `i`) passes of its body and gives the parameters of the constructor's loop; and
the constructor run on `url.length + 1` units of fuel returns the value of the
constructor, on every string. -/
theorem C26_query_loop_terminates (url : JString) :
    (∀ i : Int, 0 ≤ JString.indexOfChar url (i + 1) 38 →
        i < JString.indexOfChar url (i + 1) 38)
    ∧ (∀ (i : Int) (ps : StringPairArray) (fuel : Nat),
        List.count 38 (url.drop (i + 1).toNat) < fuel →
        ∃ k, URL.parseLoopFuel url fuel i ps = some (URL.parseLoop url i ps, k)
          ∧ k ≤ 1 + List.count 38 (url.drop (i + 1).toNat))
    ∧ (∀ ps : StringPairArray, 0 ≤ JString.indexOfChar url 0 63 →
        ∃ k, URL.parseLoopFuel url (url.length + 1) (JString.indexOfChar url 0 63) ps
            = some (URL.parseLoop url (JString.indexOfChar url 0 63) ps, k)
          ∧ k ≤ 1 + List.count 38 (url.drop ((JString.indexOfChar url 0 63) + 1).toNat))
    ∧ URL.ofStringFuel (url.length + 1) url = some (URL.ofString url) := by
  refine ⟨fun i h => (nextAmp_advances url i h).1, ?_, ?_, ?_⟩
  · intro i ps fuel h
    obtain ⟨k, hk, -, hk2⟩ := parseLoopFuel_eq url fuel i ps h
    exact ⟨k, hk, hk2⟩
  · intro ps _
    obtain ⟨k, hk, -, hk2⟩ := parseLoopFuel_eq url (url.length + 1) _ ps
      (Nat.lt_succ_of_le (count_le_length_drop url _))
    exact ⟨k, hk, hk2⟩
  · unfold URL.ofStringFuel URL.ofString
    by_cases h : 0 ≤ JString.indexOfChar url 0 63
    · obtain ⟨k, hk, -, -⟩ := parseLoopFuel_eq url (url.length + 1)
        (JString.indexOfChar url 0 63) []
        (Nat.lt_succ_of_le (count_le_length_drop url _))
      simp only [h, if_true, hk, Option.map_some']
    · simp only [h, if_false]

/-! ## Missing boundaries -/

theorem indexOfChar_of_not_mem_drop (s : JString) (start c : Nat)
    (h : c ∉ s.drop start) : JString.indexOfChar s (start : Int) c = -1 := by
  simp only [JString.indexOfChar, Int.toNat_ofNat]
  exact indexOfCharFrom_of_not_mem _ _ _ h

theorem findStartOfDomain_no_colon (run tail : JString)
    (hrun : ∀ c ∈ run, URL.isSchemeChar c = true)
    (ht : URL.isSchemeChar (tail.headD 0) = false) (hc : tail.headD 0 ≠ 58) :
    URL.findStartOfDomain (run ++ tail) = 0 := by
  have h := skipSchemeChars_run run hrun [] tail ht
  simp only [List.nil_append, List.length_nil, Nat.zero_add] at h
  have hch := JString.charAt_append_length run tail run.length rfl
  simp only [URL.findStartOfDomain, h, hch, hc, if_false]

/-- C21. Missing boundaries give empty results; every function returns on every base.
`getScheme` returns `""` when the leading run of letters, digits, `+`, `-`, `.` is not
followed by `:`; `getSubPath` returns `""` when there is no `/` from the start of the
domain on; `getDomain` returns `""` when there is neither a `/` nor a `:` from the
start of the domain on. -/
theorem C21_missing_boundaries_empty (u : URL) :
    (∀ run tail : JString, u.url = run ++ tail →
        (∀ c ∈ run, URL.isSchemeChar c = true) →
        URL.isSchemeChar (tail.headD 0) = false → tail.headD 0 ≠ 58 →
        URL.getScheme u = [])
    ∧ (47 ∉ u.url.drop (URL.skipSlashes u.url (URL.findStartOfDomain u.url)) →
        URL.getSubPath u = [])
    ∧ (47 ∉ u.url.drop (URL.skipSlashes u.url (URL.findStartOfDomain u.url)) →
       58 ∉ u.url.drop (URL.skipSlashes u.url (URL.findStartOfDomain u.url)) →
        URL.getDomain u = []) := by
  refine ⟨?_, ?_, ?_⟩
  · intro run tail hu hrun ht hc
    have h0 := findStartOfDomain_no_colon run tail hrun ht hc
    simp [URL.getScheme, hu, h0, JString.substring]
  · intro h
    have hi := indexOfChar_of_not_mem_drop _ _ 47 h
    simp [URL.getSubPath, hi]
  · intro h1 h2
    have hi1 := indexOfChar_of_not_mem_drop _ _ 47 h1
    have hi2 := indexOfChar_of_not_mem_drop _ _ 58 h2
    simp [URL.getDomain, hi1, hi2, JString.substring]

/-- C21 at `"http://example.com"` (no `/` and no `:` after the domain starts: empty
domain and empty sub-path) and at `"example.com/x"` (no `:` after the leading run:
empty scheme). -/
theorem C21_missing_boundaries_empty_witness :
    URL.getDomain (URL.ofString (lit "http://example.com")) = []
    ∧ URL.getSubPath (URL.ofString (lit "http://example.com")) = []
    ∧ URL.getScheme (URL.ofString (lit "example.com/x")) = [] := by
  have hu : (URL.ofString (lit "http://example.com")).url
      = lit "http" ++ 58 :: (List.replicate 2 47 ++ (lit "example.com" ++ [])) := by
    decide
  have hstart := domain_start (lit "http") (lit "example.com") [] 2 (by decide) (by decide)
  rw [← hu] at hstart
  have h := C21_missing_boundaries_empty (URL.ofString (lit "http://example.com"))
  have h2 := C21_missing_boundaries_empty (URL.ofString (lit "example.com/x"))
  refine ⟨h.2.2 ?_ ?_, h.2.1 ?_, h2.1 (lit "example.com") (lit "/x") (by decide)
    (by decide) (by decide) (by decide)⟩
  · rw [hstart]; decide
  · rw [hstart]; decide
  · rw [hstart]; decide

/-! ## Sub-path round trip -/

/-- C24. Sub-path round trip: when the base is `scheme://host` followed by nothing or
by `/` and an old path (scheme a run of letters, digits, `+`, `-`, `.`; host non-empty
without `/`), for every path `p` that does not start with `/`,
`withNewSubPath (p).getSubPath ()` is `p`. -/
theorem C24_subpath_round_trip (u : URL) (scheme host rest p : JString)
    (hu : u.url = scheme ++ lit "://" ++ host ++ rest)
    (hs : ∀ c ∈ scheme, URL.isSchemeChar c = true)
    (hne : host ≠ []) (h47 : 47 ∉ host)
    (hrest : rest = [] ∨ ∃ old, rest = 47 :: old)
    (hp : JString.startsWithChar p 47 = false) :
    URL.getSubPath (URL.withNewSubPath u p) = p := by
  have hu2 : u.url = scheme ++ 58 :: (List.replicate 2 47 ++ (host ++ rest)) := by
    rw [hu]
    have : lit "://" = [58, 47, 47] := by decide
    simp [this, List.replicate]
  rw [withNewSubPath_base u scheme host rest p hu2 hs hne h47 hrest]
  simp only [hp, Bool.false_eq_true, if_false]
  have hh : (host ++ 47 :: p).headD 0 ≠ 47 := by
    cases host with
    | nil => exact absurd rfl hne
    | cons x xs =>
      simp only [List.cons_append, List.headD_cons]
      intro e
      exact h47 (by simp [e])
  have hstart := domain_start scheme host (47 :: p) 2 hs hh
  have e0 : scheme ++ 58 :: 47 :: 47 :: (host ++ 47 :: p)
      = scheme ++ 58 :: (List.replicate 2 47 ++ (host ++ 47 :: p)) := by
    simp [List.replicate]
  have e1 : scheme ++ 58 :: (List.replicate 2 47 ++ (host ++ 47 :: p))
      = (scheme ++ 58 :: List.replicate 2 47) ++ (host ++ 47 :: p) := by simp
  have l : ((scheme.length + 1 + 2 : Nat) : Int)
      = ((scheme ++ 58 :: List.replicate 2 47).length : Nat) := by simp; omega
  have hidx : JString.indexOfChar
      (scheme ++ 58 :: (List.replicate 2 47 ++ (host ++ 47 :: p)))
      ((scheme.length + 1 + 2 : Nat) : Int) 47
      = (((scheme ++ 58 :: List.replicate 2 47).length + host.length : Nat) : Int) := by
    rw [e1, JString.indexOfChar_append _ _ 47 _ l,
      indexOfCharFrom_append_of_not_mem _ _ _ _ h47, indexOfCharFrom_cons_self]
  unfold URL.getSubPath
  simp only [e0, hstart, hidx]
  have hpos : ¬ ((((scheme ++ 58 :: List.replicate 2 47).length + host.length : Nat) : Int)
      + 1 ≤ 0) := by omega
  rw [if_neg hpos]
  have e2 : scheme ++ 58 :: (List.replicate 2 47 ++ (host ++ 47 :: p))
      = (scheme ++ 58 :: List.replicate 2 47 ++ host ++ [47]) ++ p := by simp
  rw [e2]
  exact JString.substringFrom_append _ _ _ (by simp; omega)

/-- C24 on `"http://h/old/path"` and on `"http://h"`, with the path `"a/b"`. -/
theorem C24_subpath_round_trip_witness :
    URL.getSubPath (URL.withNewSubPath (URL.ofString (lit "http://h/old/path")) (lit "a/b"))
        = lit "a/b"
    ∧ URL.getSubPath (URL.withNewSubPath (URL.ofString (lit "http://h")) (lit "a/b"))
        = lit "a/b" :=
  ⟨C24_subpath_round_trip _ (lit "http") (lit "h") (lit "/old/path") _
      (by decide) (by decide) (by decide) (by decide)
      (Or.inr ⟨lit "old/path", by decide⟩) (by decide),
   C24_subpath_round_trip _ (lit "http") (lit "h") [] _
      (by decide) (by decide) (by decide) (by decide) (Or.inl rfl) (by decide)⟩

/-! ## Seeking -/

/-- C22. Seeking to the current position is a no-op: for every stream,
`setPosition (getPosition ())` returns true whatever the fuel, makes no call to the
transport and leaves the stream as it is, an exhausted stream exhausted. -/
theorem C22_seek_to_current_position {σ : Type} (T : Transport σ) (fuel : Nat)
    (s : WebInputStream) (w : World σ) :
    WebInputStream.setPosition T fuel s w s.getPosition = some (true, s, w)
    ∧ ∀ res, WebInputStream.setPosition T fuel s w s.getPosition = some res →
        res.1 = true ∧ res.2.2.calls = w.calls
        ∧ res.2.1.getPosition = s.getPosition ∧ res.2.1.handle = s.handle
        ∧ res.2.1.isExhausted = s.isExhausted := by
  have h : WebInputStream.setPosition T fuel s w s.getPosition = some (true, s, w) :=
    setPosition_same T fuel s w
  refine ⟨h, ?_⟩
  intro res hres
  rw [h] at hres
  cases hres
  exact ⟨rfl, rfl, rfl, rfl, rfl⟩

/-- The value of `setPosition` when the direct seek has not landed on `wantedPos`:
after a reopen when the target lies behind, then the read-and-discard skip. -/
theorem setPosition_fallback {σ : Type} (T : Transport σ) (fuel : Nat)
    (s : WebInputStream) (w : World σ) (wantedPos : Int) (h1 : wantedPos ≠ s.position)
    (h2 : (juce_seekInInternetFile T w s.handle (toInt32 wantedPos)).1 ≠ wantedPos) :
    WebInputStream.setPosition T fuel s w wantedPos
      = if wantedPos < s.position then
          (WebInputStream.skipNextBytes T fuel
            { s with position := 0, finished := false,
                     handle := (juce_openInternetFile T
                       (juce_closeInternetFile T
                         (juce_seekInInternetFile T w s.handle (toInt32 wantedPos)).2
                         s.handle)
                       s.server s.headers s.postData s.isPost s.timeOutMs).1 }
            (juce_openInternetFile T
              (juce_closeInternetFile T
                (juce_seekInInternetFile T w s.handle (toInt32 wantedPos)).2 s.handle)
              s.server s.headers s.postData s.isPost s.timeOutMs).2
            (wantedPos - 0)).map (fun r => (true, r.1, r.2))
        else
          (WebInputStream.skipNextBytes T fuel { s with finished := false }
            (juce_seekInInternetFile T w s.handle (toInt32 wantedPos)).2
            (wantedPos - s.position)).map (fun r => (true, r.1, r.2)) := by
  by_cases h3 : wantedPos < s.position
  · rw [if_pos h3]
    exact setPosition_back T fuel s w wantedPos h1 h2 h3
  · rw [if_neg h3]
    exact setPosition_forward T fuel s w wantedPos h1 h2 h3

/-- The first call of a seek to another position is the platform's seek, with the
offset cast to `int`. -/
theorem setPosition_first_call {σ : Type} (T : Transport σ) (fuel : Nat)
    (s : WebInputStream) (w : World σ) (wantedPos : Int) (h1 : wantedPos ≠ s.position)
    (res : Bool × WebInputStream × World σ)
    (h : WebInputStream.setPosition T fuel s w wantedPos = some res) :
    ∃ tail, res.2.2.calls
      = w.calls ++ TransportCall.seekInInternetFile s.handle (toInt32 wantedPos) :: tail := by
  by_cases h2 : (juce_seekInInternetFile T w s.handle (toInt32 wantedPos)).1 = wantedPos
  · rw [setPosition_direct T fuel s w wantedPos h1 h2] at h
    cases h
    exact ⟨[], rfl⟩
  · rw [setPosition_fallback T fuel s w wantedPos h1 h2] at h
    split at h
    · rcases hsk : WebInputStream.skipNextBytes T fuel
          { s with position := 0, finished := false,
                   handle := (juce_openInternetFile T
                     (juce_closeInternetFile T
                       (juce_seekInInternetFile T w s.handle (toInt32 wantedPos)).2
                       s.handle)
                     s.server s.headers s.postData s.isPost s.timeOutMs).1 }
          (juce_openInternetFile T
            (juce_closeInternetFile T
              (juce_seekInInternetFile T w s.handle (toInt32 wantedPos)).2 s.handle)
            s.server s.headers s.postData s.isPost s.timeOutMs).2
          (wantedPos - 0) with _ | r
      · rw [hsk] at h; simp at h
      · rw [hsk] at h
        simp only [Option.map_some', Option.some.injEq] at h
        subst h
        obtain ⟨-, reads, hc, -⟩ := skipNextBytes_frame T fuel _ _ _ r hsk
        refine ⟨TransportCall.closeInternetFile s.handle
          :: TransportCall.openInternetFile s.server s.headers s.postData s.isPost
              s.timeOutMs :: reads, ?_⟩
        rw [hc]
        simp [juce_openInternetFile, juce_closeInternetFile, juce_seekInInternetFile]
    · rcases hsk : WebInputStream.skipNextBytes T fuel { s with finished := false }
          (juce_seekInInternetFile T w s.handle (toInt32 wantedPos)).2
          (wantedPos - s.position) with _ | r
      · rw [hsk] at h; simp at h
      · rw [hsk] at h
        simp only [Option.map_some', Option.some.injEq] at h
        subst h
        obtain ⟨-, reads, hc, -⟩ := skipNextBytes_frame T fuel _ _ _ r hsk
        refine ⟨reads, ?_⟩
        rw [hc]
        simp [juce_seekInInternetFile]

/-- C25. 32-bit truncation in `setPosition`: on a seek to another position the
transport's seek is called with the wanted offset cast to `int` (its value modulo
`2^32` taken in `[-2^31, 2^31)`); the direct-seek branch is taken exactly when the
transport's `int` result equals the 64-bit `wantedPos`; so for a `wantedPos` outside
`[-2^31, 2^31 - 1]` it is never taken, whatever the transport returns, and the stream
reopens when the target lies behind and reads and discards. -/
theorem C25_seek_offset_truncated {σ : Type} (T : Transport σ) (fuel : Nat)
    (s : WebInputStream) (w : World σ) (wantedPos : Int) (hne : wantedPos ≠ s.position) :
    (-2147483648 ≤ toInt32 wantedPos ∧ toInt32 wantedPos < 2147483648
      ∧ (toInt32 wantedPos - wantedPos) % 4294967296 = 0)
    ∧ (∀ res, WebInputStream.setPosition T fuel s w wantedPos = some res →
        ∃ tail, res.2.2.calls
          = w.calls ++ TransportCall.seekInInternetFile s.handle (toInt32 wantedPos) :: tail)
    ∧ (toInt32 (T.seekInInternetFile w.state s.handle (toInt32 wantedPos)).1 = wantedPos →
        WebInputStream.setPosition T fuel s w wantedPos
          = some (true, { s with finished := false, position := wantedPos },
              (juce_seekInInternetFile T w s.handle (toInt32 wantedPos)).2))
    ∧ (toInt32 (T.seekInInternetFile w.state s.handle (toInt32 wantedPos)).1 ≠ wantedPos →
        WebInputStream.setPosition T fuel s w wantedPos
          = if wantedPos < s.position then
              (WebInputStream.skipNextBytes T fuel
                { s with position := 0, finished := false,
                         handle := (juce_openInternetFile T
                           (juce_closeInternetFile T
                             (juce_seekInInternetFile T w s.handle (toInt32 wantedPos)).2
                             s.handle)
                           s.server s.headers s.postData s.isPost s.timeOutMs).1 }
                (juce_openInternetFile T
                  (juce_closeInternetFile T
                    (juce_seekInInternetFile T w s.handle (toInt32 wantedPos)).2 s.handle)
                  s.server s.headers s.postData s.isPost s.timeOutMs).2
                (wantedPos - 0)).map (fun r => (true, r.1, r.2))
            else
              (WebInputStream.skipNextBytes T fuel { s with finished := false }
                (juce_seekInInternetFile T w s.handle (toInt32 wantedPos)).2
                (wantedPos - s.position)).map (fun r => (true, r.1, r.2)))
    ∧ ((wantedPos < -2147483648 ∨ 2147483648 ≤ wantedPos) →
        toInt32 (T.seekInInternetFile w.state s.handle (toInt32 wantedPos)).1 ≠ wantedPos)
    := by
  refine ⟨?_, ?_, ?_, ?_, ?_⟩
  · unfold toInt32
    omega
  · intro res h
    exact setPosition_first_call T fuel s w wantedPos hne res h
  · intro h
    exact setPosition_direct T fuel s w wantedPos hne h
  · intro h
    exact setPosition_fallback T fuel s w wantedPos hne h
  · intro hout e
    have hr := toInt32_range (T.seekInInternetFile w.state s.handle (toInt32 wantedPos)).1
    rw [e] at hr
    omega

/-- C25 at `wantedPos = 2^32 + 5` on a stream at position 0 over the fixture whose
seek answers the offset it is given: the seek is asked for offset 5 and answers 5,
which is not `2^32 + 5`, so the stream skips by reading instead. -/
theorem C25_seek_offset_truncated_witness :
    toInt32 4294967301 = 5
    ∧ toInt32 ((fixture 10 id).seekInInternetFile { remaining := 10 } 1
        (toInt32 4294967301)).1 ≠ 4294967301
    ∧ WebInputStream.setPosition (fixture 10 id) 100
        { server := lit "http://h/", headers := lit "\r\n", postData := [], position := 0,
          finished := false, isPost := false, handle := 1, timeOutMs := 0 }
        { state := { remaining := 10 }, calls := [] } 4294967301
      = (WebInputStream.skipNextBytes (fixture 10 id) 100
          { server := lit "http://h/", headers := lit "\r\n", postData := [],
            position := 0, finished := false, isPost := false, handle := 1,
            timeOutMs := 0 }
          (juce_seekInInternetFile (fixture 10 id)
            { state := { remaining := 10 }, calls := [] } 1 (toInt32 4294967301)).2
          (4294967301 - 0)).map (fun r => (true, r.1, r.2)) := by
  have h := C25_seek_offset_truncated (fixture 10 id) 100
    { server := lit "http://h/", headers := lit "\r\n", postData := [], position := 0,
      finished := false, isPost := false, handle := 1, timeOutMs := 0 }
    { state := { remaining := 10 }, calls := [] } 4294967301 (by decide)
  have hne := h.2.2.2.2 (Or.inr (by decide))
  refine ⟨by decide, hne, ?_⟩
  rw [h.2.2.2.1 hne]
  rfl

/-! ## Rendering, then parsing -/

theorem set_keys_nodup (ps : StringPairArray) (key value : JString)
    (h : ps.getAllKeys.Nodup) : (ps.set key value).getAllKeys.Nodup := by
  rw [StringPairArray.getAllKeys_set]
  split
  · exact h
  · rename_i hk
    exact List.nodup_append.mpr ⟨h, by simp, by
      intro a ha hb
      simp only [List.mem_singleton] at hb
      exact hk (hb ▸ ha)⟩

theorem parseLoopFuel_keys_nodup (url : JString) (fuel : Nat) :
    ∀ (i : Int) (ps : StringPairArray) (r : StringPairArray × Nat),
      URL.parseLoopFuel url fuel i ps = some r → ps.getAllKeys.Nodup →
      r.1.getAllKeys.Nodup := by
  induction fuel with
  | zero => intro i ps r h; simp [URL.parseLoopFuel] at h
  | succ fuel ih =>
    intro i ps r h hnd
    simp only [URL.parseLoopFuel] at h
    have hstep : StringPairArray.getAllKeys
        (if JString.indexOfChar url (i + 1) 61 > i + 1 then
          if JString.indexOfChar url (i + 1) 38 < 0 then
            ps.set (URL.removeEscapeChars
                      (JString.substring url (i + 1) (JString.indexOfChar url (i + 1) 61)))
              (URL.removeEscapeChars
                (JString.substringFrom url (JString.indexOfChar url (i + 1) 61 + 1)))
          else if JString.indexOfChar url (i + 1) 38 > 0
              ∧ JString.indexOfChar url (i + 1) 61 < JString.indexOfChar url (i + 1) 38 then
            ps.set (URL.removeEscapeChars
                      (JString.substring url (i + 1) (JString.indexOfChar url (i + 1) 61)))
              (URL.removeEscapeChars
                (JString.substring url (JString.indexOfChar url (i + 1) 61 + 1)
                  (JString.indexOfChar url (i + 1) 38)))
          else ps
        else ps) |>.Nodup := by
      split
      · split
        · exact set_keys_nodup _ _ _ hnd
        · split
          · exact set_keys_nodup _ _ _ hnd
          · exact hnd
      · exact hnd
    by_cases hn : 0 ≤ JString.indexOfChar url (i + 1) 38
    · simp only [hn, if_true] at h
      rcases hrec : URL.parseLoopFuel url fuel (JString.indexOfChar url (i + 1) 38) _
        with _ | r2
      · rw [hrec] at h; simp at h
      · rw [hrec] at h
        simp only [Option.map_some', Option.some.injEq] at h
        subst h
        exact ih _ _ r2 hrec hstep
    · simp only [hn, if_false, Option.some.injEq] at h
      subst h
      exact hstep

/-- The keys of the parameters of a constructed URL value are pairwise distinct. -/
theorem ofString_keys_nodup (s : JString) :
    (URL.ofString s).parameters.getAllKeys.Nodup := by
  unfold URL.ofString
  simp only []
  split
  · obtain ⟨k, hk, -, -⟩ := parseLoopFuel_eq s (s.length + 1) (JString.indexOfChar s 0 63) []
      (Nat.lt_succ_of_le (count_le_length_drop s _))
    exact parseLoopFuel_keys_nodup s _ _ _ _ hk (by simp [StringPairArray.getAllKeys])
  · simp [StringPairArray.getAllKeys]

/-- Every URL value built through the constructors and the builders has pairwise
distinct parameter keys. -/
theorem reachable_keys_nodup (u : URL) (h : Reachable u) :
    u.parameters.getAllKeys.Nodup := by
  induction h with
  | empty => simp [URL.empty, StringPairArray.getAllKeys]
  | ofString s => exact ofString_keys_nodup s
  | copy _ ih => exact ih
  | @withParameter u name value _ ih =>
    have e : (URL.withParameter u name value).parameters = u.parameters.set name value := rfl
    rw [e]
    exact set_keys_nodup _ _ _ ih
  | withPOSTData postData _ ih => exact ih
  | withNewSubPath newPath _ ih => exact ih
  | withFileToUpload name file mimeType _ _ ih => exact ih

theorem encodeByte_parameter_chars (c : Nat) (hc : c < 256) :
    ∀ x ∈ Spec.encodeByte true c, x ≠ 38 ∧ x ≠ 61 := by
  intro x hx
  unfold Spec.encodeByte at hx
  split at hx
  · rename_i hleg
    simp only [List.mem_singleton] at hx
    subst hx
    rcases hleg with h | h
    · unfold Spec.isAlnum at h; omega
    · simp [Spec.whitelist] at h; omega
  · split at hx
    · simp only [List.mem_singleton] at hx
      omega
    · have h1 := hexDigitLower_isHexDigit (c / 16) (by omega)
      have h2 := hexDigitLower_isHexDigit (c % 16) (by omega)
      unfold Spec.isHexDigit at h1 h2
      simp only [List.mem_cons, List.mem_singleton, List.not_mem_nil, or_false] at hx
      rcases hx with h | h | h <;> omega

theorem encodeByte_ne_nil (isParameter : Bool) (c : Nat) :
    Spec.encodeByte isParameter c ≠ [] := by
  unfold Spec.encodeByte
  split
  · simp
  · split <;> simp

/-- An encoded key or value holds neither `&` nor `=`, and is empty only when the
string is. -/
theorem addEscapeChars_parameter_chars (s : JString) (hs : ∀ c ∈ s, c < 256) :
    38 ∉ URL.addEscapeChars s true ∧ 61 ∉ URL.addEscapeChars s true
    ∧ (s ≠ [] → URL.addEscapeChars s true ≠ []) := by
  rw [addEscapeChars_eq_flatMap s true hs]
  refine ⟨?_, ?_, ?_⟩
  · intro h
    obtain ⟨c, hc, hx⟩ := List.mem_flatMap.mp h
    exact (encodeByte_parameter_chars c (hs c hc) 38 hx).1 rfl
  · intro h
    obtain ⟨c, hc, hx⟩ := List.mem_flatMap.mp h
    exact (encodeByte_parameter_chars c (hs c hc) 61 hx).2 rfl
  · intro hne
    cases s with
    | nil => exact absurd rfl hne
    | cons c rest =>
      intro e
      simp only [List.flatMap_cons, List.append_eq_nil] at e
      exact encodeByte_ne_nil true c e.1

/-- Parsing a base without `?` followed by `?` and the rendering of a non-empty
parameter list with non-empty, pairwise distinct keys gives the base and the list. -/
theorem ofString_mangle (b : JString) (ps : StringPairArray) (hb : 63 ∉ b)
    (hne : ps ≠ [])
    (hkeys : ∀ p ∈ ps, p.1 ≠ [])
    (hstr : ∀ p ∈ ps, JString.isWellFormed p.1 = true ∧ JString.isWellFormed p.2 = true)
    (hnd : ps.getAllKeys.Nodup) :
    URL.ofString (b ++ 63 :: Spec.mangle ps)
      = { url := b, postData := [], parameters := ps, filesToUpload := [],
          mimeTypes := [] } := by
  have hmangle : Spec.mangle ps
      = List.intercalate [38]
          ((ps.map (fun p => (URL.addEscapeChars p.1 true, URL.addEscapeChars p.2 true))).map
            (fun p => p.1 ++ 61 :: p.2)) := by
    simp [Spec.mangle, List.map_map, Function.comp_def]
  have hdec : (ps.map
        (fun p => (URL.addEscapeChars p.1 true, URL.addEscapeChars p.2 true))).map
        (fun p => (URL.removeEscapeChars p.1, URL.removeEscapeChars p.2)) = ps := by
    rw [List.map_map]
    conv_rhs => rw [← List.map_id ps]
    apply List.map_congr_left
    intro p hp
    obtain ⟨h1, h2⟩ := hstr p hp
    simp only [Function.comp_apply, id_eq]
    rw [removeEscapeChars_addEscapeChars p.1 true h1,
      removeEscapeChars_addEscapeChars p.2 true h2]
  have hdeck : (ps.map
        (fun p => (URL.addEscapeChars p.1 true, URL.addEscapeChars p.2 true))).map
        (fun p => URL.removeEscapeChars p.1) = ps.getAllKeys := by
    rw [List.map_map]
    apply List.map_congr_left
    intro p hp
    simp only [Function.comp_apply]
    exact removeEscapeChars_addEscapeChars p.1 true (hstr p hp).1
  rw [hmangle, ofString_query b _ hb (by simpa using hne)
    (by
      intro seg hseg
      obtain ⟨q, hq, rfl⟩ := List.mem_map.mp hseg
      obtain ⟨p, hp, rfl⟩ := List.mem_map.mp hq
      have h1 := (addEscapeChars_parameter_chars p.1 (isWellFormed_lt _ (hstr p hp).1)).1
      have h2 := (addEscapeChars_parameter_chars p.2 (isWellFormed_lt _ (hstr p hp).2)).1
      simp [h1, h2])]
  rw [foldl_addSegment_pairs _
    (by
      intro q hq
      obtain ⟨p, hp, rfl⟩ := List.mem_map.mp hq
      exact ⟨(addEscapeChars_parameter_chars p.1 (isWellFormed_lt _ (hstr p hp).1)).2.2 (hkeys p hp),
        (addEscapeChars_parameter_chars p.1 (isWellFormed_lt _ (hstr p hp).1)).2.1⟩)
    []
    (by
      rw [hdeck]
      simpa [StringPairArray.getAllKeys] using hnd)]
  rw [hdec]
  simp

/-- C23. Render/parse round trip: for every URL value `u` built through the
constructors and the builders, whose base holds no `?` and whose parameter keys are all
non-empty, whatever characters the keys and values hold (each is a string: well-formed
UTF-8 without a zero byte), `URL (u.toString (true))` has the base and the parameter
list of `u`: same keys, same values, same order. -/
theorem C23_render_parse_round_trip (u : URL) (hu : Reachable u) (hbase : 63 ∉ u.url)
    (hkeys : ∀ p ∈ u.parameters, p.1 ≠ [])
    (hstr : ∀ p ∈ u.parameters,
      JString.isWellFormed p.1 = true ∧ JString.isWellFormed p.2 = true) :
    (URL.ofString (URL.toString u true)).url = u.url
    ∧ (URL.ofString (URL.toString u true)).parameters = u.parameters := by
  by_cases hne : u.parameters = []
  · have ht : URL.toString u true = u.url := by
      simp [URL.toString, hne, StringPairArray.size]
    rw [ht, ofString_no_query u.url hbase, hne]
    exact ⟨rfl, rfl⟩
  · have hpos : 0 < StringPairArray.size u.parameters := List.length_pos.mpr hne
    have ht : URL.toString u true = u.url ++ 63 :: Spec.mangle u.parameters := by
      simp [URL.toString, hpos, getMangledParameters_eq_mangle]
    rw [ht, ofString_mangle u.url u.parameters hbase hne hkeys hstr
      (reachable_keys_nodup u hu)]
    exact ⟨rfl, rfl⟩

/-- C23 at the URL value `URL ("http://h/p").withParameter ("a b", "x&y=+%")
.withParameter ("k", "").withParameter ("é", "1")`, the last key in UTF-8: a value with
`&`, `=`, `+` and `%`, an empty value and a key with bytes above 127. -/
theorem C23_render_parse_round_trip_witness :
    (URL.ofString (URL.toString
        (URL.withParameter (URL.withParameter (URL.withParameter
          (URL.ofString (lit "http://h/p")) (lit "a b") (lit "x&y=+%")) (lit "k") [])
          [0xC3, 0xA9] (lit "1")) true)).url
      = (URL.withParameter (URL.withParameter (URL.withParameter
          (URL.ofString (lit "http://h/p")) (lit "a b") (lit "x&y=+%")) (lit "k") [])
          [0xC3, 0xA9] (lit "1")).url
    ∧ (URL.ofString (URL.toString
        (URL.withParameter (URL.withParameter (URL.withParameter
          (URL.ofString (lit "http://h/p")) (lit "a b") (lit "x&y=+%")) (lit "k") [])
          [0xC3, 0xA9] (lit "1")) true)).parameters
      = (URL.withParameter (URL.withParameter (URL.withParameter
          (URL.ofString (lit "http://h/p")) (lit "a b") (lit "x&y=+%")) (lit "k") [])
          [0xC3, 0xA9] (lit "1")).parameters :=
  C23_render_parse_round_trip
    (URL.withParameter (URL.withParameter (URL.withParameter
      (URL.ofString (lit "http://h/p")) (lit "a b") (lit "x&y=+%")) (lit "k") [])
      [0xC3, 0xA9] (lit "1"))
    (Reachable.withParameter _ _ (Reachable.withParameter _ _
      (Reachable.withParameter _ _ (Reachable.ofString _))))
    (by rw [ofString_no_query (lit "http://h/p") (by decide)]; decide)
    (by rw [ofString_no_query (lit "http://h/p") (by decide)]; decide)
    (by rw [ofString_no_query (lit "http://h/p") (by decide)]; decide)
